import Mathlib

/-!
Verification of the IRC client-side state-tracking subsystem (Channel/Nick
membership graph with shared privilege records, cascading deletion, nickname
re-keying) and of the channel-mode string encoder.

The Go source is shallowly embedded: Go maps become association lists
(`lookupA`/`insertA`/`eraseA` model map read, write and `delete`), Go pointers
become numeric heap identifiers into total heap functions (`nickObjs`,
`chanObjs`, `privObjs`), and the mutually recursive deletion cascade becomes a
fuel-indexed mutual recursion returning `Option Conn` (`none` = fuel
exhausted).
-/

set_option linter.unusedVariables false

namespace Goirc

/-- Association-list lookup (first match); models Go map read. -/
def lookupA {α β : Type} [DecidableEq α] : List (α × β) → α → Option β
  | [], _ => none
  | (k, v) :: t, a => if k = a then some v else lookupA t a

/-- Association-list insert-or-overwrite; models Go map assignment. -/
def insertA {α β : Type} [DecidableEq α] : List (α × β) → α → β → List (α × β)
  | [], a, b => [(a, b)]
  | (k, v) :: t, a, b => if k = a then (a, b) :: t else (k, v) :: insertA t a b

/-- Association-list erase (all occurrences of the key); models Go `delete`
(the old `m[k] = v, false` form in the source). -/
def eraseA {α β : Type} [DecidableEq α] : List (α × β) → α → List (α × β)
  | [], _ => []
  | (k, v) :: t, a => if k = a then eraseA t a else (k, v) :: eraseA t a

/-- Pointwise update of a heap function. -/
def fupd {α : Type} (f : Nat → α) (i : Nat) (v : α) : Nat → α :=
  fun j => if j = i then v else f j

/-- The modes of an IRC Channel (`type ChanMode struct`). -/
structure ChanMode where
  Private : Bool
  Secret : Bool
  ProtectedTopic : Bool
  NoExternalMsg : Bool
  Moderated : Bool
  InviteOnly : Bool
  OperOnly : Bool
  SSLOnly : Bool
  Key : String
  Limit : Int
deriving DecidableEq

/-- The modes of an IRC Nick (`type NickMode struct`). -/
structure NickMode where
  Invisible : Bool
  Oper : Bool
  WallOps : Bool
  HiddenHost : Bool
  SSL : Bool
deriving DecidableEq

/-- The modes a Nick can have on a Channel (`type ChanPrivs struct`). -/
structure ChanPrivs where
  Owner : Bool
  Admin : Bool
  Op : Bool
  HalfOp : Bool
  Voice : Bool
deriving DecidableEq

/-- `new(ChanMode)`: the zero value. -/
def ChanMode.zero : ChanMode := ⟨false, false, false, false, false, false, false, false, "", 0⟩

/-- `new(NickMode)`: the zero value. -/
def NickMode.zero : NickMode := ⟨false, false, false, false, false⟩

/-- `new(ChanPrivs)`: the zero value. -/
def ChanPrivs.zero : ChanPrivs := ⟨false, false, false, false, false⟩

/-- An IRC nick (`type Nick struct`).  `Channels` maps Channel heap ids to
ChanPrivs heap ids (Go: `map[*Channel]*ChanPrivs`). -/
structure Nick where
  Nick : String
  Ident : String
  Host : String
  Name : String
  Modes : NickMode
  Channels : List (Nat × Nat)
deriving DecidableEq

/-- An IRC channel (`type Channel struct`).  `Nicks` maps Nick heap ids to
ChanPrivs heap ids (Go: `map[*Nick]*ChanPrivs`). -/
structure Channel where
  Name : String
  Topic : String
  Modes : ChanMode
  Nicks : List (Nat × Nat)
deriving DecidableEq

/-- The connection state: the two string indices `nicks`/`chans`, the local
identity `Me`, and the heaps.  `nickIds`/`chanIds` record which heap ids have
been allocated; `nextId` is the allocator. -/
structure Conn where
  nicks : List (String × Nat)
  chans : List (String × Nat)
  Me : Nat
  nickIds : List Nat
  chanIds : List Nat
  nickObjs : Nat → Nick
  chanObjs : Nat → Channel
  privObjs : Nat → ChanPrivs
  nextId : Nat
  warnings : List String

/-- Apply a function to one nick object in the heap. -/
def updNick (s : Conn) (nid : Nat) (g : Nick → Nick) : Conn :=
  { s with nickObjs := fupd s.nickObjs nid (g (s.nickObjs nid)) }

/-- Apply a function to one channel object in the heap. -/
def updChan (s : Conn) (cid : Nat) (g : Channel → Channel) : Conn :=
  { s with chanObjs := fupd s.chanObjs cid (g (s.chanObjs cid)) }

/-- `Conn.NewNick`: build a Nick, initialise it, and index it by its nick. -/
def Conn.NewNick (s : Conn) (nick ident name host : String) : Conn :=
  let nid := s.nextId
  { s with
    nickObjs := fupd s.nickObjs nid
      { Nick := nick, Ident := ident, Name := name, Host := host,
        Modes := NickMode.zero, Channels := [] },
    nicks := insertA s.nicks nick nid,
    nickIds := s.nickIds ++ [nid],
    nextId := s.nextId + 1 }

/-- `Conn.GetNick`: look a nick up in the index. -/
def Conn.GetNick (s : Conn) (n : String) : Option Nat :=
  lookupA s.nicks n

/-- `Conn.NewChannel`: build a Channel, initialise it, and index it by name. -/
def Conn.NewChannel (s : Conn) (c : String) : Conn :=
  let cid := s.nextId
  { s with
    chanObjs := fupd s.chanObjs cid
      { Name := c, Topic := "", Modes := ChanMode.zero, Nicks := [] },
    chans := insertA s.chans c cid,
    chanIds := s.chanIds ++ [cid],
    nextId := s.nextId + 1 }

/-- `Conn.GetChannel`: look a channel up in the index. -/
def Conn.GetChannel (s : Conn) (c : String) : Option Nat :=
  lookupA s.chans c

/-- The warning emitted by `Channel.AddNick` on a duplicate join. -/
def addNickWarning (s : Conn) (cid nid : Nat) : String :=
  "irc.Channel.AddNick() warning: trying to add already-present nick " ++
    (s.nickObjs nid).Nick ++ " to channel " ++ (s.chanObjs cid).Name

/-- The warning emitted by `Nick.AddChannel` on a duplicate join. -/
def addChannelWarning (s : Conn) (nid cid : Nat) : String :=
  "irc.Nick.AddChannel() warning: trying to add already-present channel " ++
    (s.chanObjs cid).Name ++ " to nick " ++ (s.nickObjs nid).Nick

/-- `Channel.AddNick`: associate a Nick with a Channel using a freshly
allocated shared ChanPrivs (`ch.Nicks[n] = new(ChanPrivs);
n.Channels[ch] = ch.Nicks[n]`), guarded on the channel-side map. -/
def Channel.AddNick (s : Conn) (cid nid : Nat) : Conn :=
  match lookupA (s.chanObjs cid).Nicks nid with
  | none =>
    let pid := s.nextId
    let s1 := { s with privObjs := fupd s.privObjs pid ChanPrivs.zero,
                       nextId := s.nextId + 1 }
    let s2 := updChan s1 cid (fun ch => { ch with Nicks := insertA ch.Nicks nid pid })
    updNick s2 nid (fun n => { n with Channels := insertA n.Channels cid pid })
  | some _ => { s with warnings := s.warnings ++ [addNickWarning s cid nid] }

/-- `Nick.AddChannel`: the symmetric join, guarded on the nick-side map. -/
def Nick.AddChannel (s : Conn) (nid cid : Nat) : Conn :=
  match lookupA (s.nickObjs nid).Channels cid with
  | none =>
    let pid := s.nextId
    let s1 := { s with privObjs := fupd s.privObjs pid ChanPrivs.zero,
                       nextId := s.nextId + 1 }
    let s2 := updChan s1 cid (fun ch => { ch with Nicks := insertA ch.Nicks nid pid })
    updNick s2 nid (fun n => { n with Channels := insertA n.Channels cid pid })
  | some _ => { s with warnings := s.warnings ++ [addChannelWarning s nid cid] }

/-- `Nick.ReNick`: re-key the nickname index
(`conn.nicks[n.Nick] = nil, false; n.Nick = neu; conn.nicks[n.Nick] = n`). -/
def Nick.ReNick (s : Conn) (nid : Nat) (neu : String) : Conn :=
  let s1 := { s with nicks := eraseA s.nicks (s.nickObjs nid).Nick }
  let s2 := updNick s1 nid (fun n => { n with Nick := neu })
  { s2 with nicks := insertA s2.nicks (s2.nickObjs nid).Nick nid }

mutual

/-- `Channel.DelNick`: disassociate a Nick from a Channel; calls
`Channel.Delete` when the nick is `conn.Me`, otherwise erases the channel-side
entry and calls `Nick.DelChannel`.  Missing membership is a silent no-op
(the source's `// no else here` comment).  All six cascade functions are
fuel-indexed (`none` = out of fuel); fuel is an artifact of the embedding and
a sufficient bound is proved below. -/
def Channel.DelNick (fuel : Nat) (s : Conn) (cid nid : Nat) : Option Conn :=
  match fuel with
  | 0 => none
  | fuel' + 1 =>
    match lookupA (s.chanObjs cid).Nicks nid with
    | some _ =>
      if nid = s.Me then
        Channel.Delete fuel' s cid
      else
        let s1 := updChan s cid (fun ch => { ch with Nicks := eraseA ch.Nicks nid })
        Nick.DelChannel fuel' s1 cid nid
    | none => some s
termination_by structural fuel

/-- `Channel.Delete`: call `n.DelChannel(ch)` for every member (iterating a
snapshot of the member keys; each call is guarded, matching Go's
delete-during-range semantics), then remove the channel from the index. -/
def Channel.Delete (fuel : Nat) (s : Conn) (cid : Nat) : Option Conn :=
  match fuel with
  | 0 => none
  | fuel' + 1 =>
    match Channel.DeleteLoop fuel' s cid ((s.chanObjs cid).Nicks.map Prod.fst) with
    | some s1 => some { s1 with chans := eraseA s1.chans (s1.chanObjs cid).Name }
    | none => none
termination_by structural fuel

/-- The `for n, _ := range ch.Nicks` loop of `Channel.Delete`. -/
def Channel.DeleteLoop (fuel : Nat) (s : Conn) (cid : Nat) (l : List Nat) : Option Conn :=
  match fuel with
  | 0 => none
  | fuel' + 1 =>
    match l with
    | [] => some s
    | nid :: rest =>
      match Nick.DelChannel fuel' s cid nid with
      | some s1 => Channel.DeleteLoop fuel' s1 cid rest
      | none => none
termination_by structural fuel

/-- `Nick.DelChannel`: disassociate a Channel from a Nick; erases the
nick-side entry, calls `Channel.DelNick`, and calls `Nick.Delete` when the
nick is left with no channels. -/
def Nick.DelChannel (fuel : Nat) (s : Conn) (cid nid : Nat) : Option Conn :=
  match fuel with
  | 0 => none
  | fuel' + 1 =>
    match lookupA (s.nickObjs nid).Channels cid with
    | some _ =>
      let s1 := updNick s nid (fun n => { n with Channels := eraseA n.Channels cid })
      match Channel.DelNick fuel' s1 cid nid with
      | some s2 =>
        if (s2.nickObjs nid).Channels.length = 0 then
          Nick.Delete fuel' s2 nid
        else
          some s2
      | none => none
    | none => some s
termination_by structural fuel

/-- `Nick.Delete`: never removes `conn.Me`; otherwise calls `ch.DelNick(n)`
for every channel of the nick (snapshot iteration, guarded calls), then
removes the nick from the index. -/
def Nick.Delete (fuel : Nat) (s : Conn) (nid : Nat) : Option Conn :=
  match fuel with
  | 0 => none
  | fuel' + 1 =>
    if nid = s.Me then some s
    else
      match Nick.DeleteLoop fuel' s nid ((s.nickObjs nid).Channels.map Prod.fst) with
      | some s1 => some { s1 with nicks := eraseA s1.nicks (s1.nickObjs nid).Nick }
      | none => none
termination_by structural fuel

/-- The `for ch, _ := range n.Channels` loop of `Nick.Delete`. -/
def Nick.DeleteLoop (fuel : Nat) (s : Conn) (nid : Nat) (l : List Nat) : Option Conn :=
  match fuel with
  | 0 => none
  | fuel' + 1 =>
    match l with
    | [] => some s
    | cid :: rest =>
      match Channel.DelNick fuel' s cid nid with
      | some s1 => Nick.DeleteLoop fuel' s1 nid rest
      | none => none
termination_by structural fuel

end

/-! ### The channel-mode string encoder (`ChanMode.String`) -/

/-- The boolean channel-mode fields in struct declaration order, paired with
their IRC mode characters (`ChanModeToString`); this is the order in which the
reflection loop of `ChanMode.String` visits them. -/
def ChanMode.boolFlags (cm : ChanMode) : List (Bool × String) :=
  [(cm.Private, "p"), (cm.Secret, "s"), (cm.ProtectedTopic, "t"),
   (cm.NoExternalMsg, "n"), (cm.Moderated, "m"), (cm.InviteOnly, "i"),
   (cm.OperOnly, "O"), (cm.SSLOnly, "z")]

/-- The `str += char` accumulation of the reflection loop over boolean
fields. -/
def appendFlags (str : String) : List (Bool × String) → String
  | [] => str
  | (b, c) :: t => appendFlags (if b then str ++ c else str) t

/-- `ChanMode.String`: `"+"`, then one character per set boolean flag in field
order, then `k`/`l` for a non-empty `Key` / non-zero `Limit` (stashing the
argument values in `a[0]`/`a[1]`), then the stashed arguments, and the
`"No modes set"` fallback when the mode string is still bare. -/
def ChanMode.String (cm : ChanMode) : String :=
  let str := appendFlags "+" cm.boolFlags
  let str := if cm.Key ≠ "" then str ++ "k" else str
  let a0 := if cm.Key ≠ "" then cm.Key else ""
  let str := if cm.Limit ≠ 0 then str ++ "l" else str
  let a1 := if cm.Limit ≠ 0 then toString cm.Limit else ""
  let str := if a0 ≠ "" then str ++ " " ++ a0 else str
  let str := if a1 ≠ "" then str ++ " " ++ a1 else str
  if str = "+" then "No modes set" else str

/-- Claim side: no boolean flag is set and neither argument is present. -/
def ChanMode.noModes (cm : ChanMode) : Prop :=
  cm.Private = false ∧ cm.Secret = false ∧ cm.ProtectedTopic = false ∧
  cm.NoExternalMsg = false ∧ cm.Moderated = false ∧ cm.InviteOnly = false ∧
  cm.OperOnly = false ∧ cm.SSLOnly = false ∧ cm.Key = "" ∧ cm.Limit = 0

instance (cm : ChanMode) : Decidable (ChanMode.noModes cm) := by
  unfold ChanMode.noModes; infer_instance

/-- The encoding as the specification describes it: `"+"`, the characters of
the set boolean flags in table order, the `k`/`l` characters, then the at most
two space-separated arguments in fixed position order (Key value first, then
Limit value); `"No modes set"` when no flag is set and no argument present. -/
def chanModeSpec (cm : ChanMode) : String :=
  if ChanMode.noModes cm then "No modes set"
  else
    "+" ++ appendFlags "" cm.boolFlags
      ++ (if cm.Key ≠ "" then "k" else "") ++ (if cm.Limit ≠ 0 then "l" else "")
      ++ (if cm.Key ≠ "" then " " ++ cm.Key else "")
      ++ (if cm.Limit ≠ 0 then " " ++ toString cm.Limit else "")

theorem appendFlags_init (str : String) (l : List (Bool × String)) :
    appendFlags str l = str ++ appendFlags "" l := by
  induction l generalizing str with
  | nil => simp [appendFlags]
  | cons bc t ih =>
    obtain ⟨b, c⟩ := bc
    cases b with
    | false =>
      show appendFlags str t = str ++ appendFlags "" t
      exact ih str
    | true =>
      show appendFlags (str ++ c) t = str ++ appendFlags ("" ++ c) t
      rw [ih (str ++ c), ih ("" ++ c), String.append_assoc]
      rfl

theorem plus_append_eq_plus_iff (a : String) : ("+" ++ a = "+") ↔ a = "" := by
  constructor
  · intro h
    have h2 := congrArg String.data h
    simp [String.data_append] at h2
    exact String.ext (by simp [h2])
  · intro h; subst h; rfl

theorem toDigitsCore_ne_nil (b f n : Nat) (l : List Char) :
    Nat.toDigitsCore b (f+1) n l ≠ [] := by
  simp only [Nat.toDigitsCore]
  split
  · exact List.cons_ne_nil _ _
  · intro h
    have h2 := congrArg List.length h
    rw [Nat.toDigitsCore_lens_eq] at h2
    simp at h2

theorem natRepr_ne_empty (n : Nat) : Nat.repr n ≠ "" := by
  intro h
  have h2 : Nat.toDigits 10 n = [] := congrArg String.data h
  exact toDigitsCore_ne_nil 10 n n [] h2

theorem intToString_ne_empty (i : Int) : toString i ≠ "" := by
  cases i with
  | ofNat m => exact natRepr_ne_empty m
  | negSucc m =>
    intro h
    have h2 : ("-" ++ Nat.repr (m+1)).data = [] := congrArg String.data h
    simp [String.data_append] at h2

theorem intToString_data_ne_nil (i : Int) : (toString i).data ≠ [] :=
  fun h => intToString_ne_empty i (String.ext h)

theorem appendFlags_empty_iff (cm : ChanMode) :
    appendFlags "" cm.boolFlags = "" ↔
      (cm.Private = false ∧ cm.Secret = false ∧ cm.ProtectedTopic = false ∧
       cm.NoExternalMsg = false ∧ cm.Moderated = false ∧ cm.InviteOnly = false ∧
       cm.OperOnly = false ∧ cm.SSLOnly = false) := by
  obtain ⟨p, s, t, n, m, i, o, z, k, li⟩ := cm
  cases p <;> cases s <;> cases t <;> cases n <;> cases m <;> cases i <;>
    cases o <;> cases z <;> simp [ChanMode.boolFlags, appendFlags]

/-! ### Association-list lemmas -/

theorem lookupA_insertA_self {α β : Type} [DecidableEq α] (l : List (α × β)) (a : α) (b : β) :
    lookupA (insertA l a b) a = some b := by
  induction l with
  | nil => simp [insertA, lookupA]
  | cons kv t ih =>
    obtain ⟨k, v⟩ := kv
    by_cases h : k = a <;> simp [insertA, lookupA, h, ih]

theorem lookupA_insertA_ne {α β : Type} [DecidableEq α] (l : List (α × β)) (a a' : α) (b : β)
    (h : a' ≠ a) : lookupA (insertA l a b) a' = lookupA l a' := by
  induction l with
  | nil => simp [insertA, lookupA, h.symm]
  | cons kv t ih =>
    obtain ⟨k, v⟩ := kv
    by_cases hk : k = a
    · subst hk
      simp [insertA, lookupA, h.symm]
    · by_cases hk' : k = a' <;> simp [insertA, lookupA, hk, hk', ih, h]

theorem lookupA_eraseA_self {α β : Type} [DecidableEq α] (l : List (α × β)) (a : α) :
    lookupA (eraseA l a) a = none := by
  induction l with
  | nil => simp [eraseA, lookupA]
  | cons kv t ih =>
    obtain ⟨k, v⟩ := kv
    by_cases h : k = a <;> simp [eraseA, lookupA, h, ih]

theorem lookupA_eraseA_ne {α β : Type} [DecidableEq α] (l : List (α × β)) (a a' : α)
    (h : a' ≠ a) : lookupA (eraseA l a) a' = lookupA l a' := by
  induction l with
  | nil => simp [eraseA]
  | cons kv t ih =>
    obtain ⟨k, v⟩ := kv
    by_cases hk : k = a
    · subst hk
      simp [eraseA, lookupA, h.symm, ih]
    · simp [eraseA, lookupA, hk, ih]

theorem eraseA_of_lookupA_none {α β : Type} [DecidableEq α] (l : List (α × β)) (a : α)
    (h : lookupA l a = none) : eraseA l a = l := by
  induction l with
  | nil => simp [eraseA]
  | cons kv t ih =>
    obtain ⟨k, v⟩ := kv
    by_cases hk : k = a
    · simp [lookupA, hk] at h
    · simp [lookupA, hk] at h
      simp [eraseA, hk, ih h]

theorem length_eraseA_le {α β : Type} [DecidableEq α] (l : List (α × β)) (a : α) :
    (eraseA l a).length ≤ l.length := by
  induction l with
  | nil => simp [eraseA]
  | cons kv t ih =>
    obtain ⟨k, v⟩ := kv
    by_cases hk : k = a <;> simp [eraseA, hk] <;> omega

theorem length_eraseA_lt {α β : Type} [DecidableEq α] (l : List (α × β)) (a : α) (b : β)
    (h : lookupA l a = some b) : (eraseA l a).length < l.length := by
  induction l with
  | nil => simp [lookupA] at h
  | cons kv t ih =>
    obtain ⟨k, v⟩ := kv
    by_cases hk : k = a
    · have := length_eraseA_le t a
      simp [eraseA, hk]
      omega
    · simp [lookupA, hk] at h
      have := ih h
      simp [eraseA, hk]
      omega

theorem mem_of_lookupA_some {α β : Type} [DecidableEq α] (l : List (α × β)) (a : α) (b : β)
    (h : lookupA l a = some b) : (a, b) ∈ l := by
  induction l with
  | nil => simp [lookupA] at h
  | cons kv t ih =>
    obtain ⟨k, v⟩ := kv
    by_cases hk : k = a
    · subst hk
      simp [lookupA] at h
      simp [h]
    · simp [lookupA, hk] at h
      simp [ih h]

theorem lookupA_isSome_of_mem {α β : Type} [DecidableEq α] (l : List (α × β)) (a : α) (b : β)
    (h : (a, b) ∈ l) : (lookupA l a).isSome := by
  induction l with
  | nil => simp at h
  | cons kv t ih =>
    obtain ⟨k, v⟩ := kv
    by_cases hk : k = a
    · simp [lookupA, hk]
    · simp at h
      rcases h with h | h
      · exact absurd h.1.symm hk
      · simp [lookupA, hk, ih h]

/-! ### Operation interface and initial state -/

/-- The state with the warning log cleared: the membership graph, the two
indices, the heaps and the allocator — everything the spec calls the
graph state. -/
def stripWarnings (s : Conn) : Conn := { s with warnings := [] }

/-- Total membership-entry count over the allocated heap objects; the
termination measure for the deletion cascade. -/
def totalEntries (s : Conn) : Nat :=
  (s.nickIds.map (fun i => ((s.nickObjs i).Channels).length)).sum +
  (s.chanIds.map (fun i => ((s.chanObjs i).Nicks).length)).sum

/-- Fuel that always suffices for the cascade (proved below). -/
def bigFuel (s : Conn) : Nat :=
  2 * totalEntries s * totalEntries s + 8 * totalEntries s + 8

/-- The public operations of the subsystem, as driven by the protocol event
source: entities are named by strings and resolved through the indices
(`GetNick`/`GetChannel`), exactly as the IRC event handlers do; an operation
on an unresolvable name is a no-op, and a channel is created only when its
name is not already tracked (the JOIN handler looks a channel up and calls
`NewChannel` only on a miss). -/
inductive Op where
  | newNick (nick ident name host : String)
  | newChannel (c : String)
  | addNick (c n : String)
  | addChannel (n c : String)
  | delNick (c n : String)
  | delChannel (n c : String)
  | deleteChannel (c : String)
  | deleteNick (n : String)
  | reNick (n neu : String)

/-- Apply one public operation (deletion cascades run with sufficient fuel). -/
def applyOp (s : Conn) : Op → Conn
  | .newNick nick ident name host => s.NewNick nick ident name host
  | .newChannel c =>
    match s.GetChannel c with
    | some _ => s
    | none => s.NewChannel c
  | .addNick c n =>
    match s.GetChannel c, s.GetNick n with
    | some cid, some nid => Channel.AddNick s cid nid
    | _, _ => s
  | .addChannel n c =>
    match s.GetNick n, s.GetChannel c with
    | some nid, some cid => Nick.AddChannel s nid cid
    | _, _ => s
  | .delNick c n =>
    match s.GetChannel c, s.GetNick n with
    | some cid, some nid => (Channel.DelNick (bigFuel s) s cid nid).getD s
    | _, _ => s
  | .delChannel n c =>
    match s.GetNick n, s.GetChannel c with
    | some nid, some cid => (Nick.DelChannel (bigFuel s) s cid nid).getD s
    | _, _ => s
  | .deleteChannel c =>
    match s.GetChannel c with
    | some cid => (Channel.Delete (bigFuel s) s cid).getD s
    | none => s
  | .deleteNick n =>
    match s.GetNick n with
    | some nid => (Nick.Delete (bigFuel s) s nid).getD s
    | none => s
  | .reNick n neu =>
    match s.GetNick n with
    | some nid => Nick.ReNick s nid neu
    | none => s

/-- Run a sequence of public operations. -/
def runOps (s : Conn) : List Op → Conn
  | [] => s
  | op :: t => runOps (applyOp s op) t

/-- The empty store: only the local identity exists, indexed under `"me"`. -/
def initConn : Conn :=
  { nicks := [("me", 0)], chans := [], Me := 0,
    nickIds := [0], chanIds := [],
    nickObjs := fupd
      (fun _ => { Nick := "", Ident := "", Host := "", Name := "",
                  Modes := NickMode.zero, Channels := [] }) 0
      { Nick := "me", Ident := "ident", Host := "host", Name := "name",
        Modes := NickMode.zero, Channels := [] },
    chanObjs := fun _ => { Name := "", Topic := "", Modes := ChanMode.zero, Nicks := [] },
    privObjs := fun _ => ChanPrivs.zero,
    nextId := 1, warnings := [] }

/-! ### Unconditional frame facts of the deletion cascade -/

theorem fupd_self {α : Type} (f : Nat → α) (i : Nat) (v : α) : fupd f i v i = v := by
  simp [fupd]

theorem fupd_ne {α : Type} (f : Nat → α) (i j : Nat) (v : α) (h : j ≠ i) :
    fupd f i v j = f j := by
  simp [fupd, h]

theorem DelNick_zero (s : Conn) (cid nid : Nat) : Channel.DelNick 0 s cid nid = none := rfl

theorem DelNick_succ (fuel : Nat) (s : Conn) (cid nid : Nat) :
    Channel.DelNick (fuel+1) s cid nid =
      match lookupA (s.chanObjs cid).Nicks nid with
      | some _ =>
        if nid = s.Me then Channel.Delete fuel s cid
        else Nick.DelChannel fuel
          (updChan s cid (fun ch => { ch with Nicks := eraseA ch.Nicks nid })) cid nid
      | none => some s := rfl

theorem Delete_zero (s : Conn) (cid : Nat) : Channel.Delete 0 s cid = none := rfl

theorem Delete_succ (fuel : Nat) (s : Conn) (cid : Nat) :
    Channel.Delete (fuel+1) s cid =
      match Channel.DeleteLoop fuel s cid ((s.chanObjs cid).Nicks.map Prod.fst) with
      | some s1 => some { s1 with chans := eraseA s1.chans (s1.chanObjs cid).Name }
      | none => none := rfl

theorem DeleteLoop_zero (s : Conn) (cid : Nat) (l : List Nat) :
    Channel.DeleteLoop 0 s cid l = none := rfl

theorem DeleteLoop_succ (fuel : Nat) (s : Conn) (cid : Nat) (l : List Nat) :
    Channel.DeleteLoop (fuel+1) s cid l =
      match l with
      | [] => some s
      | nid :: rest =>
        match Nick.DelChannel fuel s cid nid with
        | some s1 => Channel.DeleteLoop fuel s1 cid rest
        | none => none := rfl

theorem DelChannel_zero (s : Conn) (cid nid : Nat) : Nick.DelChannel 0 s cid nid = none := rfl

theorem DelChannel_succ (fuel : Nat) (s : Conn) (cid nid : Nat) :
    Nick.DelChannel (fuel+1) s cid nid =
      match lookupA (s.nickObjs nid).Channels cid with
      | some _ =>
        match Channel.DelNick fuel
            (updNick s nid (fun n => { n with Channels := eraseA n.Channels cid })) cid nid with
        | some s2 =>
          if (s2.nickObjs nid).Channels.length = 0 then Nick.Delete fuel s2 nid
          else some s2
        | none => none
      | none => some s := rfl

theorem NickDelete_zero (s : Conn) (nid : Nat) : Nick.Delete 0 s nid = none := rfl

theorem NickDelete_succ (fuel : Nat) (s : Conn) (nid : Nat) :
    Nick.Delete (fuel+1) s nid =
      if nid = s.Me then some s
      else
        match Nick.DeleteLoop fuel s nid ((s.nickObjs nid).Channels.map Prod.fst) with
        | some s1 => some { s1 with nicks := eraseA s1.nicks (s1.nickObjs nid).Nick }
        | none => none := rfl

theorem NickDeleteLoop_zero (s : Conn) (nid : Nat) (l : List Nat) :
    Nick.DeleteLoop 0 s nid l = none := rfl

theorem NickDeleteLoop_succ (fuel : Nat) (s : Conn) (nid : Nat) (l : List Nat) :
    Nick.DeleteLoop (fuel+1) s nid l =
      match l with
      | [] => some s
      | cid :: rest =>
        match Channel.DelNick fuel s cid nid with
        | some s1 => Nick.DeleteLoop fuel s1 nid rest
        | none => none := rfl

/-- Frame facts that hold across every (partial) run of the deletion cascade:
the allocation lists, identity, allocator, privilege heap and warning log are
untouched; all non-membership fields of every heap object are untouched;
membership entries and index entries are only ever erased, never added or
changed; and the local identity's channel-side entries are never erased. -/
structure FramePost (s s' : Conn) : Prop where
  me_eq : s'.Me = s.Me
  nickIds_eq : s'.nickIds = s.nickIds
  chanIds_eq : s'.chanIds = s.chanIds
  nextId_eq : s'.nextId = s.nextId
  priv_eq : s'.privObjs = s.privObjs
  warn_eq : s'.warnings = s.warnings
  nick_fields : ∀ i, s'.nickObjs i = { s.nickObjs i with Channels := (s'.nickObjs i).Channels }
  chan_fields : ∀ i, s'.chanObjs i = { s.chanObjs i with Nicks := (s'.chanObjs i).Nicks }
  nick_side : ∀ n c, lookupA (s'.nickObjs n).Channels c = lookupA (s.nickObjs n).Channels c ∨
    lookupA (s'.nickObjs n).Channels c = none
  chan_side : ∀ c n, lookupA (s'.chanObjs c).Nicks n = lookupA (s.chanObjs c).Nicks n ∨
    lookupA (s'.chanObjs c).Nicks n = none
  me_chan : ∀ c, lookupA (s'.chanObjs c).Nicks s.Me = lookupA (s.chanObjs c).Nicks s.Me
  nicks_idx : ∀ k, lookupA s'.nicks k = lookupA s.nicks k ∨ lookupA s'.nicks k = none
  chans_idx : ∀ k, lookupA s'.chans k = lookupA s.chans k ∨ lookupA s'.chans k = none
  nick_len : ∀ i, ((s'.nickObjs i).Channels).length ≤ ((s.nickObjs i).Channels).length
  chan_len : ∀ i, ((s'.chanObjs i).Nicks).length ≤ ((s.chanObjs i).Nicks).length

theorem FramePost.rfl (s : Conn) : FramePost s s := by
  constructor <;> intros <;> simp

theorem FramePost.trans {s1 s2 s3 : Conn} (a : FramePost s1 s2) (b : FramePost s2 s3) :
    FramePost s1 s3 := by
  constructor
  · rw [b.me_eq, a.me_eq]
  · rw [b.nickIds_eq, a.nickIds_eq]
  · rw [b.chanIds_eq, a.chanIds_eq]
  · rw [b.nextId_eq, a.nextId_eq]
  · rw [b.priv_eq, a.priv_eq]
  · rw [b.warn_eq, a.warn_eq]
  · intro i
    rw [b.nick_fields i, a.nick_fields i]
  · intro i
    rw [b.chan_fields i, a.chan_fields i]
  · intro n c
    rcases b.nick_side n c with h | h
    · rw [h]
      exact a.nick_side n c
    · exact Or.inr h
  · intro c n
    rcases b.chan_side c n with h | h
    · rw [h]
      exact a.chan_side c n
    · exact Or.inr h
  · intro c
    have hb := b.me_chan c
    rw [a.me_eq] at hb
    rw [hb]
    exact a.me_chan c
  · intro k
    rcases b.nicks_idx k with h | h
    · rw [h]
      exact a.nicks_idx k
    · exact Or.inr h
  · intro k
    rcases b.chans_idx k with h | h
    · rw [h]
      exact a.chans_idx k
    · exact Or.inr h
  · intro i
    exact le_trans (b.nick_len i) (a.nick_len i)
  · intro i
    exact le_trans (b.chan_len i) (a.chan_len i)

theorem frame_eraseNickSide (s : Conn) (nid cid : Nat) :
    FramePost s (updNick s nid (fun n => { n with Channels := eraseA n.Channels cid })) := by
  constructor <;> intros <;> simp [updNick] <;> try rfl
  case nick_fields =>
    rename_i i
    by_cases h : i = nid <;> simp [fupd, h]
  case nick_side =>
    rename_i n c
    by_cases h : n = nid
    · subst h
      by_cases hc : c = cid
      · subst hc
        simp [fupd_self, lookupA_eraseA_self]
      · simp [fupd_self, lookupA_eraseA_ne _ _ _ hc]
    · simp [fupd_ne _ _ _ _ h]
  case nick_len =>
    rename_i i
    by_cases h : i = nid
    · subst h
      simp [fupd_self, length_eraseA_le]
    · simp [fupd_ne _ _ _ _ h]

theorem frame_eraseChanSide (s : Conn) (cid nid : Nat) (h : nid ≠ s.Me) :
    FramePost s (updChan s cid (fun ch => { ch with Nicks := eraseA ch.Nicks nid })) := by
  constructor <;> intros <;> simp [updChan] <;> try rfl
  case chan_fields =>
    rename_i i
    by_cases hi : i = cid <;> simp [fupd, hi]
  case chan_side =>
    rename_i c n
    by_cases hc : c = cid
    · subst hc
      by_cases hn : n = nid
      · subst hn
        simp [fupd_self, lookupA_eraseA_self]
      · simp [fupd_self, lookupA_eraseA_ne _ _ _ hn]
    · simp [fupd_ne _ _ _ _ hc]
  case me_chan =>
    rename_i c
    by_cases hc : c = cid
    · subst hc
      simp [fupd_self, lookupA_eraseA_ne _ _ _ (Ne.symm h)]
    · simp [fupd_ne _ _ _ _ hc]
  case chan_len =>
    rename_i i
    by_cases hc : i = cid
    · subst hc
      simp [fupd_self, length_eraseA_le]
    · simp [fupd_ne _ _ _ _ hc]

theorem frame_eraseNicksIdx (s : Conn) (k : String) :
    FramePost s { s with nicks := eraseA s.nicks k } := by
  constructor <;> intros <;> simp
  rename_i k'
  by_cases h : k' = k
  · subst h
    simp [lookupA_eraseA_self]
  · simp [lookupA_eraseA_ne _ _ _ h]

theorem frame_eraseChansIdx (s : Conn) (k : String) :
    FramePost s { s with chans := eraseA s.chans k } := by
  constructor <;> intros <;> simp
  rename_i k'
  by_cases h : k' = k
  · subst h
    simp [lookupA_eraseA_self]
  · simp [lookupA_eraseA_ne _ _ _ h]

/-- The unconditional frame facts, plus per-function erasure facts, hold of
every successful cascade run, by induction on fuel. -/
theorem cascadeFrame : ∀ fuel : Nat,
    (∀ s cid nid s', Channel.DelNick fuel s cid nid = some s' →
      FramePost s s' ∧
      (nid ≠ s.Me → lookupA (s'.chanObjs cid).Nicks nid = none ∧ s'.chans = s.chans)) ∧
    (∀ s cid s', Channel.Delete fuel s cid = some s' →
      FramePost s s' ∧ lookupA s'.chans ((s.chanObjs cid).Name) = none ∧
      (∀ m, m ∈ ((s.chanObjs cid).Nicks.map Prod.fst) →
        lookupA (s'.nickObjs m).Channels cid = none)) ∧
    (∀ s cid l s', Channel.DeleteLoop fuel s cid l = some s' →
      FramePost s s' ∧ (∀ m, m ∈ l → lookupA (s'.nickObjs m).Channels cid = none)) ∧
    (∀ s cid nid s', Nick.DelChannel fuel s cid nid = some s' →
      FramePost s s' ∧ lookupA (s'.nickObjs nid).Channels cid = none ∧
      (nid ≠ s.Me → s'.chans = s.chans)) ∧
    (∀ s nid s', Nick.Delete fuel s nid = some s' →
      FramePost s s' ∧ (nid ≠ s.Me → s'.chans = s.chans)) ∧
    (∀ s nid l s', Nick.DeleteLoop fuel s nid l = some s' →
      FramePost s s' ∧ (nid ≠ s.Me → s'.chans = s.chans)) := by
  intro fuel
  induction fuel with
  | zero =>
    refine ⟨?_, ?_, ?_, ?_, ?_, ?_⟩
    · intro s cid nid s' h
      simp [DelNick_zero] at h
    · intro s cid s' h
      simp [Delete_zero] at h
    · intro s cid l s' h
      simp [DeleteLoop_zero] at h
    · intro s cid nid s' h
      simp [DelChannel_zero] at h
    · intro s nid s' h
      simp [NickDelete_zero] at h
    · intro s nid l s' h
      simp [NickDeleteLoop_zero] at h
  | succ fuel ih =>
    obtain ⟨ihCDN, ihCD, ihCDL, ihN, ihND, ihNDL⟩ := ih
    refine ⟨?_, ?_, ?_, ?_, ?_, ?_⟩
    · -- Channel.DelNick
      intro s cid nid s' h
      rw [DelNick_succ] at h
      cases hg : lookupA (s.chanObjs cid).Nicks nid with
      | none =>
        rw [hg] at h
        simp only [Option.some.injEq] at h
        subst h
        exact ⟨FramePost.rfl s, fun _ => ⟨hg, Eq.refl _⟩⟩
      | some p =>
        rw [hg] at h
        simp only at h
        by_cases hme : nid = s.Me
        · rw [if_pos hme] at h
          obtain ⟨hf, _, _⟩ := ihCD s cid s' h
          exact ⟨hf, fun hne => absurd hme hne⟩
        · rw [if_neg hme] at h
          obtain ⟨hf, hns, hch⟩ := ihN _ cid nid s' h
          have hstep := frame_eraseChanSide s cid nid hme
          refine ⟨hstep.trans hf, fun _ => ⟨?_, ?_⟩⟩
          · rcases hf.chan_side cid nid with hcs | hcs
            · rw [hcs]
              simp [updChan, fupd_self, lookupA_eraseA_self]
            · exact hcs
          · have hch2 := hch (by simpa [updChan] using hme)
            simpa [updChan] using hch2
    · -- Channel.Delete
      intro s cid s' h
      rw [Delete_succ] at h
      cases hl : Channel.DeleteLoop fuel s cid ((s.chanObjs cid).Nicks.map Prod.fst) with
      | none => rw [hl] at h; exact absurd h (by simp)
      | some s1 =>
        rw [hl] at h
        simp only [Option.some.injEq] at h
        subst h
        obtain ⟨hf1, hmem⟩ := ihCDL s cid _ s1 hl
        have hstep := frame_eraseChansIdx s1 ((s1.chanObjs cid).Name)
        have hname : (s1.chanObjs cid).Name = (s.chanObjs cid).Name := by
          rw [hf1.chan_fields cid]
        refine ⟨hf1.trans hstep, ?_, ?_⟩
        · show lookupA (eraseA s1.chans ((s1.chanObjs cid).Name)) ((s.chanObjs cid).Name) = none
          rw [← hname]
          exact lookupA_eraseA_self _ _
        · intro m hm
          exact hmem m hm
    · -- Channel.DeleteLoop
      intro s cid l s' h
      rw [DeleteLoop_succ] at h
      cases l with
      | nil =>
        simp only [Option.some.injEq] at h
        subst h
        exact ⟨FramePost.rfl s, by simp⟩
      | cons m rest =>
        simp only at h
        cases hd : Nick.DelChannel fuel s cid m with
        | none => rw [hd] at h; exact absurd h (by simp)
        | some s1 =>
          rw [hd] at h
          obtain ⟨hf1, hns1, _⟩ := ihN s cid m s1 hd
          obtain ⟨hf2, hrest⟩ := ihCDL s1 cid rest s' h
          refine ⟨hf1.trans hf2, ?_⟩
          intro m' hm'
          rcases List.mem_cons.mp hm' with hm' | hm'
          · subst hm'
            rcases hf2.nick_side m' cid with hns | hns
            · rw [hns]
              exact hns1
            · exact hns
          · exact hrest m' hm'
    · -- Nick.DelChannel
      intro s cid nid s' h
      rw [DelChannel_succ] at h
      cases hg : lookupA (s.nickObjs nid).Channels cid with
      | none =>
        rw [hg] at h
        simp only [Option.some.injEq] at h
        subst h
        exact ⟨FramePost.rfl s, hg, fun _ => Eq.refl _⟩
      | some p =>
        rw [hg] at h
        simp only at h
        cases hc : Channel.DelNick fuel
            (updNick s nid (fun n => { n with Channels := eraseA n.Channels cid })) cid nid with
        | none => rw [hc] at h; exact absurd h (by simp)
        | some s2 =>
          rw [hc] at h
          simp only at h
          obtain ⟨hf2, hcdn⟩ := ihCDN _ cid nid s2 hc
          have hstep := frame_eraseNickSide s nid cid
          have hns2 : lookupA (s2.nickObjs nid).Channels cid = none := by
            rcases hf2.nick_side nid cid with hns | hns
            · rw [hns]
              simp [updNick, fupd_self, lookupA_eraseA_self]
            · exact hns
          by_cases hlen : (s2.nickObjs nid).Channels.length = 0
          · rw [if_pos hlen] at h
            obtain ⟨hf3, hch3⟩ := ihND s2 nid s' h
            refine ⟨(hstep.trans hf2).trans hf3, ?_, ?_⟩
            · rcases hf3.nick_side nid cid with hns | hns
              · rw [hns]
                exact hns2
              · exact hns
            · intro hne
              have hme1 : nid ≠ (updNick s nid
                  (fun n => { n with Channels := eraseA n.Channels cid })).Me := by
                simpa [updNick] using hne
              have hme2 : nid ≠ s2.Me := by
                rw [hf2.me_eq]
                exact hme1
              have e3 := hch3 hme2
              have e2 := (hcdn hme1).2
              rw [e3, e2]
              simp [updNick]
          · rw [if_neg hlen] at h
            simp only [Option.some.injEq] at h
            subst h
            refine ⟨hstep.trans hf2, hns2, ?_⟩
            intro hne
            have hme1 : nid ≠ (updNick s nid
                (fun n => { n with Channels := eraseA n.Channels cid })).Me := by
              simpa [updNick] using hne
            have e2 := (hcdn hme1).2
            rw [e2]
            simp [updNick]
    · -- Nick.Delete
      intro s nid s' h
      rw [NickDelete_succ] at h
      by_cases hme : nid = s.Me
      · rw [if_pos hme] at h
        simp only [Option.some.injEq] at h
        subst h
        exact ⟨FramePost.rfl s, fun hne => absurd hme hne⟩
      · rw [if_neg hme] at h
        cases hl : Nick.DeleteLoop fuel s nid ((s.nickObjs nid).Channels.map Prod.fst) with
        | none => rw [hl] at h; exact absurd h (by simp)
        | some s1 =>
          rw [hl] at h
          simp only [Option.some.injEq] at h
          subst h
          obtain ⟨hf1, hch1⟩ := ihNDL s nid _ s1 hl
          have hstep := frame_eraseNicksIdx s1 ((s1.nickObjs nid).Nick)
          refine ⟨hf1.trans hstep, ?_⟩
          intro hne
          exact hch1 hne
    · -- Nick.DeleteLoop
      intro s nid l s' h
      rw [NickDeleteLoop_succ] at h
      cases l with
      | nil =>
        simp only [Option.some.injEq] at h
        subst h
        exact ⟨FramePost.rfl s, fun _ => Eq.refl _⟩
      | cons c rest =>
        simp only at h
        cases hd : Channel.DelNick fuel s c nid with
        | none => rw [hd] at h; exact absurd h (by simp)
        | some s1 =>
          rw [hd] at h
          obtain ⟨hf1, hcdn1⟩ := ihCDN s c nid s1 hd
          obtain ⟨hf2, hch2⟩ := ihNDL s1 nid rest s' h
          refine ⟨hf1.trans hf2, ?_⟩
          intro hne
          have hne1 : nid ≠ s1.Me := by
            rw [hf1.me_eq]
            exact hne
          rw [hch2 hne1, (hcdn1 hne).2]

/-- Fuel monotonicity: a successful cascade run stays successful, with the
same result, under any larger fuel. -/
theorem cascadeMono : ∀ fuel : Nat, ∀ fuel' : Nat, fuel ≤ fuel' →
    (∀ s cid nid s', Channel.DelNick fuel s cid nid = some s' →
      Channel.DelNick fuel' s cid nid = some s') ∧
    (∀ s cid s', Channel.Delete fuel s cid = some s' →
      Channel.Delete fuel' s cid = some s') ∧
    (∀ s cid l s', Channel.DeleteLoop fuel s cid l = some s' →
      Channel.DeleteLoop fuel' s cid l = some s') ∧
    (∀ s cid nid s', Nick.DelChannel fuel s cid nid = some s' →
      Nick.DelChannel fuel' s cid nid = some s') ∧
    (∀ s nid s', Nick.Delete fuel s nid = some s' → Nick.Delete fuel' s nid = some s') ∧
    (∀ s nid l s', Nick.DeleteLoop fuel s nid l = some s' →
      Nick.DeleteLoop fuel' s nid l = some s') := by
  intro fuel
  induction fuel with
  | zero =>
    intro fuel' hle
    refine ⟨?_, ?_, ?_, ?_, ?_, ?_⟩
    · intro s cid nid s' h
      simp [DelNick_zero] at h
    · intro s cid s' h
      simp [Delete_zero] at h
    · intro s cid l s' h
      simp [DeleteLoop_zero] at h
    · intro s cid nid s' h
      simp [DelChannel_zero] at h
    · intro s nid s' h
      simp [NickDelete_zero] at h
    · intro s nid l s' h
      simp [NickDeleteLoop_zero] at h
  | succ fuel ih =>
    intro fuel' hle
    obtain ⟨fuel2, rfl⟩ : ∃ f2, fuel' = f2 + 1 := ⟨fuel' - 1, by omega⟩
    have hle2 : fuel ≤ fuel2 := by omega
    obtain ⟨mCDN, mCD, mCDL, mN, mND, mNDL⟩ := ih fuel2 hle2
    refine ⟨?_, ?_, ?_, ?_, ?_, ?_⟩
    · intro s cid nid s' h
      rw [DelNick_succ] at h ⊢
      cases hg : lookupA (s.chanObjs cid).Nicks nid with
      | none =>
        rw [hg] at h
        exact h
      | some p =>
        rw [hg] at h
        simp only at h ⊢
        by_cases hme : nid = s.Me
        · rw [if_pos hme] at h ⊢
          exact mCD _ _ _ h
        · rw [if_neg hme] at h ⊢
          exact mN _ _ _ _ h
    · intro s cid s' h
      rw [Delete_succ] at h ⊢
      cases hl : Channel.DeleteLoop fuel s cid ((s.chanObjs cid).Nicks.map Prod.fst) with
      | none =>
        rw [hl] at h
        exact absurd h (by simp)
      | some s1 =>
        rw [hl] at h
        rw [mCDL _ _ _ _ hl]
        exact h
    · intro s cid l s' h
      rw [DeleteLoop_succ] at h ⊢
      cases l with
      | nil => exact h
      | cons m rest =>
        simp only at h ⊢
        cases hd : Nick.DelChannel fuel s cid m with
        | none =>
          rw [hd] at h
          exact absurd h (by simp)
        | some s1 =>
          rw [hd] at h
          rw [mN _ _ _ _ hd]
          exact mCDL _ _ _ _ h
    · intro s cid nid s' h
      rw [DelChannel_succ] at h ⊢
      cases hg : lookupA (s.nickObjs nid).Channels cid with
      | none =>
        rw [hg] at h
        exact h
      | some p =>
        rw [hg] at h
        simp only at h ⊢
        cases hc : Channel.DelNick fuel
            (updNick s nid (fun n => { n with Channels := eraseA n.Channels cid })) cid nid with
        | none =>
          rw [hc] at h
          exact absurd h (by simp)
        | some s2 =>
          rw [hc] at h
          rw [mCDN _ _ _ _ hc]
          simp only at h ⊢
          by_cases hlen : (s2.nickObjs nid).Channels.length = 0
          · rw [if_pos hlen] at h ⊢
            exact mND _ _ _ h
          · rw [if_neg hlen] at h ⊢
            exact h
    · intro s nid s' h
      rw [NickDelete_succ] at h ⊢
      by_cases hme : nid = s.Me
      · rw [if_pos hme] at h ⊢
        exact h
      · rw [if_neg hme] at h ⊢
        cases hl : Nick.DeleteLoop fuel s nid ((s.nickObjs nid).Channels.map Prod.fst) with
        | none =>
          rw [hl] at h
          exact absurd h (by simp)
        | some s1 =>
          rw [hl] at h
          rw [mNDL _ _ _ _ hl]
          exact h
    · intro s nid l s' h
      rw [NickDeleteLoop_succ] at h ⊢
      cases l with
      | nil => exact h
      | cons c rest =>
        simp only at h ⊢
        cases hd : Channel.DelNick fuel s c nid with
        | none =>
          rw [hd] at h
          exact absurd h (by simp)
        | some s1 =>
          rw [hd] at h
          rw [mCDN _ _ _ _ hd]
          exact mNDL _ _ _ _ h

/-- Well-formedness of the heap: membership entries of allocated objects
reference allocated objects.  Every state the Go program can build satisfies
this, since Go map keys are live pointers. -/
def WFids (s : Conn) : Prop :=
  (∀ nid ∈ s.nickIds, ∀ e ∈ (s.nickObjs nid).Channels, e.1 ∈ s.chanIds) ∧
  (∀ cid ∈ s.chanIds, ∀ e ∈ (s.chanObjs cid).Nicks, e.1 ∈ s.nickIds)

instance (s : Conn) : Decidable (WFids s) := by
  unfold WFids; infer_instance

theorem WFids_of_frame {s s' : Conn} (hf : FramePost s s') (hw : WFids s) : WFids s' := by
  obtain ⟨h1, h2⟩ := hw
  constructor
  · intro nid hn e he
    rw [hf.nickIds_eq] at hn
    rw [hf.chanIds_eq]
    obtain ⟨b, hb⟩ := Option.isSome_iff_exists.mp (lookupA_isSome_of_mem _ e.1 e.2 (by simpa using he))
    rcases hf.nick_side nid e.1 with hh | hh
    · rw [hh] at hb
      exact h1 nid hn (e.1, b) (mem_of_lookupA_some _ _ _ hb)
    · rw [hh] at hb
      exact absurd hb (by simp)
  · intro cid hc e he
    rw [hf.chanIds_eq] at hc
    rw [hf.nickIds_eq]
    obtain ⟨b, hb⟩ := Option.isSome_iff_exists.mp (lookupA_isSome_of_mem _ e.1 e.2 (by simpa using he))
    rcases hf.chan_side cid e.1 with hh | hh
    · rw [hh] at hb
      exact h2 cid hc (e.1, b) (mem_of_lookupA_some _ _ _ hb)
    · rw [hh] at hb
      exact absurd hb (by simp)

theorem totalEntries_le_of_frame {s s' : Conn} (hf : FramePost s s') :
    totalEntries s' ≤ totalEntries s := by
  unfold totalEntries
  rw [hf.nickIds_eq, hf.chanIds_eq]
  have h1 := List.sum_le_sum (fun i (_ : i ∈ s.nickIds) => hf.nick_len i)
  have h2 := List.sum_le_sum (fun i (_ : i ∈ s.chanIds) => hf.chan_len i)
  omega

theorem totalEntries_eraseNickSide_lt (s : Conn) (nid cid p : Nat)
    (hn : nid ∈ s.nickIds) (hl : lookupA (s.nickObjs nid).Channels cid = some p) :
    totalEntries (updNick s nid (fun n => { n with Channels := eraseA n.Channels cid })) <
      totalEntries s := by
  unfold totalEntries
  simp only [updNick]
  apply Nat.add_lt_add_of_lt_of_le
  · apply List.sum_lt_sum
    · intro i hi
      by_cases h : i = nid
      · subst h
        simp [fupd_self]
        exact length_eraseA_le _ _
      · simp [fupd_ne _ _ _ _ h]
    · refine ⟨nid, hn, ?_⟩
      simp only [fupd_self]
      exact length_eraseA_lt _ _ _ hl
  · exact Nat.le_refl _

theorem totalEntries_eraseChanSide_lt (s : Conn) (cid nid p : Nat)
    (hc : cid ∈ s.chanIds) (hl : lookupA (s.chanObjs cid).Nicks nid = some p) :
    totalEntries (updChan s cid (fun ch => { ch with Nicks := eraseA ch.Nicks nid })) <
      totalEntries s := by
  unfold totalEntries
  simp only [updChan]
  apply Nat.add_lt_add_of_le_of_lt
  · exact Nat.le_refl _
  · apply List.sum_lt_sum
    · intro i hi
      by_cases h : i = cid
      · subst h
        simp [fupd_self]
        exact length_eraseA_le _ _
      · simp [fupd_ne _ _ _ _ h]
    · refine ⟨cid, hc, ?_⟩
      simp only [fupd_self]
      exact length_eraseA_lt _ _ _ hl

/-- Enough fuel always exists for every cascade entry point on a well-formed
state: strong induction on the total membership-entry count, which strictly
decreases at every guarded erasure before a recursive call. -/
theorem cascadeFuelSufficient : ∀ k : Nat, ∀ s : Conn, WFids s → totalEntries s ≤ k →
    (∀ cid nid, cid ∈ s.chanIds → nid ∈ s.nickIds →
      ∃ fuel s', Nick.DelChannel fuel s cid nid = some s') ∧
    (∀ cid l, cid ∈ s.chanIds → (∀ m ∈ l, m ∈ s.nickIds) →
      ∃ fuel s', Channel.DeleteLoop fuel s cid l = some s') ∧
    (∀ cid, cid ∈ s.chanIds → ∃ fuel s', Channel.Delete fuel s cid = some s') ∧
    (∀ cid nid, cid ∈ s.chanIds → nid ∈ s.nickIds →
      ∃ fuel s', Channel.DelNick fuel s cid nid = some s') ∧
    (∀ nid l, nid ∈ s.nickIds → (∀ c ∈ l, c ∈ s.chanIds) →
      ∃ fuel s', Nick.DeleteLoop fuel s nid l = some s') ∧
    (∀ nid, nid ∈ s.nickIds → ∃ fuel s', Nick.Delete fuel s nid = some s') := by
  intro k
  induction k using Nat.strong_induction_on with
  | _ k ih =>
  have hN : ∀ s : Conn, WFids s → totalEntries s ≤ k → ∀ cid nid, cid ∈ s.chanIds →
      nid ∈ s.nickIds → ∃ fuel s', Nick.DelChannel fuel s cid nid = some s' := by
    intro s hw hk cid nid hc hn
    cases hg : lookupA (s.nickObjs nid).Channels cid with
    | none => exact ⟨1, s, by rw [DelChannel_succ, hg]⟩
    | some p =>
      have hfr1 : FramePost s
          (updNick s nid (fun n => { n with Channels := eraseA n.Channels cid })) :=
        frame_eraseNickSide s nid cid
      have hw1 := WFids_of_frame hfr1 hw
      have hT1 : totalEntries
          (updNick s nid (fun n => { n with Channels := eraseA n.Channels cid })) <
          totalEntries s := totalEntries_eraseNickSide_lt s nid cid p hn hg
      have hT1k : totalEntries
          (updNick s nid (fun n => { n with Channels := eraseA n.Channels cid })) < k :=
        lt_of_lt_of_le hT1 hk
      obtain ⟨_, _, _, ihCDN, _, _⟩ := ih _ hT1k _ hw1 (Nat.le_refl _)
      obtain ⟨f1, s2, hrun2⟩ := ihCDN cid nid (by rw [hfr1.chanIds_eq]; exact hc)
        (by rw [hfr1.nickIds_eq]; exact hn)
      have hfr2 := ((cascadeFrame f1).1 _ cid nid s2 hrun2).1
      have hw2 := WFids_of_frame hfr2 hw1
      have hT2 : totalEntries s2 ≤ totalEntries
          (updNick s nid (fun n => { n with Channels := eraseA n.Channels cid })) :=
        totalEntries_le_of_frame hfr2
      obtain ⟨_, _, _, _, _, ihND⟩ := ih _ hT1k s2 hw2 hT2
      obtain ⟨f2, s3, hrun3⟩ := ihND nid (by rw [hfr2.nickIds_eq, hfr1.nickIds_eq]; exact hn)
      have hm1 : Channel.DelNick (max f1 f2)
          (updNick s nid (fun n => { n with Channels := eraseA n.Channels cid })) cid nid =
          some s2 :=
        (cascadeMono f1 (max f1 f2) (le_max_left _ _)).1 _ _ _ _ hrun2
      have hm2 : Nick.Delete (max f1 f2) s2 nid = some s3 :=
        (cascadeMono f2 (max f1 f2) (le_max_right _ _)).2.2.2.2.1 _ _ _ hrun3
      by_cases hlen : (s2.nickObjs nid).Channels.length = 0
      · refine ⟨max f1 f2 + 1, s3, ?_⟩
        rw [DelChannel_succ, hg]
        simp only
        rw [hm1]
        simp only
        rw [if_pos hlen]
        exact hm2
      · refine ⟨max f1 f2 + 1, s2, ?_⟩
        rw [DelChannel_succ, hg]
        simp only
        rw [hm1]
        simp only
        rw [if_neg hlen]
  have hCDL : ∀ l : List Nat, ∀ s : Conn, WFids s → totalEntries s ≤ k → ∀ cid,
      cid ∈ s.chanIds → (∀ m ∈ l, m ∈ s.nickIds) →
      ∃ fuel s', Channel.DeleteLoop fuel s cid l = some s' := by
    intro l
    induction l with
    | nil =>
      intro s hw hk cid hc hm
      exact ⟨1, s, by rw [DeleteLoop_succ]⟩
    | cons m rest ihl =>
      intro s hw hk cid hc hm
      obtain ⟨f1, s1, h1⟩ := hN s hw hk cid m hc (hm m (by simp))
      have hfr1 := ((cascadeFrame f1).2.2.2.1 s cid m s1 h1).1
      obtain ⟨f2, s2, h2⟩ := ihl s1 (WFids_of_frame hfr1 hw)
        (le_trans (totalEntries_le_of_frame hfr1) hk) cid
        (by rw [hfr1.chanIds_eq]; exact hc)
        (fun m' hm' => by rw [hfr1.nickIds_eq]; exact hm m' (by simp [hm']))
      refine ⟨max f1 f2 + 1, s2, ?_⟩
      rw [DeleteLoop_succ]
      simp only
      rw [(cascadeMono f1 (max f1 f2) (le_max_left _ _)).2.2.2.1 _ _ _ _ h1]
      exact (cascadeMono f2 (max f1 f2) (le_max_right _ _)).2.2.1 _ _ _ _ h2
  have hCD : ∀ s : Conn, WFids s → totalEntries s ≤ k → ∀ cid, cid ∈ s.chanIds →
      ∃ fuel s', Channel.Delete fuel s cid = some s' := by
    intro s hw hk cid hc
    have hmem : ∀ m ∈ (s.chanObjs cid).Nicks.map Prod.fst, m ∈ s.nickIds := by
      intro m hm
      obtain ⟨e, he, hfe⟩ := List.mem_map.mp hm
      subst hfe
      exact hw.2 cid hc e he
    obtain ⟨f1, s1, h1⟩ := hCDL _ s hw hk cid hc hmem
    refine ⟨f1 + 1, { s1 with chans := eraseA s1.chans ((s1.chanObjs cid).Name) }, ?_⟩
    rw [Delete_succ, h1]
  have hCDN : ∀ s : Conn, WFids s → totalEntries s ≤ k → ∀ cid nid, cid ∈ s.chanIds →
      nid ∈ s.nickIds → ∃ fuel s', Channel.DelNick fuel s cid nid = some s' := by
    intro s hw hk cid nid hc hn
    cases hg : lookupA (s.chanObjs cid).Nicks nid with
    | none => exact ⟨1, s, by rw [DelNick_succ, hg]⟩
    | some p =>
      by_cases hme : nid = s.Me
      · obtain ⟨f1, s1, h1⟩ := hCD s hw hk cid hc
        refine ⟨f1 + 1, s1, ?_⟩
        rw [DelNick_succ, hg]
        simp only
        rw [if_pos hme]
        exact h1
      · have hfr1 := frame_eraseChanSide s cid nid hme
        have hT1 := totalEntries_eraseChanSide_lt s cid nid p hc hg
        obtain ⟨f1, s1, h1⟩ := hN _ (WFids_of_frame hfr1 hw)
          (le_trans (le_of_lt hT1) hk) cid nid
          (by rw [hfr1.chanIds_eq]; exact hc) (by rw [hfr1.nickIds_eq]; exact hn)
        refine ⟨f1 + 1, s1, ?_⟩
        rw [DelNick_succ, hg]
        simp only
        rw [if_neg hme]
        exact h1
  have hNDL : ∀ l : List Nat, ∀ s : Conn, WFids s → totalEntries s ≤ k → ∀ nid,
      nid ∈ s.nickIds → (∀ c ∈ l, c ∈ s.chanIds) →
      ∃ fuel s', Nick.DeleteLoop fuel s nid l = some s' := by
    intro l
    induction l with
    | nil =>
      intro s hw hk nid hn hcs
      exact ⟨1, s, by rw [NickDeleteLoop_succ]⟩
    | cons c rest ihl =>
      intro s hw hk nid hn hcs
      obtain ⟨f1, s1, h1⟩ := hCDN s hw hk c nid (hcs c (by simp)) hn
      have hfr1 := ((cascadeFrame f1).1 s c nid s1 h1).1
      obtain ⟨f2, s2, h2⟩ := ihl s1 (WFids_of_frame hfr1 hw)
        (le_trans (totalEntries_le_of_frame hfr1) hk) nid
        (by rw [hfr1.nickIds_eq]; exact hn)
        (fun c' hc' => by rw [hfr1.chanIds_eq]; exact hcs c' (by simp [hc']))
      refine ⟨max f1 f2 + 1, s2, ?_⟩
      rw [NickDeleteLoop_succ]
      simp only
      rw [(cascadeMono f1 (max f1 f2) (le_max_left _ _)).1 _ _ _ _ h1]
      exact (cascadeMono f2 (max f1 f2) (le_max_right _ _)).2.2.2.2.2 _ _ _ _ h2
  have hND : ∀ s : Conn, WFids s → totalEntries s ≤ k → ∀ nid, nid ∈ s.nickIds →
      ∃ fuel s', Nick.Delete fuel s nid = some s' := by
    intro s hw hk nid hn
    by_cases hme : nid = s.Me
    · refine ⟨1, s, ?_⟩
      rw [NickDelete_succ]
      rw [if_pos hme]
    · have hmem : ∀ c ∈ (s.nickObjs nid).Channels.map Prod.fst, c ∈ s.chanIds := by
        intro c hcm
        obtain ⟨e, he, hfe⟩ := List.mem_map.mp hcm
        subst hfe
        exact hw.1 nid hn e he
      obtain ⟨f1, s1, h1⟩ := hNDL _ s hw hk nid hn hmem
      refine ⟨f1 + 1, { s1 with nicks := eraseA s1.nicks ((s1.nickObjs nid).Nick) }, ?_⟩
      rw [NickDelete_succ]
      rw [if_neg hme, h1]
  intro s hw hk
  exact ⟨hN s hw hk, fun cid l hc hm => hCDL l s hw hk cid hc hm, hCD s hw hk,
    hCDN s hw hk, fun nid l hn hcs => hNDL l s hw hk nid hn hcs, hND s hw hk⟩

/-! ### The mirroring invariant and its preservation -/

/-- The channel object `cid` is currently indexed (tracked): looking its name
up in the channel index yields exactly it. -/
def Indexed (s : Conn) (cid : Nat) : Prop :=
  lookupA s.chans ((s.chanObjs cid).Name) = some cid

/-- Both sides of the pair agree: the nick-side and channel-side maps have the
same entry (both absent, or both the same shared ChanPrivs id). -/
def mirrorEq (s : Conn) (nid cid : Nat) : Prop :=
  lookupA (s.nickObjs nid).Channels cid = lookupA (s.chanObjs cid).Nicks nid

/-- Structural well-formedness: index consistency (an indexed object is
allocated and its name field equals its key), allocator freshness, the local
identity is allocated, and membership closure (entries reference allocated
objects). -/
structure InvCore (s : Conn) : Prop where
  nidx : ∀ k nid, lookupA s.nicks k = some nid → nid ∈ s.nickIds ∧ (s.nickObjs nid).Nick = k
  cidx : ∀ k cid, lookupA s.chans k = some cid → cid ∈ s.chanIds ∧ (s.chanObjs cid).Name = k
  nickBound : ∀ nid ∈ s.nickIds, nid < s.nextId
  chanBound : ∀ cid ∈ s.chanIds, cid < s.nextId
  meAlloc : s.Me ∈ s.nickIds
  nickAlloc : ∀ nid ∈ s.nickIds, ∀ cid p,
    lookupA (s.nickObjs nid).Channels cid = some p → cid ∈ s.chanIds
  chanAlloc : ∀ cid ∈ s.chanIds, ∀ nid p,
    lookupA (s.chanObjs cid).Nicks nid = some p → nid ∈ s.nickIds

/-- Every nick-side membership entry of an allocated nick references a
currently indexed channel (dead channel objects are never referenced from the
nick side). -/
def NRefIdx (s : Conn) : Prop :=
  ∀ nid, nid ∈ s.nickIds → ∀ cid p,
    lookupA (s.nickObjs nid).Channels cid = some p → Indexed s cid

/-- The full invariant: structure, nick-side references indexed, and the
mirror property for every allocated nick against every indexed channel. -/
def Inv (s : Conn) : Prop :=
  InvCore s ∧ NRefIdx s ∧
  (∀ nid, nid ∈ s.nickIds → ∀ cid, Indexed s cid → mirrorEq s nid cid)

/-- Status of the local identity's pair with the channel being destroyed:
either still mirrored, or its nick side is already erased. -/
def MeSt (s : Conn) (cid : Nat) : Prop :=
  mirrorEq s s.Me cid ∨ lookupA (s.nickObjs s.Me).Channels cid = none

/-- Invariant during channel destruction of `cid`: full invariant except that
the pair (Me, cid) may be mid-erasure, with `cid` still indexed. -/
def InvL (s : Conn) (cid : Nat) : Prop :=
  InvCore s ∧ NRefIdx s ∧ Indexed s cid ∧ MeSt s cid ∧
  (∀ n, n ∈ s.nickIds → ∀ c, Indexed s c → (n = s.Me ∧ c = cid) ∨ mirrorEq s n c)

/-- Invariant after channel destruction: full invariant and `cid` no longer
indexed. -/
def InvDead (s : Conn) (cid : Nat) : Prop :=
  Inv s ∧ lookupA s.chans ((s.chanObjs cid).Name) = none

/-- Invariant mid `Channel.DelNick` (non-Me branch): full invariant except at
the single pair (nid, cid), whose channel side is already erased. -/
def InvPairB (s : Conn) (cid nid : Nat) : Prop :=
  InvCore s ∧ NRefIdx s ∧ lookupA (s.chanObjs cid).Nicks nid = none ∧
  (∀ n, n ∈ s.nickIds → ∀ c, Indexed s c → (n = nid ∧ c = cid) ∨ mirrorEq s n c)

/-- Invariant mid `Nick.DelChannel` inside channel destruction: like `InvL`
but with the additional pair (nid, cid) mid-erasure, channel side gone. -/
def InvLPairB (s : Conn) (cid nid : Nat) : Prop :=
  InvCore s ∧ NRefIdx s ∧ Indexed s cid ∧ MeSt s cid ∧
  lookupA (s.chanObjs cid).Nicks nid = none ∧
  (∀ n, n ∈ s.nickIds → ∀ c, Indexed s c → ((n = s.Me ∨ n = nid) ∧ c = cid) ∨ mirrorEq s n c)

/-- Invariant mid `Nick.DelChannel` (general entry): like `InvL` but the extra
mid-erasure pair (nid, cid) has its nick side gone. -/
def InvLPairN (s : Conn) (cid nid : Nat) : Prop :=
  InvCore s ∧ NRefIdx s ∧ Indexed s cid ∧ MeSt s cid ∧
  lookupA (s.nickObjs nid).Channels cid = none ∧
  (∀ n, n ∈ s.nickIds → ∀ c, Indexed s c → ((n = s.Me ∨ n = nid) ∧ c = cid) ∨ mirrorEq s n c)

/-- Invariant mid `Nick.DelChannel` from an `Inv` state: full invariant except
at the single pair (nid, cid), whose nick side is already erased. -/
def InvPairN (s : Conn) (cid nid : Nat) : Prop :=
  InvCore s ∧ NRefIdx s ∧ Indexed s cid ∧
  lookupA (s.nickObjs nid).Channels cid = none ∧
  (∀ n, n ∈ s.nickIds → ∀ c, Indexed s c → (n = nid ∧ c = cid) ∨ mirrorEq s n c)

theorem lookupA_none_of_not_mem_keys {α β : Type} [DecidableEq α]
    (l : List (α × β)) (a : α) (h : a ∉ l.map Prod.fst) : lookupA l a = none := by
  induction l with
  | nil => simp [lookupA]
  | cons kv t ih =>
    obtain ⟨k, v⟩ := kv
    simp only [List.map_cons, List.mem_cons, not_or] at h
    have hk : ¬ k = a := fun hh => h.1 hh.symm
    simp [lookupA, hk, ih h.2]

theorem InvCore_of_frame {s s' : Conn} (hf : FramePost s s') (hc : InvCore s) : InvCore s' := by
  constructor
  · intro k nid hl
    rcases hf.nicks_idx k with hh | hh
    · rw [hh] at hl
      obtain ⟨h1, h2⟩ := hc.nidx k nid hl
      refine ⟨by rw [hf.nickIds_eq]; exact h1, ?_⟩
      rw [hf.nick_fields nid]
      exact h2
    · rw [hh] at hl
      exact absurd hl (by simp)
  · intro k cid hl
    rcases hf.chans_idx k with hh | hh
    · rw [hh] at hl
      obtain ⟨h1, h2⟩ := hc.cidx k cid hl
      refine ⟨by rw [hf.chanIds_eq]; exact h1, ?_⟩
      rw [hf.chan_fields cid]
      exact h2
    · rw [hh] at hl
      exact absurd hl (by simp)
  · intro nid hn
    rw [hf.nickIds_eq] at hn
    rw [hf.nextId_eq]
    exact hc.nickBound nid hn
  · intro cid hcid
    rw [hf.chanIds_eq] at hcid
    rw [hf.nextId_eq]
    exact hc.chanBound cid hcid
  · rw [hf.me_eq, hf.nickIds_eq]
    exact hc.meAlloc
  · intro nid hn cid p hl
    rw [hf.nickIds_eq] at hn
    rw [hf.chanIds_eq]
    rcases hf.nick_side nid cid with hh | hh
    · rw [hh] at hl
      exact hc.nickAlloc nid hn cid p hl
    · rw [hh] at hl
      exact absurd hl (by simp)
  · intro cid hcid nid p hl
    rw [hf.chanIds_eq] at hcid
    rw [hf.nickIds_eq]
    rcases hf.chan_side cid nid with hh | hh
    · rw [hh] at hl
      exact hc.chanAlloc cid hcid nid p hl
    · rw [hh] at hl
      exact absurd hl (by simp)

theorem Indexed_of_chansEq {s s' : Conn} (hch : s'.chans = s.chans)
    (hna : ∀ i, (s'.chanObjs i).Name = (s.chanObjs i).Name) {cid : Nat}
    (h : Indexed s cid) : Indexed s' cid := by
  unfold Indexed
  rw [hch, hna]
  exact h

theorem NRefIdx_of_frame_chansEq {s s' : Conn} (hf : FramePost s s')
    (hch : s'.chans = s.chans) (hr : NRefIdx s) : NRefIdx s' := by
  intro nid hn cid p hl
  rw [hf.nickIds_eq] at hn
  rcases hf.nick_side nid cid with hh | hh
  · rw [hh] at hl
    exact Indexed_of_chansEq hch (fun i => by rw [hf.chan_fields i]) (hr nid hn cid p hl)
  · rw [hh] at hl
    exact absurd hl (by simp)

theorem mirrorEq_eraseNickSide_other (s : Conn) (nid cid n c : Nat)
    (h : ¬(n = nid ∧ c = cid)) (hm : mirrorEq s n c) :
    mirrorEq (updNick s nid (fun x => { x with Channels := eraseA x.Channels cid })) n c := by
  unfold mirrorEq at hm ⊢
  simp only [updNick]
  by_cases hn : n = nid
  · subst hn
    have hc : c ≠ cid := fun hh => h ⟨Eq.refl _, hh⟩
    simp only [fupd_self]
    show lookupA (eraseA (s.nickObjs n).Channels cid) c = lookupA (s.chanObjs c).Nicks n
    rw [lookupA_eraseA_ne _ _ _ hc]
    exact hm
  · simp only [fupd_ne _ _ _ _ hn]
    exact hm

theorem mirrorEq_eraseChanSide_other (s : Conn) (cid nid n c : Nat)
    (h : ¬(n = nid ∧ c = cid)) (hm : mirrorEq s n c) :
    mirrorEq (updChan s cid (fun ch => { ch with Nicks := eraseA ch.Nicks nid })) n c := by
  unfold mirrorEq at hm ⊢
  simp only [updChan]
  by_cases hcc : c = cid
  · subst hcc
    have hn : n ≠ nid := fun hh => h ⟨hh, Eq.refl _⟩
    simp only [fupd_self]
    show lookupA (s.nickObjs n).Channels c = lookupA (eraseA (s.chanObjs c).Nicks nid) n
    rw [lookupA_eraseA_ne _ _ _ hn]
    exact hm
  · simp only [fupd_ne _ _ _ _ hcc]
    exact hm

theorem Indexed_updChanErase (s : Conn) (cid nid : Nat) (c : Nat) :
    Indexed (updChan s cid (fun ch => { ch with Nicks := eraseA ch.Nicks nid })) c ↔
      Indexed s c := by
  unfold Indexed
  simp only [updChan]
  by_cases hcc : c = cid
  · subst hcc
    simp only [fupd_self]
  · simp only [fupd_ne _ _ _ _ hcc]

theorem DelNick_noop (fuel : Nat) (s : Conn) (cid nid : Nat) (s' : Conn)
    (hg : lookupA (s.chanObjs cid).Nicks nid = none)
    (h : Channel.DelNick fuel s cid nid = some s') : s' = s := by
  cases fuel with
  | zero => simp [DelNick_zero] at h
  | succ fuel =>
    rw [DelNick_succ, hg] at h
    simp only [Option.some.injEq] at h
    exact h.symm

theorem DelChannel_noop (fuel : Nat) (s : Conn) (cid nid : Nat) (s' : Conn)
    (hg : lookupA (s.nickObjs nid).Channels cid = none)
    (h : Nick.DelChannel fuel s cid nid = some s') : s' = s := by
  cases fuel with
  | zero => simp [DelChannel_zero] at h
  | succ fuel =>
    rw [DelChannel_succ, hg] at h
    simp only [Option.some.injEq] at h
    exact h.symm

theorem NickDelete_me (fuel : Nat) (s : Conn) (nid : Nat) (s' : Conn)
    (hme : nid = s.Me) (h : Nick.Delete fuel s nid = some s') : s' = s := by
  cases fuel with
  | zero => simp [NickDelete_zero] at h
  | succ fuel =>
    rw [NickDelete_succ, if_pos hme] at h
    simp only [Option.some.injEq] at h
    exact h.symm

theorem NickDeleteLoop_nil (fuel : Nat) (s : Conn) (nid : Nat) (s' : Conn)
    (h : Nick.DeleteLoop fuel s nid [] = some s') : s' = s := by
  cases fuel with
  | zero => simp [NickDeleteLoop_zero] at h
  | succ fuel =>
    rw [NickDeleteLoop_succ] at h
    simp only [Option.some.injEq] at h
    exact h.symm

theorem Inv_of_InvL {s : Conn} {cid : Nat} (h : InvL s cid)
    (hme : mirrorEq s s.Me cid) : Inv s := by
  obtain ⟨hc, hr, hi, hst, hm⟩ := h
  refine ⟨hc, hr, ?_⟩
  intro n hn c hic
  rcases hm n hn c hic with ⟨he1, he2⟩ | he
  · subst he1
    subst he2
    exact hme
  · exact he

theorem InvL_of_Inv {s : Conn} {cid : Nat} (h : Inv s) (hi : Indexed s cid) : InvL s cid := by
  obtain ⟨hc, hr, hm⟩ := h
  exact ⟨hc, hr, hi, Or.inl (hm s.Me hc.meAlloc cid hi), fun n hn c hic => Or.inr (hm n hn c hic)⟩

/-- Preservation of the mirroring invariant by the deletion cascade, by
induction on fuel, with one contract per function and entry shape. -/
theorem cascadeInv : ∀ fuel : Nat,
    (∀ s cid nid s', Channel.DelNick fuel s cid nid = some s' → Inv s → nid ∈ s.nickIds →
      (lookupA (s.chanObjs cid).Nicks nid = none ∨ Indexed s cid) → Inv s') ∧
    (∀ s cid nid s', Channel.DelNick fuel s cid nid = some s' → InvL s cid → nid ∈ s.nickIds →
      lookupA (s.nickObjs nid).Channels cid = none →
      InvDead s' cid ∨ (InvL s' cid ∧ lookupA (s'.chanObjs cid).Nicks nid = none)) ∧
    (∀ s cid nid s', Channel.DelNick fuel s cid nid = some s' → InvPairN s cid nid →
      nid ∈ s.nickIds → nid ≠ s.Me → Inv s') ∧
    (∀ s cid nid s', Channel.DelNick fuel s cid nid = some s' → InvLPairN s cid nid →
      nid ∈ s.nickIds → nid ≠ s.Me → InvL s' cid ∨ InvDead s' cid) ∧
    (∀ s cid s', Channel.Delete fuel s cid = some s' → InvL s cid → InvDead s' cid) ∧
    (∀ s cid l s', Channel.DeleteLoop fuel s cid l = some s' →
      (InvL s cid ∨ InvDead s cid) → (∀ m ∈ l, m ∈ s.nickIds) →
      InvL s' cid ∨ InvDead s' cid) ∧
    (∀ s cid nid s', Nick.DelChannel fuel s cid nid = some s' → Inv s → nid ∈ s.nickIds →
      Inv s') ∧
    (∀ s cid nid s', Nick.DelChannel fuel s cid nid = some s' → InvL s cid → nid ∈ s.nickIds →
      InvL s' cid ∨ InvDead s' cid) ∧
    (∀ s cid nid s', Nick.DelChannel fuel s cid nid = some s' → InvPairB s cid nid →
      nid ∈ s.nickIds → nid ≠ s.Me → Inv s') ∧
    (∀ s cid nid s', Nick.DelChannel fuel s cid nid = some s' → InvLPairB s cid nid →
      nid ∈ s.nickIds → nid ≠ s.Me → InvL s' cid ∨ InvDead s' cid) ∧
    (∀ s nid s', Nick.Delete fuel s nid = some s' → Inv s → nid ∈ s.nickIds → Inv s') ∧
    (∀ s cid nid s', Nick.Delete fuel s nid = some s' → InvL s cid → nid ∈ s.nickIds →
      (s.nickObjs nid).Channels = [] → InvL s' cid) ∧
    (∀ s nid l s', Nick.DeleteLoop fuel s nid l = some s' → Inv s → nid ∈ s.nickIds →
      nid ≠ s.Me → (∀ c ∈ l, Indexed s c) → Inv s') := by
  intro fuel
  induction fuel with
  | zero =>
    refine ⟨?_, ?_, ?_, ?_, ?_, ?_, ?_, ?_, ?_, ?_, ?_, ?_, ?_⟩ <;> intro s
    · intro cid nid s' h
      simp [DelNick_zero] at h
    · intro cid nid s' h
      simp [DelNick_zero] at h
    · intro cid nid s' h
      simp [DelNick_zero] at h
    · intro cid nid s' h
      simp [DelNick_zero] at h
    · intro cid s' h
      simp [Delete_zero] at h
    · intro cid l s' h
      simp [DeleteLoop_zero] at h
    · intro cid nid s' h
      simp [DelChannel_zero] at h
    · intro cid nid s' h
      simp [DelChannel_zero] at h
    · intro cid nid s' h
      simp [DelChannel_zero] at h
    · intro cid nid s' h
      simp [DelChannel_zero] at h
    · intro nid s' h
      simp [NickDelete_zero] at h
    · intro cid nid s' h
      simp [NickDelete_zero] at h
    · intro nid l s' h
      simp [NickDeleteLoop_zero] at h
  | succ fuel ih =>
    obtain ⟨iCDNa, iCDNb, iCDNn, iCDNd, iCD, iCDL, iNa, iNb, iNc, iNd, iNDa, iNDb, iNDL⟩ := ih
    refine ⟨?_, ?_, ?_, ?_, ?_, ?_, ?_, ?_, ?_, ?_, ?_, ?_, ?_⟩
    · -- CDNa: Channel.DelNick from Inv
      intro s cid nid s' h hInv hnid hdisj
      rw [DelNick_succ] at h
      cases hg : lookupA (s.chanObjs cid).Nicks nid with
      | none =>
        rw [hg] at h
        simp only [Option.some.injEq] at h
        exact h ▸ hInv
      | some p =>
        rw [hg] at h
        simp only at h
        have hIdx : Indexed s cid := by
          rcases hdisj with hd | hd
          · rw [hg] at hd
            exact absurd hd (by simp)
          · exact hd
        by_cases hme : nid = s.Me
        · rw [if_pos hme] at h
          exact (iCD s cid s' h (InvL_of_Inv hInv hIdx)).1
        · rw [if_neg hme] at h
          have hfr := frame_eraseChanSide s cid nid hme
          refine iNc _ cid nid s' h ⟨?_, ?_, ?_, ?_⟩ hnid hme
          · exact InvCore_of_frame hfr hInv.1
          · exact NRefIdx_of_frame_chansEq hfr (Eq.refl _) hInv.2.1
          · simp [updChan, fupd_self, lookupA_eraseA_self]
          · intro n hn c hic
            by_cases hpair : n = nid ∧ c = cid
            · exact Or.inl hpair
            · refine Or.inr (mirrorEq_eraseChanSide_other s cid nid n c hpair ?_)
              exact hInv.2.2 n hn c ((Indexed_updChanErase s cid nid c).mp hic)
    · -- CDNb: Channel.DelNick from InvL, nick side gone
      intro s cid nid s' h hL hnid hnn
      rw [DelNick_succ] at h
      cases hg : lookupA (s.chanObjs cid).Nicks nid with
      | none =>
        rw [hg] at h
        simp only [Option.some.injEq] at h
        subst h
        exact Or.inr ⟨hL, hg⟩
      | some p =>
        rw [hg] at h
        simp only at h
        by_cases hme : nid = s.Me
        · rw [if_pos hme] at h
          exact Or.inl (iCD s cid s' h hL)
        · exfalso
          rcases hL.2.2.2.2 nid hnid cid hL.2.2.1 with ⟨h1, _⟩ | hmeq
          · exact hme h1
          · unfold mirrorEq at hmeq
            rw [hnn, hg] at hmeq
            exact absurd hmeq (by simp)
    · -- CDNn: Channel.DelNick from InvPairN (single broken pair, nick side gone)
      intro s cid nid s' h hP hnid hme
      obtain ⟨hcore, hnref, hIdx, hnn, hmir⟩ := hP
      rw [DelNick_succ] at h
      cases hg : lookupA (s.chanObjs cid).Nicks nid with
      | none =>
        rw [hg] at h
        simp only [Option.some.injEq] at h
        subst h
        refine ⟨hcore, hnref, ?_⟩
        intro n hn c hic
        rcases hmir n hn c hic with ⟨h1, h2⟩ | hmeq
        · subst h1
          subst h2
          unfold mirrorEq
          rw [hnn, hg]
        · exact hmeq
      | some p =>
        rw [hg] at h
        simp only at h
        rw [if_neg hme] at h
        have hfr := frame_eraseChanSide s cid nid hme
        refine iNa _ cid nid s' h ⟨?_, ?_, ?_⟩ hnid
        · exact InvCore_of_frame hfr hcore
        · exact NRefIdx_of_frame_chansEq hfr (Eq.refl _) hnref
        · intro n hn c hic
          by_cases hpair : n = nid ∧ c = cid
          · obtain ⟨h1, h2⟩ := hpair
            subst h1
            subst h2
            unfold mirrorEq
            simp only [updChan, fupd_self]
            show lookupA (s.nickObjs n).Channels c = lookupA (eraseA (s.chanObjs c).Nicks n) n
            rw [hnn, lookupA_eraseA_self]
          · refine mirrorEq_eraseChanSide_other s cid nid n c hpair ?_
            rcases hmir n hn c ((Indexed_updChanErase s cid nid c).mp hic) with hp | hmeq
            · exact absurd hp hpair
            · exact hmeq
    · -- CDNd: Channel.DelNick from InvLPairN
      intro s cid nid s' h hP hnid hme
      obtain ⟨hcore, hnref, hIdx, hmest, hnn, hmir⟩ := hP
      rw [DelNick_succ] at h
      cases hg : lookupA (s.chanObjs cid).Nicks nid with
      | none =>
        rw [hg] at h
        simp only [Option.some.injEq] at h
        subst h
        refine Or.inl ⟨hcore, hnref, hIdx, hmest, ?_⟩
        intro n hn c hic
        rcases hmir n hn c hic with ⟨h1, h2⟩ | hmeq
        · rcases h1 with h1 | h1
          · exact Or.inl ⟨h1, h2⟩
          · subst h1
            subst h2
            refine Or.inr ?_
            unfold mirrorEq
            rw [hnn, hg]
        · exact Or.inr hmeq
      | some p =>
        rw [hg] at h
        simp only at h
        rw [if_neg hme] at h
        have hfr := frame_eraseChanSide s cid nid hme
        refine iNb _ cid nid s' h ⟨?_, ?_, ?_, ?_, ?_⟩ hnid
        · exact InvCore_of_frame hfr hcore
        · exact NRefIdx_of_frame_chansEq hfr (Eq.refl _) hnref
        · exact (Indexed_updChanErase s cid nid cid).mpr hIdx
        · rcases hmest with hmeq | hnone
          · by_cases hmn : s.Me = nid
            · refine Or.inr ?_
              rw [← hmn] at hnn
              show lookupA (s.nickObjs s.Me).Channels cid = none
              exact hnn
            · refine Or.inl (mirrorEq_eraseChanSide_other s cid nid s.Me cid
                (fun hpp => hmn hpp.1) hmeq)
          · exact Or.inr hnone
        · intro n hn c hic
          by_cases hpair : n = nid ∧ c = cid
          · obtain ⟨h1, h2⟩ := hpair
            subst h1
            subst h2
            refine Or.inr ?_
            unfold mirrorEq
            simp only [updChan, fupd_self]
            show lookupA (s.nickObjs n).Channels c = lookupA (eraseA (s.chanObjs c).Nicks n) n
            rw [hnn, lookupA_eraseA_self]
          · rcases hmir n hn c ((Indexed_updChanErase s cid nid c).mp hic) with ⟨h1, h2⟩ | hmeq
            · rcases h1 with h1 | h1
              · exact Or.inl ⟨h1, h2⟩
              · exact absurd ⟨h1, h2⟩ hpair
            · exact Or.inr (mirrorEq_eraseChanSide_other s cid nid n c hpair hmeq)
    · -- CD: Channel.Delete from InvL
      intro s cid s' h hL
      rw [Delete_succ] at h
      cases hl : Channel.DeleteLoop fuel s cid ((s.chanObjs cid).Nicks.map Prod.fst) with
      | none =>
        rw [hl] at h
        exact absurd h (by simp)
      | some s1 =>
        rw [hl] at h
        simp only [Option.some.injEq] at h
        subst h
        have hcalloc : cid ∈ s.chanIds := (hL.1.cidx _ _ hL.2.2.1).1
        have hmem : ∀ m ∈ (s.chanObjs cid).Nicks.map Prod.fst, m ∈ s.nickIds := by
          intro m hm
          obtain ⟨e, he, hfe⟩ := List.mem_map.mp hm
          subst hfe
          obtain ⟨b, hb⟩ := Option.isSome_iff_exists.mp
            (lookupA_isSome_of_mem _ e.1 e.2 (by simpa using he))
          exact hL.1.chanAlloc cid hcalloc e.1 b hb
        obtain ⟨hfL, hErased⟩ := (cascadeFrame fuel).2.2.1 s cid _ s1 hl
        rcases iCDL s cid _ s1 hl (Or.inl hL) hmem with hL1 | hD1
        · -- channel still live after the loop: erase its index key
          have hall : ∀ n, n ∈ s1.nickIds → lookupA (s1.nickObjs n).Channels cid = none := by
            intro n hn
            by_cases hmemn : n ∈ (s.chanObjs cid).Nicks.map Prod.fst
            · exact hErased n hmemn
            · have hcs : lookupA (s.chanObjs cid).Nicks n = none :=
                lookupA_none_of_not_mem_keys _ _ hmemn
              have hn0 : n ∈ s.nickIds := by
                rw [← hfL.nickIds_eq]
                exact hn
              have hns : lookupA (s.nickObjs n).Channels cid = none := by
                by_cases hnm : n = s.Me
                · subst hnm
                  rcases hL.2.2.2.1 with hmeq | hnone
                  · unfold mirrorEq at hmeq
                    rw [hmeq]
                    exact hcs
                  · exact hnone
                · rcases hL.2.2.2.2 n hn0 cid hL.2.2.1 with ⟨h1, _⟩ | hmeq
                  · exact absurd h1 hnm
                  · unfold mirrorEq at hmeq
                    rw [hmeq]
                    exact hcs
              rcases hfL.nick_side n cid with hh | hh
              · rw [hh]
                exact hns
              · exact hh
          obtain ⟨hcore1, hnref1, hIdx1, hmest1, hmir1⟩ := hL1
          constructor
          · refine ⟨InvCore_of_frame (frame_eraseChansIdx s1 _) hcore1, ?_, ?_⟩
            · intro n hn c p hlk
              by_cases hc : c = cid
              · subst hc
                rw [hall n hn] at hlk
                exact absurd hlk (by simp)
              · have hIc : Indexed s1 c := hnref1 n hn c p hlk
                have hne : (s1.chanObjs c).Name ≠ (s1.chanObjs cid).Name := by
                  intro heq
                  unfold Indexed at hIc
                  rw [heq] at hIc
                  have hIdx2 := hIdx1
                  unfold Indexed at hIdx2
                  rw [hIc] at hIdx2
                  exact hc (Option.some.inj hIdx2)
                show lookupA (eraseA s1.chans ((s1.chanObjs cid).Name)) ((s1.chanObjs c).Name) =
                  some c
                rw [lookupA_eraseA_ne _ _ _ hne]
                exact hIc
            · intro n hn c hic
              have hc : c ≠ cid := by
                intro hcc
                subst hcc
                unfold Indexed at hic
                have := lookupA_eraseA_self s1.chans ((s1.chanObjs c).Name)
                rw [this] at hic
                exact absurd hic (by simp)
              have hic1 : Indexed s1 c := by
                unfold Indexed at hic ⊢
                by_cases hne : (s1.chanObjs c).Name = (s1.chanObjs cid).Name
                · rw [hne] at hic
                  rw [lookupA_eraseA_self] at hic
                  exact absurd hic (by simp)
                · rw [lookupA_eraseA_ne _ _ _ hne] at hic
                  exact hic
              rcases hmir1 n hn c hic1 with ⟨_, h2⟩ | hmeq
              · exact absurd h2 hc
              · exact hmeq
          · show lookupA (eraseA s1.chans ((s1.chanObjs cid).Name)) ((s1.chanObjs cid).Name) =
              none
            exact lookupA_eraseA_self _ _
        · have heq : eraseA s1.chans ((s1.chanObjs cid).Name) = s1.chans :=
            eraseA_of_lookupA_none _ _ hD1.2
          rw [heq]
          exact hD1
    · -- CDL: Channel.DeleteLoop
      intro s cid l s' h hpre hmem
      rw [DeleteLoop_succ] at h
      cases l with
      | nil =>
        simp only [Option.some.injEq] at h
        exact h ▸ hpre
      | cons m rest =>
        simp only at h
        cases hd : Nick.DelChannel fuel s cid m with
        | none =>
          rw [hd] at h
          exact absurd h (by simp)
        | some s1 =>
          rw [hd] at h
          have hfr1 := ((cascadeFrame fuel).2.2.2.1 s cid m s1 hd).1
          have hm1 : m ∈ s.nickIds := hmem m (by simp)
          rcases hpre with hL | hD
          · exact iCDL s1 cid rest s' h (iNb s cid m s1 hd hL hm1)
              (fun m' hm' => by rw [hfr1.nickIds_eq]; exact hmem m' (by simp [hm']))
          · have hnone : lookupA (s.nickObjs m).Channels cid = none := by
              cases hval : lookupA (s.nickObjs m).Channels cid with
              | none => exact Eq.refl _
              | some p =>
                have hidx : Indexed s cid := hD.1.2.1 m hm1 cid p hval
                unfold Indexed at hidx
                rw [hD.2] at hidx
                exact absurd hidx (by simp)
            have hs1 : s1 = s := DelChannel_noop fuel s cid m s1 hnone hd
            subst hs1
            exact iCDL s1 cid rest s' h (Or.inr hD) (fun m' hm' => hmem m' (by simp [hm']))
    · -- Na: Nick.DelChannel from Inv
      intro s cid nid s' h hInv hnid
      rw [DelChannel_succ] at h
      cases hg : lookupA (s.nickObjs nid).Channels cid with
      | none =>
        rw [hg] at h
        simp only [Option.some.injEq] at h
        exact h ▸ hInv
      | some p =>
        rw [hg] at h
        simp only at h
        have hIdx : Indexed s cid := hInv.2.1 nid hnid cid p hg
        have hfr1 := frame_eraseNickSide s nid cid
        cases hc : Channel.DelNick fuel
            (updNick s nid (fun n => { n with Channels := eraseA n.Channels cid })) cid nid with
        | none =>
          rw [hc] at h
          exact absurd h (by simp)
        | some s2 =>
          rw [hc] at h
          simp only at h
          have hfr2 := ((cascadeFrame fuel).1 _ cid nid s2 hc).1
          have hnn1 : lookupA ((updNick s nid
              (fun n => { n with Channels := eraseA n.Channels cid })).nickObjs nid).Channels
              cid = none := by
            simp [updNick, fupd_self, lookupA_eraseA_self]
          have hnn2 : lookupA (s2.nickObjs nid).Channels cid = none := by
            rcases hfr2.nick_side nid cid with hh | hh
            · rw [hh]
              exact hnn1
            · exact hh
          by_cases hme : nid = s.Me
          · have hL1 : InvL (updNick s nid
                (fun n => { n with Channels := eraseA n.Channels cid })) cid := by
              refine ⟨InvCore_of_frame hfr1 hInv.1,
                NRefIdx_of_frame_chansEq hfr1 (Eq.refl _) hInv.2.1, hIdx, Or.inr (hme ▸ hnn1), ?_⟩
              intro n hn c hic
              by_cases hpair : n = nid ∧ c = cid
              · exact Or.inl ⟨hpair.1.trans hme, hpair.2⟩
              · exact Or.inr (mirrorEq_eraseNickSide_other s nid cid n c hpair
                  (hInv.2.2 n hn c hic))
            have hpost := iCDNb _ cid nid s2 hc hL1 hnid hnn1
            have hInv2 : Inv s2 := by
              rcases hpost with hD | ⟨hL2, hcs2⟩
              · exact hD.1
              · refine Inv_of_InvL hL2 ?_
                show mirrorEq s2 s2.Me cid
                have hme2 : s2.Me = nid := by
                  rw [hfr2.me_eq]
                  exact hme.symm
                rw [hme2]
                unfold mirrorEq
                rw [hnn2, hcs2]
            by_cases hlen : (s2.nickObjs nid).Channels.length = 0
            · rw [if_pos hlen] at h
              have hs' := NickDelete_me fuel s2 nid s' (by rw [hfr2.me_eq]; exact hme) h
              subst hs'
              exact hInv2
            · rw [if_neg hlen] at h
              simp only [Option.some.injEq] at h
              exact h ▸ hInv2
          · have hP1 : InvPairN (updNick s nid
                (fun n => { n with Channels := eraseA n.Channels cid })) cid nid := by
              refine ⟨InvCore_of_frame hfr1 hInv.1,
                NRefIdx_of_frame_chansEq hfr1 (Eq.refl _) hInv.2.1, hIdx, hnn1, ?_⟩
              intro n hn c hic
              by_cases hpair : n = nid ∧ c = cid
              · exact Or.inl hpair
              · exact Or.inr (mirrorEq_eraseNickSide_other s nid cid n c hpair
                  (hInv.2.2 n hn c hic))
            have hInv2 : Inv s2 := iCDNn _ cid nid s2 hc hP1 hnid hme
            by_cases hlen : (s2.nickObjs nid).Channels.length = 0
            · rw [if_pos hlen] at h
              refine iNDa s2 nid s' h hInv2 ?_
              rw [hfr2.nickIds_eq]
              exact hnid
            · rw [if_neg hlen] at h
              simp only [Option.some.injEq] at h
              exact h ▸ hInv2
    · -- Nb: Nick.DelChannel from InvL
      intro s cid nid s' h hL hnid
      rw [DelChannel_succ] at h
      cases hg : lookupA (s.nickObjs nid).Channels cid with
      | none =>
        rw [hg] at h
        simp only [Option.some.injEq] at h
        exact h ▸ Or.inl hL
      | some p =>
        rw [hg] at h
        simp only at h
        have hIdx0 : Indexed s cid := hL.2.1 nid hnid cid p hg
        have hfr1 := frame_eraseNickSide s nid cid
        cases hc : Channel.DelNick fuel
            (updNick s nid (fun n => { n with Channels := eraseA n.Channels cid })) cid nid with
        | none =>
          rw [hc] at h
          exact absurd h (by simp)
        | some s2 =>
          rw [hc] at h
          simp only at h
          have hfr2 := ((cascadeFrame fuel).1 _ cid nid s2 hc).1
          have hnn1 : lookupA ((updNick s nid
              (fun n => { n with Channels := eraseA n.Channels cid })).nickObjs nid).Channels
              cid = none := by
            simp [updNick, fupd_self, lookupA_eraseA_self]
          by_cases hme : nid = s.Me
          · subst hme
            have hL1 : InvL (updNick s s.Me
                (fun n => { n with Channels := eraseA n.Channels cid })) cid := by
              refine ⟨InvCore_of_frame hfr1 hL.1,
                NRefIdx_of_frame_chansEq hfr1 (Eq.refl _) hL.2.1, hIdx0, Or.inr hnn1, ?_⟩
              intro n hn c hic
              by_cases hpair : n = s.Me ∧ c = cid
              · exact Or.inl hpair
              · rcases hL.2.2.2.2 n hn c hic with hp | hmeq
                · exact absurd hp hpair
                · exact Or.inr (mirrorEq_eraseNickSide_other s s.Me cid n c hpair hmeq)
            have hpost := iCDNb _ cid s.Me s2 hc hL1 hnid hnn1
            have hpost2 : InvL s2 cid ∨ InvDead s2 cid := by
              rcases hpost with hD | ⟨hL2, _⟩
              · exact Or.inr hD
              · exact Or.inl hL2
            by_cases hlen : (s2.nickObjs s.Me).Channels.length = 0
            · rw [if_pos hlen] at h
              have hs' := NickDelete_me fuel s2 s.Me s' (by rw [hfr2.me_eq]; exact Eq.refl _) h
              subst hs'
              exact hpost2
            · rw [if_neg hlen] at h
              simp only [Option.some.injEq] at h
              exact h ▸ hpost2
          · have hP1 : InvLPairN (updNick s nid
                (fun n => { n with Channels := eraseA n.Channels cid })) cid nid := by
              refine ⟨InvCore_of_frame hfr1 hL.1,
                NRefIdx_of_frame_chansEq hfr1 (Eq.refl _) hL.2.1, hIdx0, ?_, hnn1, ?_⟩
              · rcases hL.2.2.2.1 with hmeq | hnone
                · exact Or.inl (mirrorEq_eraseNickSide_other s nid cid s.Me cid
                    (fun hpp => hme hpp.1.symm) hmeq)
                · refine Or.inr ?_
                  show lookupA ((fupd s.nickObjs nid _ s.Me).Channels) cid = none
                  rw [fupd_ne _ _ _ _ (fun hh => hme hh.symm)]
                  exact hnone
              · intro n hn c hic
                by_cases hpair : n = nid ∧ c = cid
                · exact Or.inl ⟨Or.inr hpair.1, hpair.2⟩
                · rcases hL.2.2.2.2 n hn c hic with ⟨h1, h2⟩ | hmeq
                  · exact Or.inl ⟨Or.inl h1, h2⟩
                  · exact Or.inr (mirrorEq_eraseNickSide_other s nid cid n c hpair hmeq)
            have hpost := iCDNd _ cid nid s2 hc hP1 hnid hme
            by_cases hlen : (s2.nickObjs nid).Channels.length = 0
            · rw [if_pos hlen] at h
              rcases hpost with hL2 | hD2
              · refine Or.inl (iNDb s2 cid nid s' h hL2 ?_ ?_)
                · rw [hfr2.nickIds_eq]
                  exact hnid
                · exact List.length_eq_zero.mp hlen
              · have hInv3 : Inv s' := by
                  refine iNDa s2 nid s' h hD2.1 ?_
                  rw [hfr2.nickIds_eq]
                  exact hnid
                obtain ⟨hfr3, hch3⟩ := (cascadeFrame fuel).2.2.2.2.1 s2 nid s' h
                refine Or.inr ⟨hInv3, ?_⟩
                have hme3 : nid ≠ s2.Me := by
                  rw [hfr2.me_eq]
                  exact hme
                rw [hch3 hme3]
                have hna : (s'.chanObjs cid).Name = (s2.chanObjs cid).Name := by
                  rw [hfr3.chan_fields cid]
                rw [hna]
                exact hD2.2
            · rw [if_neg hlen] at h
              simp only [Option.some.injEq] at h
              exact h ▸ hpost
    · -- Nc: Nick.DelChannel from InvPairB
      intro s cid nid s' h hP hnid hme
      obtain ⟨hcore, hnref, hcn, hmir⟩ := hP
      rw [DelChannel_succ] at h
      cases hg : lookupA (s.nickObjs nid).Channels cid with
      | none =>
        rw [hg] at h
        simp only [Option.some.injEq] at h
        subst h
        refine ⟨hcore, hnref, ?_⟩
        intro n hn c hic
        rcases hmir n hn c hic with ⟨h1, h2⟩ | hmeq
        · subst h1
          subst h2
          unfold mirrorEq
          rw [hg, hcn]
        · exact hmeq
      | some p =>
        rw [hg] at h
        simp only at h
        have hfr1 := frame_eraseNickSide s nid cid
        cases hc : Channel.DelNick fuel
            (updNick s nid (fun n => { n with Channels := eraseA n.Channels cid })) cid nid with
        | none =>
          rw [hc] at h
          exact absurd h (by simp)
        | some s2 =>
          rw [hc] at h
          simp only at h
          have hfr2 := ((cascadeFrame fuel).1 _ cid nid s2 hc).1
          have hInv1 : Inv (updNick s nid
              (fun n => { n with Channels := eraseA n.Channels cid })) := by
            refine ⟨InvCore_of_frame hfr1 hcore,
              NRefIdx_of_frame_chansEq hfr1 (Eq.refl _) hnref, ?_⟩
            intro n hn c hic
            by_cases hpair : n = nid ∧ c = cid
            · obtain ⟨h1, h2⟩ := hpair
              subst h1
              subst h2
              unfold mirrorEq
              simp only [updNick, fupd_self]
              show lookupA (eraseA (s.nickObjs n).Channels c) c =
                lookupA ((updNick s n (fun x => { x with Channels := eraseA x.Channels c })).chanObjs c).Nicks n
              rw [lookupA_eraseA_self]
              show (none : Option Nat) = lookupA (s.chanObjs c).Nicks n
              rw [hcn]
            · rcases hmir n hn c hic with hp | hmeq
              · exact absurd hp hpair
              · exact mirrorEq_eraseNickSide_other s nid cid n c hpair hmeq
          have hcn1 : lookupA ((updNick s nid
              (fun n => { n with Channels := eraseA n.Channels cid })).chanObjs cid).Nicks
              nid = none := hcn
          have hInv2 : Inv s2 := iCDNa _ cid nid s2 hc hInv1 hnid (Or.inl hcn1)
          by_cases hlen : (s2.nickObjs nid).Channels.length = 0
          · rw [if_pos hlen] at h
            refine iNDa s2 nid s' h hInv2 ?_
            rw [hfr2.nickIds_eq]
            exact hnid
          · rw [if_neg hlen] at h
            simp only [Option.some.injEq] at h
            exact h ▸ hInv2
    · -- Nd: Nick.DelChannel from InvLPairB
      intro s cid nid s' h hP hnid hme
      obtain ⟨hcore, hnref, hIdx, hmest, hcn, hmir⟩ := hP
      rw [DelChannel_succ] at h
      cases hg : lookupA (s.nickObjs nid).Channels cid with
      | none =>
        rw [hg] at h
        simp only [Option.some.injEq] at h
        subst h
        refine Or.inl ⟨hcore, hnref, hIdx, hmest, ?_⟩
        intro n hn c hic
        rcases hmir n hn c hic with ⟨h1, h2⟩ | hmeq
        · rcases h1 with h1 | h1
          · exact Or.inl ⟨h1, h2⟩
          · subst h1
            subst h2
            refine Or.inr ?_
            unfold mirrorEq
            rw [hg, hcn]
        · exact Or.inr hmeq
      | some p =>
        rw [hg] at h
        simp only at h
        have hfr1 := frame_eraseNickSide s nid cid
        cases hc : Channel.DelNick fuel
            (updNick s nid (fun n => { n with Channels := eraseA n.Channels cid })) cid nid with
        | none =>
          rw [hc] at h
          exact absurd h (by simp)
        | some s2 =>
          rw [hc] at h
          simp only at h
          have hfr2 := ((cascadeFrame fuel).1 _ cid nid s2 hc).1
          have hnn1 : lookupA ((updNick s nid
              (fun n => { n with Channels := eraseA n.Channels cid })).nickObjs nid).Channels
              cid = none := by
            simp [updNick, fupd_self, lookupA_eraseA_self]
          have hP1 : InvLPairN (updNick s nid
              (fun n => { n with Channels := eraseA n.Channels cid })) cid nid := by
            refine ⟨InvCore_of_frame hfr1 hcore,
              NRefIdx_of_frame_chansEq hfr1 (Eq.refl _) hnref, hIdx, ?_, hnn1, ?_⟩
            · rcases hmest with hmeq | hnone
              · exact Or.inl (mirrorEq_eraseNickSide_other s nid cid s.Me cid
                  (fun hpp => hme hpp.1.symm) hmeq)
              · refine Or.inr ?_
                show lookupA ((fupd s.nickObjs nid _ s.Me).Channels) cid = none
                rw [fupd_ne _ _ _ _ (fun hh => hme hh.symm)]
                exact hnone
            · intro n hn c hic
              by_cases hpair : n = nid ∧ c = cid
              · exact Or.inl ⟨Or.inr hpair.1, hpair.2⟩
              · rcases hmir n hn c hic with ⟨h1, h2⟩ | hmeq
                · exact Or.inl ⟨h1, h2⟩
                · exact Or.inr (mirrorEq_eraseNickSide_other s nid cid n c hpair hmeq)
          have hpost := iCDNd _ cid nid s2 hc hP1 hnid hme
          by_cases hlen : (s2.nickObjs nid).Channels.length = 0
          · rw [if_pos hlen] at h
            rcases hpost with hL2 | hD2
            · refine Or.inl (iNDb s2 cid nid s' h hL2 ?_ ?_)
              · rw [hfr2.nickIds_eq]
                exact hnid
              · exact List.length_eq_zero.mp hlen
            · have hInv3 : Inv s' := by
                refine iNDa s2 nid s' h hD2.1 ?_
                rw [hfr2.nickIds_eq]
                exact hnid
              obtain ⟨hfr3, hch3⟩ := (cascadeFrame fuel).2.2.2.2.1 s2 nid s' h
              refine Or.inr ⟨hInv3, ?_⟩
              have hme3 : nid ≠ s2.Me := by
                rw [hfr2.me_eq]
                exact hme
              rw [hch3 hme3]
              have hna : (s'.chanObjs cid).Name = (s2.chanObjs cid).Name := by
                rw [hfr3.chan_fields cid]
              rw [hna]
              exact hD2.2
          · rw [if_neg hlen] at h
            simp only [Option.some.injEq] at h
            exact h ▸ hpost
    · -- NDa: Nick.Delete from Inv
      intro s nid s' h hInv hnid
      rw [NickDelete_succ] at h
      by_cases hme : nid = s.Me
      · rw [if_pos hme] at h
        simp only [Option.some.injEq] at h
        exact h ▸ hInv
      · rw [if_neg hme] at h
        cases hl : Nick.DeleteLoop fuel s nid ((s.nickObjs nid).Channels.map Prod.fst) with
        | none =>
          rw [hl] at h
          exact absurd h (by simp)
        | some s1 =>
          rw [hl] at h
          simp only [Option.some.injEq] at h
          subst h
          have hIdxAll : ∀ c ∈ (s.nickObjs nid).Channels.map Prod.fst, Indexed s c := by
            intro c hcm
            obtain ⟨e, he, hfe⟩ := List.mem_map.mp hcm
            subst hfe
            obtain ⟨b, hb⟩ := Option.isSome_iff_exists.mp
              (lookupA_isSome_of_mem _ e.1 e.2 (by simpa using he))
            exact hInv.2.1 nid hnid e.1 b hb
          have hInv1 : Inv s1 := iNDL s nid _ s1 hl hInv hnid hme hIdxAll
          refine ⟨InvCore_of_frame (frame_eraseNicksIdx s1 _) hInv1.1,
            NRefIdx_of_frame_chansEq (frame_eraseNicksIdx s1 _) (Eq.refl _) hInv1.2.1, ?_⟩
          intro n hn c hic
          exact hInv1.2.2 n hn c hic
    · -- NDb: Nick.Delete from InvL, nick has no channels
      intro s cid nid s' h hL hnid hempty
      rw [NickDelete_succ] at h
      by_cases hme : nid = s.Me
      · rw [if_pos hme] at h
        simp only [Option.some.injEq] at h
        exact h ▸ hL
      · rw [if_neg hme] at h
        cases hl : Nick.DeleteLoop fuel s nid ((s.nickObjs nid).Channels.map Prod.fst) with
        | none =>
          rw [hl] at h
          exact absurd h (by simp)
        | some s1 =>
          rw [hl] at h
          simp only [Option.some.injEq] at h
          subst h
          have hs1 : s1 = s := by
            refine NickDeleteLoop_nil fuel s nid s1 ?_
            rw [← hl, hempty]
            simp
          subst hs1
          obtain ⟨hcore, hnref, hIdx, hmest, hmir⟩ := hL
          refine ⟨InvCore_of_frame (frame_eraseNicksIdx s1 _) hcore,
            NRefIdx_of_frame_chansEq (frame_eraseNicksIdx s1 _) (Eq.refl _) hnref,
            hIdx, hmest, ?_⟩
          intro n hn c hic
          exact hmir n hn c hic
    · -- NDL: Nick.DeleteLoop from Inv
      intro s nid l s' h hInv hnid hme hIdxAll
      rw [NickDeleteLoop_succ] at h
      cases l with
      | nil =>
        simp only [Option.some.injEq] at h
        exact h ▸ hInv
      | cons c rest =>
        simp only at h
        cases hd : Channel.DelNick fuel s c nid with
        | none =>
          rw [hd] at h
          exact absurd h (by simp)
        | some s1 =>
          rw [hd] at h
          obtain ⟨hfr1, hcdn1⟩ := (cascadeFrame fuel).1 s c nid s1 hd
          have hInv1 : Inv s1 := iCDNa s c nid s1 hd hInv hnid (Or.inr (hIdxAll c (by simp)))
          have hch1 : s1.chans = s.chans := (hcdn1 hme).2
          refine iNDL s1 nid rest s' h hInv1 ?_ ?_ ?_
          · rw [hfr1.nickIds_eq]
            exact hnid
          · rw [hfr1.me_eq]
            exact hme
          · intro c' hc'
            exact Indexed_of_chansEq hch1 (fun i => by rw [hfr1.chan_fields i])
              (hIdxAll c' (by simp [hc']))

/-! ### Preservation of the full invariant by the public operations -/

/-- `Conn.NewNick` preserves the invariant: the fresh id is unreferenced by
any channel-side map (allocator freshness), its membership map is empty, and
the nickname index gains a consistent entry. -/
theorem Inv_NewNick (s : Conn) (nick ident name host : String) (h : Inv s) :
    Inv (Conn.NewNick s nick ident name host) := by
  obtain ⟨hc, hr, hm⟩ := h
  have hproj : ∀ m, m ≠ s.nextId →
      (Conn.NewNick s nick ident name host).nickObjs m = s.nickObjs m :=
    fun m hm2 => fupd_ne s.nickObjs s.nextId m _ hm2
  have hself : (Conn.NewNick s nick ident name host).nickObjs s.nextId =
      { Nick := nick, Ident := ident, Name := name, Host := host,
        Modes := NickMode.zero, Channels := [] } :=
    fupd_self s.nickObjs s.nextId _
  refine ⟨⟨?_, ?_, ?_, ?_, ?_, ?_, ?_⟩, ?_, ?_⟩
  · intro k nid hk
    have hk2 : lookupA (insertA s.nicks nick s.nextId) k = some nid := hk
    by_cases hkk : nick = k
    · subst hkk
      rw [lookupA_insertA_self] at hk2
      have hnid : s.nextId = nid := Option.some.inj hk2
      subst hnid
      refine ⟨List.mem_append_right _ (by simp), ?_⟩
      rw [hself]
    · rw [lookupA_insertA_ne s.nicks nick k s.nextId (fun hh => hkk hh.symm)] at hk2
      obtain ⟨h1, h2⟩ := hc.nidx k nid hk2
      refine ⟨List.mem_append_left _ h1, ?_⟩
      rw [hproj nid (Nat.ne_of_lt (hc.nickBound nid h1))]
      exact h2
  · intro k cid hk
    exact hc.cidx k cid hk
  · intro nid hnid
    have hnid2 : nid ∈ s.nickIds ++ [s.nextId] := hnid
    show nid < s.nextId + 1
    rcases List.mem_append.mp hnid2 with h1 | h1
    · exact Nat.lt_succ_of_lt (hc.nickBound nid h1)
    · have he : nid = s.nextId := by simpa using h1
      subst he
      exact Nat.lt_succ_self _
  · intro cid hcid
    have hcid2 : cid ∈ s.chanIds := hcid
    exact Nat.lt_succ_of_lt (hc.chanBound cid hcid2)
  · exact List.mem_append_left _ hc.meAlloc
  · intro nid hnid cid p hk
    have hnid2 : nid ∈ s.nickIds ++ [s.nextId] := hnid
    rcases List.mem_append.mp hnid2 with h1 | h1
    · rw [hproj nid (Nat.ne_of_lt (hc.nickBound nid h1))] at hk
      exact hc.nickAlloc nid h1 cid p hk
    · have he : nid = s.nextId := by simpa using h1
      rw [he, hself] at hk
      exact absurd hk (by simp [lookupA])
  · intro cid hcid nid p hk
    exact List.mem_append_left _ (hc.chanAlloc cid hcid nid p hk)
  · intro nid hnid cid p hk
    have hnid2 : nid ∈ s.nickIds ++ [s.nextId] := hnid
    rcases List.mem_append.mp hnid2 with h1 | h1
    · rw [hproj nid (Nat.ne_of_lt (hc.nickBound nid h1))] at hk
      exact hr nid h1 cid p hk
    · have he : nid = s.nextId := by simpa using h1
      rw [he, hself] at hk
      exact absurd hk (by simp [lookupA])
  · intro nid hnid cid hIdx
    have hIdx2 : Indexed s cid := hIdx
    have hnid2 : nid ∈ s.nickIds ++ [s.nextId] := hnid
    rcases List.mem_append.mp hnid2 with h1 | h1
    · show lookupA ((Conn.NewNick s nick ident name host).nickObjs nid).Channels cid =
        lookupA (s.chanObjs cid).Nicks nid
      rw [hproj nid (Nat.ne_of_lt (hc.nickBound nid h1))]
      exact hm nid h1 cid hIdx2
    · have he : nid = s.nextId := by simpa using h1
      subst he
      show lookupA ((Conn.NewNick s nick ident name host).nickObjs s.nextId).Channels cid =
        lookupA (s.chanObjs cid).Nicks s.nextId
      rw [hself]
      cases hcs : lookupA (s.chanObjs cid).Nicks s.nextId with
      | none => simp [lookupA]
      | some p =>
        have hmem := (hc.cidx _ cid hIdx2).1
        have hin := hc.chanAlloc cid hmem s.nextId p hcs
        exact absurd (hc.nickBound _ hin) (lt_irrefl _)

/-- `Conn.NewChannel` preserves the invariant, provided the name is not
already a key of the channel index (the JOIN handler creates a channel only
after a failed lookup): the fresh id is unreferenced, its member map is
empty, and the channel index gains a consistent entry. -/
theorem Inv_NewChannel (s : Conn) (c : String) (h : Inv s)
    (hfresh : lookupA s.chans c = none) : Inv (Conn.NewChannel s c) := by
  obtain ⟨hc, hr, hm⟩ := h
  have hproj : ∀ m, m ≠ s.nextId →
      (Conn.NewChannel s c).chanObjs m = s.chanObjs m :=
    fun m hm2 => fupd_ne s.chanObjs s.nextId m _ hm2
  have hself : (Conn.NewChannel s c).chanObjs s.nextId =
      { Name := c, Topic := "", Modes := ChanMode.zero, Nicks := [] } :=
    fupd_self s.chanObjs s.nextId _
  refine ⟨⟨?_, ?_, ?_, ?_, ?_, ?_, ?_⟩, ?_, ?_⟩
  · intro k nid hk
    exact hc.nidx k nid hk
  · intro k cid hk
    have hk2 : lookupA (insertA s.chans c s.nextId) k = some cid := hk
    by_cases hkk : c = k
    · subst hkk
      rw [lookupA_insertA_self] at hk2
      have hcid : s.nextId = cid := Option.some.inj hk2
      subst hcid
      refine ⟨List.mem_append_right _ (by simp), ?_⟩
      rw [hself]
    · rw [lookupA_insertA_ne s.chans c k s.nextId (fun hh => hkk hh.symm)] at hk2
      obtain ⟨h1, h2⟩ := hc.cidx k cid hk2
      refine ⟨List.mem_append_left _ h1, ?_⟩
      rw [hproj cid (Nat.ne_of_lt (hc.chanBound cid h1))]
      exact h2
  · intro nid hnid
    have hnid2 : nid ∈ s.nickIds := hnid
    exact Nat.lt_succ_of_lt (hc.nickBound nid hnid2)
  · intro cid hcid
    have hcid2 : cid ∈ s.chanIds ++ [s.nextId] := hcid
    show cid < s.nextId + 1
    rcases List.mem_append.mp hcid2 with h1 | h1
    · exact Nat.lt_succ_of_lt (hc.chanBound cid h1)
    · have he : cid = s.nextId := by simpa using h1
      subst he
      exact Nat.lt_succ_self _
  · exact hc.meAlloc
  · intro nid hnid cid p hk
    exact List.mem_append_left _ (hc.nickAlloc nid hnid cid p hk)
  · intro cid hcid nid p hk
    have hcid2 : cid ∈ s.chanIds ++ [s.nextId] := hcid
    rcases List.mem_append.mp hcid2 with h1 | h1
    · rw [hproj cid (Nat.ne_of_lt (hc.chanBound cid h1))] at hk
      exact hc.chanAlloc cid h1 nid p hk
    · have he : cid = s.nextId := by simpa using h1
      rw [he, hself] at hk
      exact absurd hk (by simp [lookupA])
  · intro nid hnid cid p hk
    have hold : Indexed s cid := hr nid hnid cid p hk
    have hmem : cid ∈ s.chanIds := (hc.cidx _ cid hold).1
    have hne : cid ≠ s.nextId := Nat.ne_of_lt (hc.chanBound cid hmem)
    have hnc : ¬ (s.chanObjs cid).Name = c := by
      intro hh
      have hold2 : lookupA s.chans ((s.chanObjs cid).Name) = some cid := hold
      rw [hh, hfresh] at hold2
      exact Option.noConfusion hold2
    show lookupA (insertA s.chans c s.nextId)
      (((Conn.NewChannel s c).chanObjs cid).Name) = some cid
    rw [hproj cid hne, lookupA_insertA_ne _ _ _ _ hnc]
    exact hold
  · intro nid hnid cid hIdx
    have hnid2 : nid ∈ s.nickIds := hnid
    by_cases hcc : cid = s.nextId
    · subst hcc
      show lookupA (s.nickObjs nid).Channels s.nextId =
        lookupA ((Conn.NewChannel s c).chanObjs s.nextId).Nicks nid
      rw [hself]
      cases hns : lookupA (s.nickObjs nid).Channels s.nextId with
      | none => simp [lookupA]
      | some p =>
        have hin := hc.nickAlloc nid hnid2 s.nextId p hns
        exact absurd (hc.chanBound _ hin) (lt_irrefl _)
    · have hIdx2 : lookupA (insertA s.chans c s.nextId)
          (((Conn.NewChannel s c).chanObjs cid).Name) = some cid := hIdx
      rw [hproj cid hcc] at hIdx2
      have hold : Indexed s cid := by
        by_cases hnc : (s.chanObjs cid).Name = c
        · rw [hnc, lookupA_insertA_self] at hIdx2
          exact absurd (Option.some.inj hIdx2) (fun hh => hcc hh.symm)
        · rw [lookupA_insertA_ne _ _ _ _ hnc] at hIdx2
          exact hIdx2
      show lookupA (s.nickObjs nid).Channels cid =
        lookupA ((Conn.NewChannel s c).chanObjs cid).Nicks nid
      rw [hproj cid hcc]
      exact hm nid hnid2 cid hold

/-- The common body of the two join directions (`Channel.AddNick` and
`Nick.AddChannel` perform the identical double insertion with a fresh shared
ChanPrivs) preserves the invariant; the overwriting insert keeps the two
sides equal whether or not the pair was present. -/
theorem Inv_joinBody (s : Conn) (cid nid : Nat) (h : Inv s) (hcid : Indexed s cid)
    (hnid : nid ∈ s.nickIds) :
    Inv (updNick
      (updChan { s with privObjs := fupd s.privObjs s.nextId ChanPrivs.zero,
                        nextId := s.nextId + 1 }
        cid (fun ch => { ch with Nicks := insertA ch.Nicks nid s.nextId }))
      nid (fun n => { n with Channels := insertA n.Channels cid s.nextId })) := by
  obtain ⟨hc, hr, hm⟩ := h
  set t := updNick
      (updChan { s with privObjs := fupd s.privObjs s.nextId ChanPrivs.zero,
                        nextId := s.nextId + 1 }
        cid (fun ch => { ch with Nicks := insertA ch.Nicks nid s.nextId }))
      nid (fun n => { n with Channels := insertA n.Channels cid s.nextId }) with htdef
  have hnickself : t.nickObjs nid =
      { s.nickObjs nid with Channels := insertA (s.nickObjs nid).Channels cid s.nextId } :=
    fupd_self _ _ _
  have hnickne : ∀ m, m ≠ nid → t.nickObjs m = s.nickObjs m :=
    fun m hm2 => fupd_ne _ _ _ _ hm2
  have hchanself : t.chanObjs cid =
      { s.chanObjs cid with Nicks := insertA (s.chanObjs cid).Nicks nid s.nextId } :=
    fupd_self _ _ _
  have hchanne : ∀ m, m ≠ cid → t.chanObjs m = s.chanObjs m :=
    fun m hm2 => fupd_ne _ _ _ _ hm2
  have hname : ∀ m, (t.chanObjs m).Name = (s.chanObjs m).Name := by
    intro m
    by_cases hmm : m = cid
    · subst hmm
      rw [hchanself]
    · rw [hchanne m hmm]
  have hnick : ∀ m, (t.nickObjs m).Nick = (s.nickObjs m).Nick := by
    intro m
    by_cases hmm : m = nid
    · subst hmm
      rw [hnickself]
    · rw [hnickne m hmm]
  have hIdxIff : ∀ m, Indexed t m ↔ Indexed s m := by
    intro m
    unfold Indexed
    rw [hname m]
    exact Iff.rfl
  refine ⟨⟨?_, ?_, ?_, ?_, ?_, ?_, ?_⟩, ?_, ?_⟩
  · intro k m hk
    obtain ⟨h1, h2⟩ := hc.nidx k m hk
    refine ⟨h1, ?_⟩
    rw [hnick m]
    exact h2
  · intro k m hk
    obtain ⟨h1, h2⟩ := hc.cidx k m hk
    refine ⟨h1, ?_⟩
    rw [hname m]
    exact h2
  · intro m hm2
    have hm3 : m ∈ s.nickIds := hm2
    show m < s.nextId + 1
    exact Nat.lt_succ_of_lt (hc.nickBound m hm3)
  · intro m hm2
    have hm3 : m ∈ s.chanIds := hm2
    show m < s.nextId + 1
    exact Nat.lt_succ_of_lt (hc.chanBound m hm3)
  · exact hc.meAlloc
  · intro m hm2 c2 p hk
    by_cases hmm : m = nid
    · subst hmm
      rw [hnickself] at hk
      have hk2 : lookupA (insertA (s.nickObjs m).Channels cid s.nextId) c2 = some p := hk
      by_cases hcc : c2 = cid
      · subst hcc
        exact (hc.cidx _ c2 hcid).1
      · rw [lookupA_insertA_ne _ _ _ _ hcc] at hk2
        exact hc.nickAlloc m hm2 c2 p hk2
    · rw [hnickne m hmm] at hk
      exact hc.nickAlloc m hm2 c2 p hk
  · intro m hm2 n2 p hk
    by_cases hmm : m = cid
    · subst hmm
      rw [hchanself] at hk
      have hk2 : lookupA (insertA (s.chanObjs m).Nicks nid s.nextId) n2 = some p := hk
      by_cases hnn : n2 = nid
      · subst hnn
        exact hnid
      · rw [lookupA_insertA_ne _ _ _ _ hnn] at hk2
        exact hc.chanAlloc m hm2 n2 p hk2
    · rw [hchanne m hmm] at hk
      exact hc.chanAlloc m hm2 n2 p hk
  · intro m hm2 c2 p hk
    by_cases hmm : m = nid
    · subst hmm
      rw [hnickself] at hk
      have hk2 : lookupA (insertA (s.nickObjs m).Channels cid s.nextId) c2 = some p := hk
      by_cases hcc : c2 = cid
      · subst hcc
        exact (hIdxIff c2).mpr hcid
      · rw [lookupA_insertA_ne _ _ _ _ hcc] at hk2
        exact (hIdxIff c2).mpr (hr m hm2 c2 p hk2)
    · rw [hnickne m hmm] at hk
      exact (hIdxIff c2).mpr (hr m hm2 c2 p hk)
  · intro m hm2 c2 hIdx
    have hIdxs : Indexed s c2 := (hIdxIff c2).mp hIdx
    unfold mirrorEq
    by_cases hmm : m = nid <;> by_cases hcc : c2 = cid
    · subst hmm
      subst hcc
      rw [hnickself, hchanself]
      show lookupA (insertA (s.nickObjs m).Channels c2 s.nextId) c2 =
        lookupA (insertA (s.chanObjs c2).Nicks m s.nextId) m
      rw [lookupA_insertA_self, lookupA_insertA_self]
    · subst hmm
      rw [hnickself, hchanne c2 hcc]
      show lookupA (insertA (s.nickObjs m).Channels cid s.nextId) c2 =
        lookupA (s.chanObjs c2).Nicks m
      rw [lookupA_insertA_ne _ _ _ _ hcc]
      exact hm m hm2 c2 hIdxs
    · subst hcc
      rw [hnickne m hmm, hchanself]
      show lookupA (s.nickObjs m).Channels c2 =
        lookupA (insertA (s.chanObjs c2).Nicks nid s.nextId) m
      rw [lookupA_insertA_ne _ _ _ _ hmm]
      exact hm m hm2 c2 hIdxs
    · rw [hnickne m hmm, hchanne c2 hcc]
      exact hm m hm2 c2 hIdxs

/-- The invariant never mentions the warning log. -/
theorem Inv_warnings (s : Conn) (w : List String) (h : Inv s) :
    Inv { s with warnings := w } := by
  obtain ⟨hc, hr, hm⟩ := h
  exact ⟨⟨hc.nidx, hc.cidx, hc.nickBound, hc.chanBound, hc.meAlloc,
    hc.nickAlloc, hc.chanAlloc⟩, hr, hm⟩

/-- `Channel.AddNick` preserves the invariant (the duplicate branch only
appends a warning). -/
theorem Inv_AddNick (s : Conn) (cid nid : Nat) (h : Inv s) (hcid : Indexed s cid)
    (hnid : nid ∈ s.nickIds) : Inv (Channel.AddNick s cid nid) := by
  unfold Channel.AddNick
  cases hg : lookupA (s.chanObjs cid).Nicks nid with
  | some p => exact Inv_warnings s _ h
  | none => exact Inv_joinBody s cid nid h hcid hnid

/-- `Nick.AddChannel` preserves the invariant (the duplicate branch only
appends a warning). -/
theorem Inv_AddChannel (s : Conn) (cid nid : Nat) (h : Inv s) (hcid : Indexed s cid)
    (hnid : nid ∈ s.nickIds) : Inv (Nick.AddChannel s nid cid) := by
  unfold Nick.AddChannel
  cases hg : lookupA (s.nickObjs nid).Channels cid with
  | some p => exact Inv_warnings s _ h
  | none => exact Inv_joinBody s cid nid h hcid hnid

/-- `Nick.ReNick` preserves the invariant for any allocated nick and any new
name: the re-keying keeps the nickname index consistent (a colliding insert
only evicts the older entry), and no membership map changes. -/
theorem Inv_ReNick (s : Conn) (nid : Nat) (neu : String) (h : Inv s)
    (hnid : nid ∈ s.nickIds) : Inv (Nick.ReNick s nid neu) := by
  obtain ⟨hc, hr, hm⟩ := h
  have hself : (Nick.ReNick s nid neu).nickObjs nid =
      { s.nickObjs nid with Nick := neu } := fupd_self _ _ _
  have hne : ∀ m, m ≠ nid → (Nick.ReNick s nid neu).nickObjs m = s.nickObjs m :=
    fun m hm2 => fupd_ne _ _ _ _ hm2
  have hnicks : (Nick.ReNick s nid neu).nicks =
      insertA (eraseA s.nicks ((s.nickObjs nid).Nick)) neu nid := by
    show insertA (eraseA s.nicks ((s.nickObjs nid).Nick))
        ((fupd s.nickObjs nid { s.nickObjs nid with Nick := neu } nid).Nick) nid = _
    rw [fupd_self]
  refine ⟨⟨?_, ?_, ?_, ?_, ?_, ?_, ?_⟩, ?_, ?_⟩
  · intro k m hk
    rw [hnicks] at hk
    by_cases hkk : neu = k
    · subst hkk
      rw [lookupA_insertA_self] at hk
      have hmn : nid = m := Option.some.inj hk
      subst hmn
      refine ⟨hnid, ?_⟩
      rw [hself]
    · rw [lookupA_insertA_ne _ _ _ _ (fun hh => hkk hh.symm)] at hk
      by_cases hko : k = (s.nickObjs nid).Nick
      · rw [hko, lookupA_eraseA_self] at hk
        exact Option.noConfusion hk
      · rw [lookupA_eraseA_ne _ _ _ hko] at hk
        obtain ⟨h1, h2⟩ := hc.nidx k m hk
        have hmn : m ≠ nid := by
          intro hh
          subst hh
          exact hko h2.symm
        refine ⟨h1, ?_⟩
        rw [hne m hmn]
        exact h2
  · intro k m hk
    exact hc.cidx k m hk
  · intro m hm2
    exact hc.nickBound m hm2
  · intro m hm2
    exact hc.chanBound m hm2
  · exact hc.meAlloc
  · intro m hm2 c2 p hk
    by_cases hmm : m = nid
    · subst hmm
      rw [hself] at hk
      have hk2 : lookupA (s.nickObjs m).Channels c2 = some p := hk
      exact hc.nickAlloc m hm2 c2 p hk2
    · rw [hne m hmm] at hk
      exact hc.nickAlloc m hm2 c2 p hk
  · intro m hm2 n2 p hk
    exact hc.chanAlloc m hm2 n2 p hk
  · intro m hm2 c2 p hk
    by_cases hmm : m = nid
    · subst hmm
      rw [hself] at hk
      have hk2 : lookupA (s.nickObjs m).Channels c2 = some p := hk
      exact hr m hm2 c2 p hk2
    · rw [hne m hmm] at hk
      exact hr m hm2 c2 p hk
  · intro m hm2 c2 hIdx
    have hIdxs : Indexed s c2 := hIdx
    unfold mirrorEq
    by_cases hmm : m = nid
    · subst hmm
      rw [hself]
      show lookupA (s.nickObjs m).Channels c2 = lookupA (s.chanObjs c2).Nicks m
      exact hm m hm2 c2 hIdxs
    · rw [hne m hmm]
      exact hm m hm2 c2 hIdxs

/-- Every public operation of the subsystem preserves the full invariant:
creations allocate fresh unreferenced ids, joins insert symmetrically,
renames re-key consistently, and the deletion cascades are covered by the
cascade contract. -/
theorem Inv_applyOp (s : Conn) (op : Op) (h : Inv s) : Inv (applyOp s op) := by
  cases op with
  | newNick nick ident name host => exact Inv_NewNick s nick ident name host h
  | newChannel c =>
    show Inv (match s.GetChannel c with
      | some _ => s
      | none => s.NewChannel c)
    cases hg : s.GetChannel c with
    | some cid => exact h
    | none => exact Inv_NewChannel s c h hg
  | addNick c n =>
    show Inv (match s.GetChannel c, s.GetNick n with
      | some cid, some nid => Channel.AddNick s cid nid
      | _, _ => s)
    cases hgc : s.GetChannel c with
    | none => exact h
    | some cid =>
      cases hgn : s.GetNick n with
      | none => exact h
      | some nid =>
        have h1 := h.1.cidx c cid hgc
        have h2 := h.1.nidx n nid hgn
        have hIdx : Indexed s cid := by
          unfold Indexed
          rw [h1.2]
          exact hgc
        exact Inv_AddNick s cid nid h hIdx h2.1
  | addChannel n c =>
    show Inv (match s.GetNick n, s.GetChannel c with
      | some nid, some cid => Nick.AddChannel s nid cid
      | _, _ => s)
    cases hgn : s.GetNick n with
    | none => exact h
    | some nid =>
      cases hgc : s.GetChannel c with
      | none => exact h
      | some cid =>
        have h1 := h.1.cidx c cid hgc
        have h2 := h.1.nidx n nid hgn
        have hIdx : Indexed s cid := by
          unfold Indexed
          rw [h1.2]
          exact hgc
        exact Inv_AddChannel s cid nid h hIdx h2.1
  | delNick c n =>
    show Inv (match s.GetChannel c, s.GetNick n with
      | some cid, some nid => (Channel.DelNick (bigFuel s) s cid nid).getD s
      | _, _ => s)
    cases hgc : s.GetChannel c with
    | none => exact h
    | some cid =>
      cases hgn : s.GetNick n with
      | none => exact h
      | some nid =>
        have h1 := h.1.cidx c cid hgc
        have h2 := h.1.nidx n nid hgn
        have hIdx : Indexed s cid := by
          unfold Indexed
          rw [h1.2]
          exact hgc
        show Inv ((Channel.DelNick (bigFuel s) s cid nid).getD s)
        cases hrun : Channel.DelNick (bigFuel s) s cid nid with
        | none => exact h
        | some s2 =>
          exact (cascadeInv (bigFuel s)).1 s cid nid s2 hrun h h2.1 (Or.inr hIdx)
  | delChannel n c =>
    show Inv (match s.GetNick n, s.GetChannel c with
      | some nid, some cid => (Nick.DelChannel (bigFuel s) s cid nid).getD s
      | _, _ => s)
    cases hgn : s.GetNick n with
    | none => exact h
    | some nid =>
      cases hgc : s.GetChannel c with
      | none => exact h
      | some cid =>
        have h2 := h.1.nidx n nid hgn
        show Inv ((Nick.DelChannel (bigFuel s) s cid nid).getD s)
        cases hrun : Nick.DelChannel (bigFuel s) s cid nid with
        | none => exact h
        | some s2 =>
          exact (cascadeInv (bigFuel s)).2.2.2.2.2.2.1 s cid nid s2 hrun h h2.1
  | deleteChannel c =>
    show Inv (match s.GetChannel c with
      | some cid => (Channel.Delete (bigFuel s) s cid).getD s
      | none => s)
    cases hgc : s.GetChannel c with
    | none => exact h
    | some cid =>
      have h1 := h.1.cidx c cid hgc
      have hIdx : Indexed s cid := by
        unfold Indexed
        rw [h1.2]
        exact hgc
      show Inv ((Channel.Delete (bigFuel s) s cid).getD s)
      cases hrun : Channel.Delete (bigFuel s) s cid with
      | none => exact h
      | some s2 =>
        exact ((cascadeInv (bigFuel s)).2.2.2.2.1 s cid s2 hrun (InvL_of_Inv h hIdx)).1
  | deleteNick n =>
    show Inv (match s.GetNick n with
      | some nid => (Nick.Delete (bigFuel s) s nid).getD s
      | none => s)
    cases hgn : s.GetNick n with
    | none => exact h
    | some nid =>
      have h2 := h.1.nidx n nid hgn
      show Inv ((Nick.Delete (bigFuel s) s nid).getD s)
      cases hrun : Nick.Delete (bigFuel s) s nid with
      | none => exact h
      | some s2 =>
        exact (cascadeInv (bigFuel s)).2.2.2.2.2.2.2.2.2.2.1 s nid s2 hrun h h2.1
  | reNick n neu =>
    show Inv (match s.GetNick n with
      | some nid => Nick.ReNick s nid neu
      | none => s)
    cases hgn : s.GetNick n with
    | none => exact h
    | some nid =>
      have h2 := h.1.nidx n nid hgn
      exact Inv_ReNick s nid neu h h2.1

/-- Sequences of public operations preserve the invariant. -/
theorem Inv_runOps (ops : List Op) : ∀ s : Conn, Inv s → Inv (runOps s ops) := by
  induction ops with
  | nil =>
    intro s h
    exact h
  | cons op t ih =>
    intro s h
    exact ih (applyOp s op) (Inv_applyOp s op h)

/-- The empty store satisfies the invariant. -/
theorem Inv_initConn : Inv initConn := by
  have hch0 : ∀ m, (initConn.nickObjs m).Channels = [] := by
    intro m
    simp only [initConn, fupd]
    split <;> rfl
  refine ⟨⟨?_, ?_, ?_, ?_, ?_, ?_, ?_⟩, ?_, ?_⟩
  · intro k nid hk
    by_cases hme : "me" = k
    · subst hme
      have h3 : some 0 = some nid := hk
      have h0 : (0 : Nat) = nid := Option.some.inj h3
      subst h0
      exact ⟨by decide, rfl⟩
    · have h3 : lookupA initConn.nicks k = none := by
        show (if "me" = k then some 0 else none) = none
        rw [if_neg hme]
      rw [h3] at hk
      exact Option.noConfusion hk
  · intro k cid hk
    exact Option.noConfusion hk
  · intro nid hnid
    have h2 : nid ∈ [0] := hnid
    have h3 : nid = 0 := by simpa using h2
    subst h3
    decide
  · intro cid hcid
    simp [initConn] at hcid
  · decide
  · intro nid hnid cid p hk
    rw [hch0 nid] at hk
    exact Option.noConfusion hk
  · intro cid hcid nid p hk
    simp [initConn] at hcid
  · intro nid hnid cid p hk
    rw [hch0 nid] at hk
    exact Option.noConfusion hk
  · intro nid hnid cid hIdx
    have h3 : lookupA initConn.chans ((initConn.chanObjs cid).Name) = some cid := hIdx
    exact Option.noConfusion h3

/-! ### Persistence of the local identity in the nickname index -/

/-- The local identity is present in the nickname index under its current
name. -/
def meTracked (s : Conn) : Prop :=
  lookupA s.nicks ((s.nickObjs s.Me).Nick) = some s.Me

instance (s : Conn) : Decidable (meTracked s) := by
  unfold meTracked
  infer_instance

/-- Every allocated nick object is either currently tracked in the nickname
index under its own name, or has no channel memberships (stale heap objects
left behind by completed deletions and evictions are membership-free). -/
def deadDrained (s : Conn) : Prop :=
  ∀ n ∈ s.nickIds, lookupA s.nicks ((s.nickObjs n).Nick) = some n ∨
    (s.nickObjs n).Channels = []

instance (s : Conn) : Decidable (deadDrained s) := by
  unfold deadDrained
  infer_instance

/-- Weak, frame-stable remnant of index consistency used inside cascade
runs: each allocated nick's name either resolves to that nick, or resolves
to nothing, or the nick is membership-free. -/
def keySane (s : Conn) : Prop :=
  ∀ n ∈ s.nickIds, lookupA s.nicks ((s.nickObjs n).Nick) = some n ∨
    lookupA s.nicks ((s.nickObjs n).Nick) = none ∨ (s.nickObjs n).Channels = []

/-- Every nick-side membership entry of an allocated nick other than the
local identity is backed by the matching channel-side entry (the identity is
exempt: channel destruction leaves its channel-side entries behind). -/
def pairsMirrored (s : Conn) : Prop :=
  ∀ n ∈ s.nickIds, n ≠ s.Me → ∀ c p, lookupA (s.nickObjs n).Channels c = some p →
    lookupA (s.chanObjs c).Nicks n = some p

/-- `pairsMirrored` with the single pair (nid, cid) exempt, the state in the
middle of `Channel.DelNick`'s channel-side erasure. -/
def pairsMirroredExc (s : Conn) (nid cid : Nat) : Prop :=
  ∀ n ∈ s.nickIds, n ≠ s.Me → ∀ c p, lookupA (s.nickObjs n).Channels c = some p →
    (n = nid ∧ c = cid) ∨ lookupA (s.chanObjs c).Nicks n = some p

/-- The nickname-index entry under the local identity's (start-state) name
is unchanged by a run from `s` to `t`. -/
def meKeyStable (s t : Conn) : Prop :=
  lookupA t.nicks ((s.nickObjs s.Me).Nick) = lookupA s.nicks ((s.nickObjs s.Me).Nick)

/-- Every nick tracked under its own name at `s` is, at `t`, still tracked
under that name or has become membership-free. -/
def trackedStable (s t : Conn) : Prop :=
  ∀ m ∈ s.nickIds, lookupA s.nicks ((s.nickObjs m).Nick) = some m →
    lookupA t.nicks ((s.nickObjs m).Nick) = some m ∨ (t.nickObjs m).Channels = []

/-- Operations admissible for the amended local-identity-persistence claim:
every join, leave and delete operation, and any creation or rename whose new
name does not currently resolve in the nickname index — equivalently (by
index consistency, where a tracked nick's key equals its name field), is not
the current name of any tracked nick. -/
def okC3 (s : Conn) : Op → Prop
  | .newNick nick _ _ _ => lookupA s.nicks nick = none
  | .reNick _ neu => lookupA s.nicks neu = none
  | _ => True

instance instDecidableOkC3 (s : Conn) (op : Op) : Decidable (okC3 s op) := by
  cases op <;> simp only [okC3] <;> infer_instance

/-- A whole sequence of operations is admissible when each operation is
admissible in the state it is applied to. -/
def okC3Seq : Conn → List Op → Prop
  | _, [] => True
  | s, op :: t => okC3 s op ∧ okC3Seq (applyOp s op) t

instance instDecidableOkC3Seq : (s : Conn) → (ops : List Op) → Decidable (okC3Seq s ops)
  | _, [] => isTrue trivial
  | s, op :: t =>
    haveI : Decidable (okC3Seq (applyOp s op) t) := instDecidableOkC3Seq (applyOp s op) t
    inferInstanceAs (Decidable (okC3 s op ∧ okC3Seq (applyOp s op) t))

/-- The cascade never changes the local identity or any nickname field. -/
theorem meKey_of_frame {s s' : Conn} (hf : FramePost s s') :
    ((s'.nickObjs s'.Me)).Nick = ((s.nickObjs s.Me)).Nick := by
  rw [hf.me_eq, hf.nick_fields s.Me]

/-- Membership maps only shrink across a frame, so empty stays empty. -/
theorem drained_of_frame {s t : Conn} (hf : FramePost s t) {n : Nat}
    (h : ((s.nickObjs n)).Channels = []) : ((t.nickObjs n)).Channels = [] := by
  have hl := hf.nick_len n
  cases hc : ((t.nickObjs n)).Channels with
  | nil => rfl
  | cons a l2 =>
    rw [h, hc] at hl
    simp at hl

/-- `keySane` only mentions frame-monotone components. -/
theorem keySane_of_frame {s t : Conn} (hf : FramePost s t) (h : keySane s) : keySane t := by
  intro n hn
  rw [hf.nickIds_eq] at hn
  have hname : ((t.nickObjs n)).Nick = ((s.nickObjs n)).Nick := by
    rw [hf.nick_fields n]
  rcases hf.nicks_idx ((s.nickObjs n).Nick) with hk | hk
  · rcases h n hn with h1 | h1 | h1
    · left
      rw [hname, hk]
      exact h1
    · right
      left
      rw [hname, hk]
      exact h1
    · right
      right
      exact drained_of_frame hf h1
  · right
    left
    rw [hname]
    exact hk

/-- An association list with no resolvable key is empty. -/
theorem eq_nil_of_forall_lookupA_none {α β : Type} [DecidableEq α] (l : List (α × β))
    (h : ∀ a, lookupA l a = none) : l = [] := by
  cases l with
  | nil => rfl
  | cons kv t =>
    obtain ⟨k, v⟩ := kv
    have := h k
    simp [lookupA] at this

theorem meTracked_of_B {s t : Conn} (hf : FramePost s t) (hmt : meTracked s)
    (hB : meKeyStable s t) : meTracked t := by
  have hB2 : lookupA t.nicks ((s.nickObjs s.Me).Nick) =
      lookupA s.nicks ((s.nickObjs s.Me).Nick) := hB
  have hmt2 : lookupA s.nicks ((s.nickObjs s.Me).Nick) = some s.Me := hmt
  unfold meTracked
  rw [meKey_of_frame hf, hf.me_eq, hB2]
  exact hmt2

theorem meKeyStable_trans {s s1 s2 : Conn} (hf1 : FramePost s s1) (h1 : meKeyStable s s1)
    (h2 : meKeyStable s1 s2) : meKeyStable s s2 := by
  have h1b : lookupA s1.nicks ((s.nickObjs s.Me).Nick) =
      lookupA s.nicks ((s.nickObjs s.Me).Nick) := h1
  have h2b : lookupA s2.nicks ((s1.nickObjs s1.Me).Nick) =
      lookupA s1.nicks ((s1.nickObjs s1.Me).Nick) := h2
  rw [meKey_of_frame hf1] at h2b
  show lookupA s2.nicks ((s.nickObjs s.Me).Nick) =
    lookupA s.nicks ((s.nickObjs s.Me).Nick)
  rw [h2b]
  exact h1b

theorem trackedStable_trans {s s1 s2 : Conn} (hf1 : FramePost s s1) (hf2 : FramePost s1 s2)
    (t1 : trackedStable s s1) (t2 : trackedStable s1 s2) : trackedStable s s2 := by
  intro m hm htr
  rcases t1 m hm htr with h1 | h1
  · have hm1 : m ∈ s1.nickIds := by rw [hf1.nickIds_eq]; exact hm
    have hname : ((s1.nickObjs m)).Nick = ((s.nickObjs m)).Nick := by
      rw [hf1.nick_fields m]
    rcases t2 m hm1 (by rw [hname]; exact h1) with h2 | h2
    · left
      rw [hname] at h2
      exact h2
    · right
      exact h2
  · right
    exact drained_of_frame hf2 h1

/-- The structural invariant implies the id-closure used by the cascade
contracts. -/
theorem WFids_of_Inv {s : Conn} (h : Inv s) : WFids s := by
  constructor
  · intro n hn e he
    obtain ⟨b, hb⟩ := Option.isSome_iff_exists.mp
      (lookupA_isSome_of_mem _ e.1 e.2 (by simpa using he))
    exact h.1.nickAlloc n hn e.1 b hb
  · intro c hc e he
    obtain ⟨b, hb⟩ := Option.isSome_iff_exists.mp
      (lookupA_isSome_of_mem _ e.1 e.2 (by simpa using he))
    exact h.1.chanAlloc c hc e.1 b hb

theorem keySane_of_deadDrained {s : Conn} (h : deadDrained s) : keySane s := by
  intro n hn
  rcases h n hn with h1 | h1
  · exact Or.inl h1
  · exact Or.inr (Or.inr h1)

theorem pairsMirrored_of_Inv {s : Conn} (h : Inv s) : pairsMirrored s := by
  intro n hn _ c p hl
  have hIdx := h.2.1 n hn c p hl
  have hmr := h.2.2 n hn c hIdx
  unfold mirrorEq at hmr
  rw [← hmr]
  exact hl

theorem deadDrained_of_run {s t : Conn} (hf : FramePost s t) (hDD : deadDrained s)
    (hT : trackedStable s t) : deadDrained t := by
  intro m hm
  rw [hf.nickIds_eq] at hm
  have hname : ((t.nickObjs m)).Nick = ((s.nickObjs m)).Nick := by
    rw [hf.nick_fields m]
  rcases hDD m hm with h1 | h1
  · rcases hT m hm h1 with h2 | h2
    · left
      rw [hname]
      exact h2
    · right
      exact h2
  · right
    exact drained_of_frame hf h1

/-- A membership-map-only update of a nick object leaves its name alone. -/
theorem nickField_updNick_channels (s : Conn) (nid : Nat)
    (g : List (Nat × Nat) → List (Nat × Nat)) :
    ∀ m, (((updNick s nid (fun n => { n with Channels := g n.Channels })).nickObjs m)).Nick =
      ((s.nickObjs m)).Nick := by
  intro m
  by_cases hm : m = nid
  · subst hm
    rw [show (updNick s m (fun n => { n with Channels := g n.Channels })).nickObjs m =
      { s.nickObjs m with Channels := g ((s.nickObjs m)).Channels } from fupd_self _ _ _]
  · exact congrArg Nick.Nick (fupd_ne _ _ _ _ hm)

/-- Through every deletion-cascade run from a state whose membership entries
reference allocated objects, whose local identity is tracked, whose key
resolution is sane and whose non-identity pairs are mirrored: the index
entry under the local identity's name is untouched (the only keys the
cascade erases are the current names of the other nicks it fully deletes,
and each such nick is drained first); every nick tracked under its own name
stays tracked or ends membership-free; and the mirroring of non-identity
pairs is preserved. -/
theorem cascadeMeSafe : ∀ fuel : Nat,
    (∀ s cid nid s', Channel.DelNick fuel s cid nid = some s' → WFids s → meTracked s →
      keySane s → pairsMirrored s → nid ∈ s.nickIds →
      (cid ∈ s.chanIds ∨ lookupA ((s.chanObjs cid)).Nicks nid = none) →
      meKeyStable s s' ∧ trackedStable s s' ∧ pairsMirrored s' ∧
      (nid ≠ s.Me → lookupA ((s.chanObjs cid)).Nicks nid ≠ none →
        lookupA ((s'.nickObjs nid)).Channels cid = none)) ∧
    (∀ s cid s', Channel.Delete fuel s cid = some s' → WFids s → meTracked s →
      keySane s → pairsMirrored s → cid ∈ s.chanIds →
      meKeyStable s s' ∧ trackedStable s s' ∧ pairsMirrored s') ∧
    (∀ s cid l s', Channel.DeleteLoop fuel s cid l = some s' → WFids s → meTracked s →
      keySane s → pairsMirrored s → cid ∈ s.chanIds → (∀ m ∈ l, m ∈ s.nickIds) →
      meKeyStable s s' ∧ trackedStable s s' ∧ pairsMirrored s') ∧
    (∀ s cid nid s', Nick.DelChannel fuel s cid nid = some s' → WFids s → meTracked s →
      keySane s → pairsMirroredExc s nid cid → nid ∈ s.nickIds → cid ∈ s.chanIds →
      meKeyStable s s' ∧ trackedStable s s' ∧ pairsMirrored s') ∧
    (∀ s nid s', Nick.Delete fuel s nid = some s' → WFids s → meTracked s →
      keySane s → pairsMirrored s → nid ∈ s.nickIds →
      (nid = s.Me ∨ ((s.nickObjs nid)).Nick ≠ ((s.nickObjs s.Me)).Nick) →
      (lookupA s.nicks (((s.nickObjs nid)).Nick) = some nid ∨
        lookupA s.nicks (((s.nickObjs nid)).Nick) = none) →
      meKeyStable s s' ∧ trackedStable s s' ∧ pairsMirrored s') ∧
    (∀ s nid l s', Nick.DeleteLoop fuel s nid l = some s' → WFids s → meTracked s →
      keySane s → pairsMirrored s → nid ∈ s.nickIds → nid ≠ s.Me →
      (∀ c ∈ l, c ∈ s.chanIds) →
      meKeyStable s s' ∧ trackedStable s s' ∧ pairsMirrored s' ∧
      (∀ c ∈ l, lookupA ((s'.nickObjs nid)).Channels c = none)) := by
  intro fuel
  induction fuel with
  | zero =>
    refine ⟨?_, ?_, ?_, ?_, ?_, ?_⟩ <;> intro s
    · intro cid nid s' h
      simp [DelNick_zero] at h
    · intro cid s' h
      simp [Delete_zero] at h
    · intro cid l s' h
      simp [DeleteLoop_zero] at h
    · intro cid nid s' h
      simp [DelChannel_zero] at h
    · intro nid s' h
      simp [NickDelete_zero] at h
    · intro nid l s' h
      simp [NickDeleteLoop_zero] at h
  | succ fuel ih =>
    obtain ⟨mCDN, mCD, mCDL, mNDC, mND, mNDL⟩ := ih
    refine ⟨?_, ?_, ?_, ?_, ?_, ?_⟩
    · -- Channel.DelNick
      intro s cid nid s' h hw hmt hks hpm hnid hdis
      rw [DelNick_succ] at h
      cases hg : lookupA ((s.chanObjs cid)).Nicks nid with
      | none =>
        rw [hg] at h
        simp only [Option.some.injEq] at h
        subst h
        exact ⟨rfl, fun m _ htr => Or.inl htr, hpm, fun _ hcontra => absurd rfl hcontra⟩
      | some p =>
        rw [hg] at h
        simp only at h
        have hcid : cid ∈ s.chanIds := by
          rcases hdis with hd | hd
          · exact hd
          · rw [hg] at hd
            exact Option.noConfusion hd
        by_cases hme : nid = s.Me
        · rw [if_pos hme] at h
          obtain ⟨hB, hT, hM⟩ := mCD s cid s' h hw hmt hks hpm hcid
          exact ⟨hB, hT, hM, fun hne _ => absurd hme hne⟩
        · rw [if_neg hme] at h
          have hf1 : FramePost s
              (updChan s cid (fun ch => { ch with Nicks := eraseA ch.Nicks nid })) :=
            frame_eraseChanSide s cid nid hme
          have hcself : (updChan s cid
                (fun ch => { ch with Nicks := eraseA ch.Nicks nid })).chanObjs cid =
              { s.chanObjs cid with Nicks := eraseA ((s.chanObjs cid)).Nicks nid } :=
            fupd_self _ _ _
          have hcne : ∀ c2, c2 ≠ cid → (updChan s cid
                (fun ch => { ch with Nicks := eraseA ch.Nicks nid })).chanObjs c2 =
              s.chanObjs c2 :=
            fun c2 hc2 => fupd_ne _ _ _ _ hc2
          have hpmX1 : pairsMirroredExc
              (updChan s cid (fun ch => { ch with Nicks := eraseA ch.Nicks nid }))
              nid cid := by
            intro n hn hne c p2 hl
            have hl2 : lookupA ((s.nickObjs n)).Channels c = some p2 := hl
            by_cases hcc : c = cid
            · by_cases hnn : n = nid
              · exact Or.inl ⟨hnn, hcc⟩
              · right
                have hres := hpm n hn hne c p2 hl2
                rw [hcc] at hres ⊢
                rw [hcself]
                show lookupA (eraseA ((s.chanObjs cid)).Nicks nid) n = some p2
                rw [lookupA_eraseA_ne _ _ _ hnn]
                exact hres
            · right
              have hres := hpm n hn hne c p2 hl2
              rw [hcne c hcc]
              exact hres
          obtain ⟨hB1, hT1, hM1⟩ := mNDC
            (updChan s cid (fun ch => { ch with Nicks := eraseA ch.Nicks nid }))
            cid nid s' h (WFids_of_frame hf1 hw)
            (meTracked_of_B hf1 hmt rfl) (keySane_of_frame hf1 hks) hpmX1
            (by rw [hf1.nickIds_eq]; exact hnid) (by rw [hf1.chanIds_eq]; exact hcid)
          have hfr2 := ((cascadeFrame fuel).2.2.2.1 _ cid nid s' h)
          refine ⟨meKeyStable_trans hf1 rfl hB1,
            trackedStable_trans hf1 hfr2.1 (fun m hm htr => Or.inl htr) hT1,
            hM1, ?_⟩
          intro _ _
          exact hfr2.2.1
    · -- Channel.Delete
      intro s cid s' h hw hmt hks hpm hcid
      rw [Delete_succ] at h
      cases hl : Channel.DeleteLoop fuel s cid (((s.chanObjs cid)).Nicks.map Prod.fst) with
      | none => rw [hl] at h; exact absurd h (by simp)
      | some s1 =>
        rw [hl] at h
        simp only [Option.some.injEq] at h
        subst h
        have hmem : ∀ m ∈ ((s.chanObjs cid)).Nicks.map Prod.fst, m ∈ s.nickIds := by
          intro m hm
          rcases List.mem_map.mp hm with ⟨e, he, rfl⟩
          exact hw.2 cid hcid e he
        obtain ⟨hB1, hT1, hM1⟩ := mCDL s cid _ s1 hl hw hmt hks hpm hcid hmem
        exact ⟨hB1, hT1, hM1⟩
    · -- Channel.DeleteLoop
      intro s cid l s' h hw hmt hks hpm hcid hmem
      rw [DeleteLoop_succ] at h
      cases l with
      | nil =>
        simp only [Option.some.injEq] at h
        subst h
        exact ⟨rfl, fun m _ htr => Or.inl htr, hpm⟩
      | cons m rest =>
        simp only at h
        cases hd : Nick.DelChannel fuel s cid m with
        | none => rw [hd] at h; exact absurd h (by simp)
        | some s1 =>
          rw [hd] at h
          have hpmX : pairsMirroredExc s m cid := fun n hn hne c p hl =>
            Or.inr (hpm n hn hne c p hl)
          obtain ⟨hB1, hT1, hM1⟩ := mNDC s cid m s1 hd hw hmt hks hpmX
            (hmem m (by simp)) hcid
          have hfr1 : FramePost s s1 := ((cascadeFrame fuel).2.2.2.1 s cid m s1 hd).1
          obtain ⟨hB2, hT2, hM2⟩ := mCDL s1 cid rest s' h (WFids_of_frame hfr1 hw)
            (meTracked_of_B hfr1 hmt hB1) (keySane_of_frame hfr1 hks) hM1
            (by rw [hfr1.chanIds_eq]; exact hcid)
            (by
              intro m2 hm2
              rw [hfr1.nickIds_eq]
              exact hmem m2 (by simp [hm2]))
          have hfr2 : FramePost s1 s' := ((cascadeFrame fuel).2.2.1 s1 cid rest s' h).1
          exact ⟨meKeyStable_trans hfr1 hB1 hB2,
            trackedStable_trans hfr1 hfr2 hT1 hT2, hM2⟩
    · -- Nick.DelChannel
      intro s cid nid s' h hw hmt hks hpmX hnid hcid
      rw [DelChannel_succ] at h
      cases hg : lookupA ((s.nickObjs nid)).Channels cid with
      | none =>
        rw [hg] at h
        simp only [Option.some.injEq] at h
        subst h
        refine ⟨rfl, fun m _ htr => Or.inl htr, ?_⟩
        intro n hn hne c p hl
        rcases hpmX n hn hne c p hl with ⟨hn2, hc2⟩ | hres
        · subst hn2
          subst hc2
          rw [hg] at hl
          exact Option.noConfusion hl
        · exact hres
      | some p =>
        rw [hg] at h
        simp only at h
        have hmt2 : lookupA s.nicks (((s.nickObjs s.Me)).Nick) = some s.Me := hmt
        have hKd : nid = s.Me ∨ ((s.nickObjs nid)).Nick ≠ ((s.nickObjs s.Me)).Nick := by
          by_cases hq : nid = s.Me
          · exact Or.inl hq
          · right
            intro heq
            rcases hks nid hnid with h1 | h1 | h1
            · rw [heq, hmt2] at h1
              exact hq (Option.some.inj h1).symm
            · rw [heq, hmt2] at h1
              exact Option.noConfusion h1
            · rw [h1] at hg
              exact Option.noConfusion hg
        have hTrk0 : lookupA s.nicks (((s.nickObjs nid)).Nick) = some nid ∨
            lookupA s.nicks (((s.nickObjs nid)).Nick) = none := by
          rcases hks nid hnid with h1 | h1 | h1
          · exact Or.inl h1
          · exact Or.inr h1
          · rw [h1] at hg
            exact Option.noConfusion hg
        have hf1 : FramePost s
            (updNick s nid (fun n => { n with Channels := eraseA n.Channels cid })) :=
          frame_eraseNickSide s nid cid
        have hself1 : (updNick s nid
              (fun n => { n with Channels := eraseA n.Channels cid })).nickObjs nid =
            { s.nickObjs nid with Channels := eraseA ((s.nickObjs nid)).Channels cid } :=
          fupd_self _ _ _
        have hne1 : ∀ m, m ≠ nid → (updNick s nid
              (fun n => { n with Channels := eraseA n.Channels cid })).nickObjs m =
            s.nickObjs m :=
          fun m hm => fupd_ne _ _ _ _ hm
        have hpm1 : pairsMirrored
            (updNick s nid (fun n => { n with Channels := eraseA n.Channels cid })) := by
          intro n hn hne c p2 hl
          by_cases hnn : n = nid
          · rw [hnn, hself1] at hl
            have hl2 : lookupA (eraseA ((s.nickObjs nid)).Channels cid) c = some p2 := hl
            by_cases hcc : c = cid
            · rw [hcc, lookupA_eraseA_self] at hl2
              exact Option.noConfusion hl2
            · rw [lookupA_eraseA_ne _ _ _ hcc] at hl2
              rcases hpmX n hn hne c p2 (by rw [hnn]; exact hl2) with ⟨_, hc2⟩ | hres
              · exact absurd hc2 hcc
              · exact hres
          · rw [hne1 n hnn] at hl
            rcases hpmX n hn hne c p2 hl with ⟨hn2, _⟩ | hres
            · exact absurd hn2 hnn
            · exact hres
        cases hc : Channel.DelNick fuel
            (updNick s nid (fun n => { n with Channels := eraseA n.Channels cid }))
            cid nid with
        | none => rw [hc] at h; exact absurd h (by simp)
        | some s2 =>
          rw [hc] at h
          simp only at h
          obtain ⟨hB1, hT1, hM1, hE1⟩ := mCDN
            (updNick s nid (fun n => { n with Channels := eraseA n.Channels cid }))
            cid nid s2 hc (WFids_of_frame hf1 hw) (meTracked_of_B hf1 hmt rfl)
            (keySane_of_frame hf1 hks) hpm1
            (by rw [hf1.nickIds_eq]; exact hnid)
            (Or.inl (by rw [hf1.chanIds_eq]; exact hcid))
          have hfr2 : FramePost
              (updNick s nid (fun n => { n with Channels := eraseA n.Channels cid })) s2 :=
            ((cascadeFrame fuel).1 _ cid nid s2 hc).1
          have hf12 : FramePost s s2 := hf1.trans hfr2
          have hB02 : meKeyStable s s2 := meKeyStable_trans hf1 rfl hB1
          have hT02 : trackedStable s s2 :=
            trackedStable_trans hf1 hfr2 (fun m hm htr => Or.inl htr) hT1
          by_cases hlen : ((s2.nickObjs nid)).Channels.length = 0
          · rw [if_pos hlen] at h
            have hn12 : ((s2.nickObjs nid)).Nick = ((s.nickObjs nid)).Nick := by
              rw [hf12.nick_fields nid]
            obtain ⟨hB3, hT3, hM3⟩ := mND s2 nid s' h (WFids_of_frame hf12 hw)
              (meTracked_of_B hf12 hmt hB02) (keySane_of_frame hf12 hks) hM1
              (by rw [hf12.nickIds_eq]; exact hnid)
              (by
                rcases hKd with hq | hq
                · exact Or.inl (by rw [hf12.me_eq]; exact hq)
                · right
                  rw [hn12, meKey_of_frame hf12]
                  exact hq)
              (by
                rcases hf12.nicks_idx (((s.nickObjs nid)).Nick) with hh | hh
                · rcases hTrk0 with h1 | h1
                  · left
                    rw [hn12, hh]
                    exact h1
                  · right
                    rw [hn12, hh]
                    exact h1
                · right
                  rw [hn12]
                  exact hh)
            have hfr3 : FramePost s2 s' := ((cascadeFrame fuel).2.2.2.2.1 s2 nid s' h).1
            exact ⟨meKeyStable_trans hf12 hB02 hB3,
              trackedStable_trans hf12 hfr3 hT02 hT3, hM3⟩
          · rw [if_neg hlen] at h
            simp only [Option.some.injEq] at h
            subst h
            exact ⟨hB02, hT02, hM1⟩
    · -- Nick.Delete
      intro s nid s' h hw hmt hks hpm hnid hKd hTrk
      rw [NickDelete_succ] at h
      by_cases hme : nid = s.Me
      · rw [if_pos hme] at h
        simp only [Option.some.injEq] at h
        subst h
        exact ⟨rfl, fun m _ htr => Or.inl htr, hpm⟩
      · rw [if_neg hme] at h
        cases hl : Nick.DeleteLoop fuel s nid (((s.nickObjs nid)).Channels.map Prod.fst) with
        | none => rw [hl] at h; exact absurd h (by simp)
        | some s1 =>
          rw [hl] at h
          simp only [Option.some.injEq] at h
          have hchan : ∀ c ∈ ((s.nickObjs nid)).Channels.map Prod.fst, c ∈ s.chanIds := by
            intro c hc2
            rcases List.mem_map.mp hc2 with ⟨e, he, rfl⟩
            exact hw.1 nid hnid e he
          obtain ⟨hB1, hT1, hM1, hD1⟩ := mNDL s nid _ s1 hl hw hmt hks hpm hnid hme hchan
          have hfr1 : FramePost s s1 := ((cascadeFrame fuel).2.2.2.2.2 s nid _ s1 hl).1
          have hkn : ((s1.nickObjs nid)).Nick = ((s.nickObjs nid)).Nick := by
            rw [hfr1.nick_fields nid]
          have hdiff : ((s.nickObjs nid)).Nick ≠ ((s.nickObjs s.Me)).Nick := by
            rcases hKd with hq | hq
            · exact absurd hq hme
            · exact hq
          have hdr1 : ((s1.nickObjs nid)).Channels = [] := by
            apply eq_nil_of_forall_lookupA_none
            intro c
            by_cases hcl : c ∈ ((s.nickObjs nid)).Channels.map Prod.fst
            · exact hD1 c hcl
            · have hs0 : lookupA ((s.nickObjs nid)).Channels c = none :=
                lookupA_none_of_not_mem_keys _ _ hcl
              rcases hfr1.nick_side nid c with hh | hh
              · rw [hh]
                exact hs0
              · exact hh
          refine ⟨?_, ?_, ?_⟩
          · rw [← h]
            show lookupA (eraseA s1.nicks (((s1.nickObjs nid)).Nick))
                (((s.nickObjs s.Me)).Nick) =
              lookupA s.nicks (((s.nickObjs s.Me)).Nick)
            rw [lookupA_eraseA_ne _ _ _ (by rw [hkn]; exact hdiff.symm)]
            exact hB1
          · intro m hm htr
            rcases hT1 m hm htr with h1 | h1
            · by_cases hkk : ((s.nickObjs m)).Nick = ((s.nickObjs nid)).Nick
              · have h1k : lookupA s1.nicks (((s.nickObjs nid)).Nick) = some m := by
                  rw [← hkk]
                  exact h1
                rcases hfr1.nicks_idx (((s.nickObjs nid)).Nick) with hh | hh
                · rw [hh] at h1k
                  rcases hTrk with ht0 | ht0
                  · rw [ht0] at h1k
                    have hmn : nid = m := Option.some.inj h1k
                    right
                    rw [← h]
                    show ((s1.nickObjs m)).Channels = []
                    rw [← hmn]
                    exact hdr1
                  · rw [ht0] at h1k
                    exact Option.noConfusion h1k
                · rw [hh] at h1k
                  exact Option.noConfusion h1k
              · left
                rw [← h]
                show lookupA (eraseA s1.nicks (((s1.nickObjs nid)).Nick))
                  (((s.nickObjs m)).Nick) = some m
                rw [lookupA_eraseA_ne _ _ _ (by rw [hkn]; exact hkk)]
                exact h1
            · right
              rw [← h]
              show ((s1.nickObjs m)).Channels = []
              exact h1
          · rw [← h]
            exact hM1
    · -- Nick.DeleteLoop
      intro s nid l s' h hw hmt hks hpm hnid hme hchan
      rw [NickDeleteLoop_succ] at h
      cases l with
      | nil =>
        simp only [Option.some.injEq] at h
        subst h
        refine ⟨rfl, fun m _ htr => Or.inl htr, hpm, ?_⟩
        intro c hc
        simp at hc
      | cons c rest =>
        simp only at h
        cases hd : Channel.DelNick fuel s c nid with
        | none => rw [hd] at h; exact absurd h (by simp)
        | some s1 =>
          rw [hd] at h
          obtain ⟨hB1, hT1, hM1, hE1⟩ := mCDN s c nid s1 hd hw hmt hks hpm hnid
            (Or.inl (hchan c (by simp)))
          have hfr1 : FramePost s s1 := ((cascadeFrame fuel).1 s c nid s1 hd).1
          obtain ⟨hB2, hT2, hM2, hD2⟩ := mNDL s1 nid rest s' h (WFids_of_frame hfr1 hw)
            (meTracked_of_B hfr1 hmt hB1) (keySane_of_frame hfr1 hks) hM1
            (by rw [hfr1.nickIds_eq]; exact hnid)
            (by rw [hfr1.me_eq]; exact hme)
            (by
              intro c2 hc2
              rw [hfr1.chanIds_eq]
              exact hchan c2 (by simp [hc2]))
          have hfr2 : FramePost s1 s' := ((cascadeFrame fuel).2.2.2.2.2 s1 nid rest s' h).1
          refine ⟨meKeyStable_trans hfr1 hB1 hB2,
            trackedStable_trans hfr1 hfr2 hT1 hT2, hM2, ?_⟩
          intro c0 hc0
          rcases List.mem_cons.mp hc0 with hc0 | hc0
          · subst hc0
            have hnone1 : lookupA ((s1.nickObjs nid)).Channels c0 = none := by
              cases hside : lookupA ((s.nickObjs nid)).Channels c0 with
              | none =>
                rcases hfr1.nick_side nid c0 with hh | hh
                · rw [hh]
                  exact hside
                · exact hh
              | some p =>
                exact hE1 hme (by
                  rw [hpm nid hnid hme c0 p hside]
                  simp)
            rcases hfr2.nick_side nid c0 with hh | hh
            · rw [hh]
              exact hnone1
            · exact hh
          · exact hD2 c0 hc0

/-- The common join body keeps the local identity tracked and keeps every
allocated nick tracked-or-drained: the joining nick is resolved through the
index, so it is tracked under its current name. -/
theorem MeSafe_joinBody (s : Conn) (cid nid : Nat) (hT : meTracked s) (hDD : deadDrained s)
    (htrk : lookupA s.nicks (((s.nickObjs nid)).Nick) = some nid) :
    meTracked (updNick
      (updChan { s with privObjs := fupd s.privObjs s.nextId ChanPrivs.zero,
                        nextId := s.nextId + 1 }
        cid (fun ch => { ch with Nicks := insertA ch.Nicks nid s.nextId }))
      nid (fun n => { n with Channels := insertA n.Channels cid s.nextId })) ∧
    deadDrained (updNick
      (updChan { s with privObjs := fupd s.privObjs s.nextId ChanPrivs.zero,
                        nextId := s.nextId + 1 }
        cid (fun ch => { ch with Nicks := insertA ch.Nicks nid s.nextId }))
      nid (fun n => { n with Channels := insertA n.Channels cid s.nextId })) := by
  set t := updNick
      (updChan { s with privObjs := fupd s.privObjs s.nextId ChanPrivs.zero,
                        nextId := s.nextId + 1 }
        cid (fun ch => { ch with Nicks := insertA ch.Nicks nid s.nextId }))
      nid (fun n => { n with Channels := insertA n.Channels cid s.nextId }) with htdef
  have hnickself : t.nickObjs nid =
      { s.nickObjs nid with Channels := insertA ((s.nickObjs nid)).Channels cid s.nextId } :=
    fupd_self _ _ _
  have hnickne : ∀ m, m ≠ nid → t.nickObjs m = s.nickObjs m :=
    fun m hm2 => fupd_ne _ _ _ _ hm2
  have hname : ∀ m, ((t.nickObjs m)).Nick = ((s.nickObjs m)).Nick := by
    intro m
    by_cases hmm : m = nid
    · subst hmm
      rw [hnickself]
    · rw [hnickne m hmm]
  constructor
  · show lookupA s.nicks (((t.nickObjs s.Me)).Nick) = some s.Me
    rw [hname s.Me]
    exact hT
  · intro m hm
    have hm2 : m ∈ s.nickIds := hm
    by_cases hmn : m = nid
    · left
      show lookupA s.nicks (((t.nickObjs m)).Nick) = some m
      rw [hname m, hmn]
      exact htrk
    · rcases hDD m hm2 with h1 | h1
      · left
        show lookupA s.nicks (((t.nickObjs m)).Nick) = some m
        rw [hname m]
        exact h1
      · right
        show ((t.nickObjs m)).Channels = []
        rw [hnickne m hmn]
        exact h1

/-- Every admissible public operation keeps the local identity tracked under
its current name and keeps every allocated nick tracked-or-drained:
creations and renames are restricted to names that do not currently resolve,
joins only make index-resolved nicks live, duplicate warnings never touch
the nickname index, and the deletion cascades only erase the keys of nicks
they drain. -/
theorem MeSafe_applyOp (s : Conn) (op : Op) (hInv : Inv s) (hT : meTracked s)
    (hDD : deadDrained s) (hok : okC3 s op) :
    meTracked (applyOp s op) ∧ deadDrained (applyOp s op) := by
  have hmt2 : lookupA s.nicks (((s.nickObjs s.Me)).Nick) = some s.Me := hT
  cases op with
  | newNick nick ident name host =>
    have hcond : lookupA s.nicks nick = none := hok
    have hMe_ne : s.Me ≠ s.nextId := Nat.ne_of_lt (hInv.1.nickBound s.Me hInv.1.meAlloc)
    have hproj : ∀ m, m ≠ s.nextId →
        (Conn.NewNick s nick ident name host).nickObjs m = s.nickObjs m :=
      fun m hm2 => fupd_ne s.nickObjs s.nextId m _ hm2
    have hself : (Conn.NewNick s nick ident name host).nickObjs s.nextId =
        { Nick := nick, Ident := ident, Name := name, Host := host,
          Modes := NickMode.zero, Channels := [] } :=
      fupd_self s.nickObjs s.nextId _
    have hkne : ((s.nickObjs s.Me)).Nick ≠ nick := by
      intro hh
      rw [hh, hcond] at hmt2
      exact Option.noConfusion hmt2
    constructor
    · show lookupA (insertA s.nicks nick s.nextId)
        (((Conn.NewNick s nick ident name host).nickObjs s.Me).Nick) = some s.Me
      rw [hproj s.Me hMe_ne, lookupA_insertA_ne _ _ _ _ hkne]
      exact hmt2
    · intro n hn
      have hn2 : n ∈ s.nickIds ++ [s.nextId] := hn
      rcases List.mem_append.mp hn2 with h1 | h1
      · have hpr := hproj n (Nat.ne_of_lt (hInv.1.nickBound n h1))
        rcases hDD n h1 with h2 | h2
        · left
          show lookupA (insertA s.nicks nick s.nextId)
            (((Conn.NewNick s nick ident name host).nickObjs n).Nick) = some n
          rw [hpr]
          have hne2 : ((s.nickObjs n)).Nick ≠ nick := by
            intro hh
            rw [hh, hcond] at h2
            exact Option.noConfusion h2
          rw [lookupA_insertA_ne _ _ _ _ hne2]
          exact h2
        · right
          show (((Conn.NewNick s nick ident name host).nickObjs n)).Channels = []
          rw [hpr]
          exact h2
      · have he : n = s.nextId := by simpa using h1
        right
        show (((Conn.NewNick s nick ident name host).nickObjs n)).Channels = []
        rw [he, hself]
  | newChannel c =>
    show meTracked (match s.GetChannel c with
        | some _ => s
        | none => s.NewChannel c) ∧
      deadDrained (match s.GetChannel c with
        | some _ => s
        | none => s.NewChannel c)
    cases hg : s.GetChannel c with
    | some cid => exact ⟨hT, hDD⟩
    | none => exact ⟨hT, hDD⟩
  | addNick c n =>
    show meTracked (match s.GetChannel c, s.GetNick n with
        | some cid, some nid => Channel.AddNick s cid nid
        | _, _ => s) ∧
      deadDrained (match s.GetChannel c, s.GetNick n with
        | some cid, some nid => Channel.AddNick s cid nid
        | _, _ => s)
    cases hgc : s.GetChannel c with
    | none => exact ⟨hT, hDD⟩
    | some cid =>
      cases hgn : s.GetNick n with
      | none => exact ⟨hT, hDD⟩
      | some nid =>
        have h2 := hInv.1.nidx n nid hgn
        show meTracked (Channel.AddNick s cid nid) ∧ deadDrained (Channel.AddNick s cid nid)
        unfold Channel.AddNick
        cases hg : lookupA ((s.chanObjs cid)).Nicks nid with
        | some p => exact ⟨hT, hDD⟩
        | none => exact MeSafe_joinBody s cid nid hT hDD (by rw [h2.2]; exact hgn)
  | addChannel n c =>
    show meTracked (match s.GetNick n, s.GetChannel c with
        | some nid, some cid => Nick.AddChannel s nid cid
        | _, _ => s) ∧
      deadDrained (match s.GetNick n, s.GetChannel c with
        | some nid, some cid => Nick.AddChannel s nid cid
        | _, _ => s)
    cases hgn : s.GetNick n with
    | none => exact ⟨hT, hDD⟩
    | some nid =>
      cases hgc : s.GetChannel c with
      | none => exact ⟨hT, hDD⟩
      | some cid =>
        have h2 := hInv.1.nidx n nid hgn
        show meTracked (Nick.AddChannel s nid cid) ∧ deadDrained (Nick.AddChannel s nid cid)
        unfold Nick.AddChannel
        cases hg : lookupA ((s.nickObjs nid)).Channels cid with
        | some p => exact ⟨hT, hDD⟩
        | none => exact MeSafe_joinBody s cid nid hT hDD (by rw [h2.2]; exact hgn)
  | delNick c n =>
    show meTracked (match s.GetChannel c, s.GetNick n with
        | some cid, some nid => (Channel.DelNick (bigFuel s) s cid nid).getD s
        | _, _ => s) ∧
      deadDrained (match s.GetChannel c, s.GetNick n with
        | some cid, some nid => (Channel.DelNick (bigFuel s) s cid nid).getD s
        | _, _ => s)
    cases hgc : s.GetChannel c with
    | none => exact ⟨hT, hDD⟩
    | some cid =>
      cases hgn : s.GetNick n with
      | none => exact ⟨hT, hDD⟩
      | some nid =>
        have h1 := hInv.1.cidx c cid hgc
        have h2 := hInv.1.nidx n nid hgn
        show meTracked ((Channel.DelNick (bigFuel s) s cid nid).getD s) ∧
          deadDrained ((Channel.DelNick (bigFuel s) s cid nid).getD s)
        cases hrun : Channel.DelNick (bigFuel s) s cid nid with
        | none => exact ⟨hT, hDD⟩
        | some s2 =>
          obtain ⟨hB, hTst, _, _⟩ := (cascadeMeSafe (bigFuel s)).1 s cid nid s2 hrun
            (WFids_of_Inv hInv) hT (keySane_of_deadDrained hDD)
            (pairsMirrored_of_Inv hInv) h2.1 (Or.inl h1.1)
          have hfr : FramePost s s2 := ((cascadeFrame (bigFuel s)).1 s cid nid s2 hrun).1
          show meTracked s2 ∧ deadDrained s2
          exact ⟨meTracked_of_B hfr hT hB, deadDrained_of_run hfr hDD hTst⟩
  | delChannel n c =>
    show meTracked (match s.GetNick n, s.GetChannel c with
        | some nid, some cid => (Nick.DelChannel (bigFuel s) s cid nid).getD s
        | _, _ => s) ∧
      deadDrained (match s.GetNick n, s.GetChannel c with
        | some nid, some cid => (Nick.DelChannel (bigFuel s) s cid nid).getD s
        | _, _ => s)
    cases hgn : s.GetNick n with
    | none => exact ⟨hT, hDD⟩
    | some nid =>
      cases hgc : s.GetChannel c with
      | none => exact ⟨hT, hDD⟩
      | some cid =>
        have h1 := hInv.1.cidx c cid hgc
        have h2 := hInv.1.nidx n nid hgn
        show meTracked ((Nick.DelChannel (bigFuel s) s cid nid).getD s) ∧
          deadDrained ((Nick.DelChannel (bigFuel s) s cid nid).getD s)
        cases hrun : Nick.DelChannel (bigFuel s) s cid nid with
        | none => exact ⟨hT, hDD⟩
        | some s2 =>
          obtain ⟨hB, hTst, _⟩ := (cascadeMeSafe (bigFuel s)).2.2.2.1 s cid nid s2 hrun
            (WFids_of_Inv hInv) hT (keySane_of_deadDrained hDD)
            (fun n2 hn2 hne2 c2 p2 hl2 =>
              Or.inr (pairsMirrored_of_Inv hInv n2 hn2 hne2 c2 p2 hl2))
            h2.1 h1.1
          have hfr : FramePost s s2 :=
            ((cascadeFrame (bigFuel s)).2.2.2.1 s cid nid s2 hrun).1
          show meTracked s2 ∧ deadDrained s2
          exact ⟨meTracked_of_B hfr hT hB, deadDrained_of_run hfr hDD hTst⟩
  | deleteChannel c =>
    show meTracked (match s.GetChannel c with
        | some cid => (Channel.Delete (bigFuel s) s cid).getD s
        | none => s) ∧
      deadDrained (match s.GetChannel c with
        | some cid => (Channel.Delete (bigFuel s) s cid).getD s
        | none => s)
    cases hgc : s.GetChannel c with
    | none => exact ⟨hT, hDD⟩
    | some cid =>
      have h1 := hInv.1.cidx c cid hgc
      show meTracked ((Channel.Delete (bigFuel s) s cid).getD s) ∧
        deadDrained ((Channel.Delete (bigFuel s) s cid).getD s)
      cases hrun : Channel.Delete (bigFuel s) s cid with
      | none => exact ⟨hT, hDD⟩
      | some s2 =>
        obtain ⟨hB, hTst, _⟩ := (cascadeMeSafe (bigFuel s)).2.1 s cid s2 hrun
          (WFids_of_Inv hInv) hT (keySane_of_deadDrained hDD)
          (pairsMirrored_of_Inv hInv) h1.1
        have hfr : FramePost s s2 := ((cascadeFrame (bigFuel s)).2.1 s cid s2 hrun).1
        show meTracked s2 ∧ deadDrained s2
        exact ⟨meTracked_of_B hfr hT hB, deadDrained_of_run hfr hDD hTst⟩
  | deleteNick n =>
    show meTracked (match s.GetNick n with
        | some nid => (Nick.Delete (bigFuel s) s nid).getD s
        | none => s) ∧
      deadDrained (match s.GetNick n with
        | some nid => (Nick.Delete (bigFuel s) s nid).getD s
        | none => s)
    cases hgn : s.GetNick n with
    | none => exact ⟨hT, hDD⟩
    | some nid =>
      have h2 := hInv.1.nidx n nid hgn
      have htrk : lookupA s.nicks (((s.nickObjs nid)).Nick) = some nid := by
        rw [h2.2]
        exact hgn
      show meTracked ((Nick.Delete (bigFuel s) s nid).getD s) ∧
        deadDrained ((Nick.Delete (bigFuel s) s nid).getD s)
      cases hrun : Nick.Delete (bigFuel s) s nid with
      | none => exact ⟨hT, hDD⟩
      | some s2 =>
        have hKd : nid = s.Me ∨ ((s.nickObjs nid)).Nick ≠ ((s.nickObjs s.Me)).Nick := by
          by_cases hq : nid = s.Me
          · exact Or.inl hq
          · right
            intro hh
            have htrk2 := htrk
            rw [hh, hmt2] at htrk2
            exact hq (Option.some.inj htrk2).symm
        obtain ⟨hB, hTst, _⟩ := (cascadeMeSafe (bigFuel s)).2.2.2.2.1 s nid s2 hrun
          (WFids_of_Inv hInv) hT (keySane_of_deadDrained hDD)
          (pairsMirrored_of_Inv hInv) h2.1 hKd (Or.inl htrk)
        have hfr : FramePost s s2 := ((cascadeFrame (bigFuel s)).2.2.2.2.1 s nid s2 hrun).1
        show meTracked s2 ∧ deadDrained s2
        exact ⟨meTracked_of_B hfr hT hB, deadDrained_of_run hfr hDD hTst⟩
  | reNick n neu =>
    have hcond : lookupA s.nicks neu = none := hok
    show meTracked (match s.GetNick n with
        | some nid => Nick.ReNick s nid neu
        | none => s) ∧
      deadDrained (match s.GetNick n with
        | some nid => Nick.ReNick s nid neu
        | none => s)
    cases hgn : s.GetNick n with
    | none => exact ⟨hT, hDD⟩
    | some nid =>
      have h2 := hInv.1.nidx n nid hgn
      have htrk : lookupA s.nicks (((s.nickObjs nid)).Nick) = some nid := by
        rw [h2.2]
        exact hgn
      have hself : (Nick.ReNick s nid neu).nickObjs nid =
          { s.nickObjs nid with Nick := neu } := fupd_self _ _ _
      have hpne : ∀ m, m ≠ nid → (Nick.ReNick s nid neu).nickObjs m = s.nickObjs m :=
        fun m hm2 => fupd_ne _ _ _ _ hm2
      have hnicks : (Nick.ReNick s nid neu).nicks =
          insertA (eraseA s.nicks (((s.nickObjs nid)).Nick)) neu nid := by
        show insertA (eraseA s.nicks (((s.nickObjs nid)).Nick))
            ((fupd s.nickObjs nid { s.nickObjs nid with Nick := neu } nid).Nick) nid = _
        rw [fupd_self]
      have hmene : ((s.nickObjs s.Me)).Nick ≠ neu := by
        intro hh
        rw [hh, hcond] at hmt2
        exact Option.noConfusion hmt2
      constructor
      · by_cases hmeq : nid = s.Me
        · subst hmeq
          show lookupA (Nick.ReNick s s.Me neu).nicks
            (((Nick.ReNick s s.Me neu).nickObjs s.Me).Nick) = some s.Me
          rw [hself, hnicks]
          show lookupA (insertA (eraseA s.nicks (((s.nickObjs s.Me)).Nick)) neu s.Me)
            neu = some s.Me
          exact lookupA_insertA_self _ _ _
        · have hkme : ((s.nickObjs nid)).Nick ≠ ((s.nickObjs s.Me)).Nick := by
            intro hh
            have htrk2 := htrk
            rw [hh, hmt2] at htrk2
            exact hmeq (Option.some.inj htrk2).symm
          show lookupA (Nick.ReNick s nid neu).nicks
            (((Nick.ReNick s nid neu).nickObjs s.Me).Nick) = some s.Me
          rw [hpne s.Me (fun hh => hmeq hh.symm), hnicks,
            lookupA_insertA_ne _ _ _ _ hmene,
            lookupA_eraseA_ne _ _ _ hkme.symm]
          exact hmt2
      · intro m hm
        have hm2 : m ∈ s.nickIds := hm
        by_cases hmn : m = nid
        · left
          show lookupA (Nick.ReNick s nid neu).nicks
            (((Nick.ReNick s nid neu).nickObjs m).Nick) = some m
          rw [hmn, hself, hnicks]
          show lookupA (insertA (eraseA s.nicks (((s.nickObjs nid)).Nick)) neu nid)
            neu = some nid
          exact lookupA_insertA_self _ _ _
        · rcases hDD m hm2 with h1 | h1
          · left
            have hney : ((s.nickObjs m)).Nick ≠ neu := by
              intro hh
              rw [hh, hcond] at h1
              exact Option.noConfusion h1
            have hnek : ((s.nickObjs m)).Nick ≠ ((s.nickObjs nid)).Nick := by
              intro hh
              rw [hh, htrk] at h1
              exact hmn (Option.some.inj h1).symm
            show lookupA (Nick.ReNick s nid neu).nicks
              (((Nick.ReNick s nid neu).nickObjs m).Nick) = some m
            rw [hpne m hmn, hnicks, lookupA_insertA_ne _ _ _ _ hney,
              lookupA_eraseA_ne _ _ _ hnek]
            exact h1
          · right
            show (((Nick.ReNick s nid neu).nickObjs m)).Channels = []
            rw [hpne m hmn]
            exact h1

/-- Admissible sequences keep the local identity tracked and every allocated
nick tracked-or-drained. -/
theorem MeSafe_runOps (ops : List Op) : ∀ s : Conn, Inv s → meTracked s →
    deadDrained s → okC3Seq s ops →
    meTracked (runOps s ops) ∧ deadDrained (runOps s ops) := by
  induction ops with
  | nil =>
    intro s _ hT hDD _
    exact ⟨hT, hDD⟩
  | cons op t ih =>
    intro s hInv hT hDD hok
    have hok2 : okC3 s op ∧ okC3Seq (applyOp s op) t := hok
    have hstep := MeSafe_applyOp s op hInv hT hDD hok2.1
    exact ih (applyOp s op) (Inv_applyOp s op hInv) hstep.1 hstep.2 hok2.2

theorem chanModeString_eq_spec (cm : ChanMode) : ChanMode.String cm = chanModeSpec cm := by
  by_cases hk : cm.Key = "" <;> by_cases hl : cm.Limit = 0
  · have hiff : ("+" ++ appendFlags "" cm.boolFlags = "+") ↔ ChanMode.noModes cm := by
      rw [plus_append_eq_plus_iff, appendFlags_empty_iff]
      unfold ChanMode.noModes
      simp [hk, hl]
    simp [ChanMode.String, chanModeSpec, hk, hl, appendFlags_init "+", hiff]
  · have hnm : ¬ ChanMode.noModes cm := by unfold ChanMode.noModes; simp [hl]
    simp [ChanMode.String, chanModeSpec, hk, hl, hnm, appendFlags_init "+",
      intToString_ne_empty, intToString_data_ne_nil, String.append_assoc, String.ext_iff, String.data_append]
  · have hnm : ¬ ChanMode.noModes cm := by unfold ChanMode.noModes; simp [hk]
    simp [ChanMode.String, chanModeSpec, hk, hl, hnm, appendFlags_init "+",
      String.append_assoc, String.ext_iff, String.data_append]
  · have hnm : ¬ ChanMode.noModes cm := by unfold ChanMode.noModes; simp [hk]
    simp [ChanMode.String, chanModeSpec, hk, hl, hnm, appendFlags_init "+",
      intToString_ne_empty, intToString_data_ne_nil, String.append_assoc, String.ext_iff, String.data_append]

/-! ### Concrete scenario used by witnesses: nicks `a` (id 1) and `b` (id 2),
channels `#c` (id 3, members a, b, me) and `#d` (id 4, member b). -/

def scenario : Conn :=
  let s := Conn.NewNick initConn "a" "ai" "an" "ah"
  let s := Conn.NewNick s "b" "bi" "bn" "bh"
  let s := Conn.NewChannel s "#c"
  let s := Conn.NewChannel s "#d"
  let s := Channel.AddNick s 3 1
  let s := Channel.AddNick s 3 2
  let s := Channel.AddNick s 3 0
  Channel.AddNick s 4 2

/-- The scenario after the local identity (id 0) leaves `#c`. -/
def afterLeave : Conn := (Channel.DelNick 40 scenario 3 0).getD scenario

/-! ### Claim theorems -/

/-- Claim C8: for every ChanMode record the encoder produces `"+"` followed by
the characters of the set boolean flags in table order, then the `k`/`l`
characters, then at most two space-separated arguments with the Key value
first and the Limit value second; a record with no flags and no arguments
encodes to `"No modes set"`; and
`{InviteOnly, Key := "secret", Limit := 10}` encodes to `"+ikl secret 10"`. -/
theorem C8_chanmode_encoding :
    (∀ cm : ChanMode, ChanMode.String cm = chanModeSpec cm) ∧
    ChanMode.String
      { ChanMode.zero with InviteOnly := true, Key := "secret", Limit := 10 } =
      "+ikl secret 10" ∧
    ChanMode.String ChanMode.zero = "No modes set" :=
  ⟨chanModeString_eq_spec, by decide, by decide⟩

/-- Claim C4, counterexample: removing an absent membership is a silent no-op;
contrary to the claim, no warning is signalled — the state (warning log
included) is returned entirely unchanged, from both directions. -/
theorem C4_counterexample :
    Channel.DelNick 5 (Conn.NewChannel initConn "#c") 1 0 =
      some (Conn.NewChannel initConn "#c") ∧
    Nick.DelChannel 5 (Conn.NewChannel initConn "#c") 1 0 =
      some (Conn.NewChannel initConn "#c") ∧
    (Conn.NewChannel initConn "#c").warnings = [] ∧
    lookupA ((Conn.NewChannel initConn "#c").chanObjs 1).Nicks 0 = none ∧
    lookupA ((Conn.NewChannel initConn "#c").nickObjs 0).Channels 1 = none := by
  refine ⟨Eq.refl _, Eq.refl _, by decide, by decide, by decide⟩

/-- Claim C4 (amended): removing an absent membership does not raise an error
and leaves the entire state — graph and warning log — unchanged; it is a
silent no-op and, unlike a duplicate addition, emits no warning. -/
theorem C4_redundant_removal_silent (fuel : Nat) (s : Conn) (cid nid : Nat)
    (hc : lookupA (s.chanObjs cid).Nicks nid = none)
    (hn : lookupA (s.nickObjs nid).Channels cid = none) :
    Channel.DelNick (fuel+1) s cid nid = some s ∧
    Nick.DelChannel (fuel+1) s cid nid = some s := by
  rw [DelNick_succ, DelChannel_succ, hc, hn]
  exact ⟨Eq.refl _, Eq.refl _⟩

theorem C4_redundant_removal_silent_witness :
    lookupA ((Conn.NewChannel initConn "#c").chanObjs 1).Nicks 0 = none ∧
    lookupA ((Conn.NewChannel initConn "#c").nickObjs 0).Channels 1 = none ∧
    (Channel.DelNick 8 (Conn.NewChannel initConn "#c") 1 0 =
        some (Conn.NewChannel initConn "#c") ∧
      Nick.DelChannel 8 (Conn.NewChannel initConn "#c") 1 0 =
        some (Conn.NewChannel initConn "#c")) :=
  ⟨by decide, by decide,
    C4_redundant_removal_silent 7 (Conn.NewChannel initConn "#c") 1 0
      (by decide) (by decide)⟩

/-- Claim C5: when the two sides of the pair agree (the mirroring invariant at
that pair), the channel-initiated join `Channel.AddNick` and the
nick-initiated join `Nick.AddChannel` produce the same graph state — same
indices, same membership maps, same shared ChanPrivs allocation — differing at
most in the text of the warning log. -/
theorem C5_join_direction_equiv (s : Conn) (cid nid : Nat)
    (h : lookupA (s.nickObjs nid).Channels cid = lookupA (s.chanObjs cid).Nicks nid) :
    stripWarnings (Channel.AddNick s cid nid) = stripWarnings (Nick.AddChannel s nid cid) := by
  unfold Channel.AddNick Nick.AddChannel
  rw [h]
  cases hx : lookupA (s.chanObjs cid).Nicks nid <;> simp [stripWarnings]

theorem C5_join_direction_equiv_witness :
    (lookupA ((scenario.nickObjs 1).Channels) 4 = lookupA ((scenario.chanObjs 4).Nicks) 1) ∧
    stripWarnings (Channel.AddNick scenario 4 1) = stripWarnings (Nick.AddChannel scenario 1 4) :=
  ⟨by decide, C5_join_direction_equiv scenario 4 1 (by decide)⟩

/-- Claim C6: joining an already-member pair, from either direction, changes
nothing but the warning log: the whole graph state — in particular the shared
ChanPrivs id on both sides and the privilege heap holding its flag contents —
is untouched; the only effect is one duplicate-association warning. -/
theorem C6_duplicate_join_noop (s : Conn) (cid nid pid : Nat)
    (hc : lookupA (s.chanObjs cid).Nicks nid = some pid)
    (hn : lookupA (s.nickObjs nid).Channels cid = some pid) :
    Channel.AddNick s cid nid =
      { s with warnings := s.warnings ++ [addNickWarning s cid nid] } ∧
    Nick.AddChannel s nid cid =
      { s with warnings := s.warnings ++ [addChannelWarning s nid cid] } := by
  unfold Channel.AddNick Nick.AddChannel
  rw [hc, hn]
  exact ⟨Eq.refl _, Eq.refl _⟩

theorem C6_duplicate_join_noop_witness :
    lookupA ((scenario.chanObjs 3).Nicks) 1 = some 5 ∧
    lookupA ((scenario.nickObjs 1).Channels) 3 = some 5 ∧
    (Channel.AddNick scenario 3 1 =
        { scenario with warnings := scenario.warnings ++ [addNickWarning scenario 3 1] } ∧
      Nick.AddChannel scenario 1 3 =
        { scenario with warnings := scenario.warnings ++ [addChannelWarning scenario 1 3] }) :=
  ⟨by decide, by decide, C6_duplicate_join_noop scenario 3 1 5 (by decide) (by decide)⟩

/-- Claim C7, counterexample: renaming a tracked nick to its current name is a
rename after which the old name still resolves (to the same object), contrary
to the claim that the old name is no longer resolvable. -/
theorem C7_counterexample :
    lookupA initConn.nicks "me" = some 0 ∧
    (initConn.nickObjs 0).Nick = "me" ∧
    lookupA (Nick.ReNick initConn 0 "me").nicks "me" = some 0 := by
  refine ⟨?_, ?_, ?_⟩ <;> decide

/-- Claim C7 (amended): for a tracked nick renamed to a name different from
its current one, the new name resolves to the same object, the old name no
longer resolves, and everything else — the nick's other fields and its
membership map, all channel objects, the privilege heap — is unchanged. -/
theorem C7_rename_rekeys (s : Conn) (nid : Nat) (neu : String)
    (htracked : lookupA s.nicks ((s.nickObjs nid).Nick) = some nid)
    (hne : neu ≠ (s.nickObjs nid).Nick) :
    lookupA (Nick.ReNick s nid neu).nicks neu = some nid ∧
    lookupA (Nick.ReNick s nid neu).nicks ((s.nickObjs nid).Nick) = none ∧
    (Nick.ReNick s nid neu).nickObjs nid = { s.nickObjs nid with Nick := neu } ∧
    (∀ m, m ≠ nid → (Nick.ReNick s nid neu).nickObjs m = s.nickObjs m) ∧
    (Nick.ReNick s nid neu).chanObjs = s.chanObjs ∧
    (Nick.ReNick s nid neu).privObjs = s.privObjs ∧
    (Nick.ReNick s nid neu).warnings = s.warnings ∧
    ((Nick.ReNick s nid neu).nickObjs nid).Channels = (s.nickObjs nid).Channels := by
  unfold Nick.ReNick
  refine ⟨?_, ?_, ?_, ?_, ?_, ?_, ?_, ?_⟩
  · simp [updNick, fupd_self, lookupA_insertA_self]
  · simp only [updNick, fupd_self]
    rw [lookupA_insertA_ne _ _ _ _ (fun hh => hne hh.symm)]
    exact lookupA_eraseA_self _ _
  · simp [updNick, fupd_self]
  · intro m hm
    simp [updNick, fupd_ne _ _ _ _ hm]
  · simp [updNick]
  · simp [updNick]
  · simp [updNick]
  · simp [updNick, fupd_self]

theorem C7_rename_rekeys_witness :
    lookupA scenario.nicks ((scenario.nickObjs 1).Nick) = some 1 ∧
    ("x" : String) ≠ (scenario.nickObjs 1).Nick ∧
    (lookupA (Nick.ReNick scenario 1 "x").nicks "x" = some 1 ∧
      lookupA (Nick.ReNick scenario 1 "x").nicks ((scenario.nickObjs 1).Nick) = none ∧
      (Nick.ReNick scenario 1 "x").nickObjs 1 = { scenario.nickObjs 1 with Nick := "x" } ∧
      (∀ m, m ≠ 1 → (Nick.ReNick scenario 1 "x").nickObjs m = scenario.nickObjs m) ∧
      (Nick.ReNick scenario 1 "x").chanObjs = scenario.chanObjs ∧
      (Nick.ReNick scenario 1 "x").privObjs = scenario.privObjs ∧
      (Nick.ReNick scenario 1 "x").warnings = scenario.warnings ∧
      ((Nick.ReNick scenario 1 "x").nickObjs 1).Channels = (scenario.nickObjs 1).Channels) :=
  ⟨by decide, by decide, C7_rename_rekeys scenario 1 "x" (by decide) (by decide)⟩

/-- Claim C2: in the concrete configuration where channel `#c` is tracked with
members A (`a`, only channel `#c`), B (`b`, also on `#d`) and the local
identity, the local identity leaving `#c` (Channel.DelNick with conn.Me)
leaves a state in which `#c` is gone from the channel index, neither A nor B
has `#c` in its channel map, A (no other channels) is gone from the nickname
index, while B (still on `#d`) remains. -/
theorem C2_self_leave_cascade :
    (Channel.DelNick 40 scenario 3 0).isSome = true ∧
    lookupA afterLeave.chans "#c" = none ∧
    lookupA ((afterLeave.nickObjs 1).Channels) 3 = none ∧
    lookupA ((afterLeave.nickObjs 2).Channels) 3 = none ∧
    lookupA afterLeave.nicks "a" = none ∧
    lookupA afterLeave.nicks "b" = some 2 ∧
    lookupA afterLeave.nicks "me" = some 0 ∧
    lookupA ((afterLeave.nickObjs 2).Channels) 4 = some 8 := by
  refine ⟨?_, ?_, ?_, ?_, ?_, ?_, ?_, ?_⟩ <;> decide

/-- Claim C9: on every well-formed state (membership entries reference
allocated objects, as in every state the Go program can reach), each of the
four cascade entry points — Channel.DelNick, Nick.DelChannel, Channel.Delete,
Nick.Delete — computes a result with enough fuel: the existence-check-guarded
mutual recursion always terminates, so each leave/delete operation is a total
function on the state. -/
theorem C9_cascade_terminates (s : Conn) (hw : WFids s) (cid nid : Nat)
    (hc : cid ∈ s.chanIds) (hn : nid ∈ s.nickIds) :
    (∃ fuel s', Channel.DelNick fuel s cid nid = some s') ∧
    (∃ fuel s', Nick.DelChannel fuel s cid nid = some s') ∧
    (∃ fuel s', Channel.Delete fuel s cid = some s') ∧
    (∃ fuel s', Nick.Delete fuel s nid = some s') := by
  obtain ⟨hN, _, hCD, hCDN, _, hND⟩ :=
    cascadeFuelSufficient (totalEntries s) s hw (Nat.le_refl _)
  exact ⟨hCDN cid nid hc hn, hN cid nid hc hn, hCD cid hc, hND nid hn⟩

theorem C9_cascade_terminates_witness :
    WFids scenario ∧ 3 ∈ scenario.chanIds ∧ 1 ∈ scenario.nickIds ∧
    ((∃ fuel s', Channel.DelNick fuel scenario 3 1 = some s') ∧
      (∃ fuel s', Nick.DelChannel fuel scenario 3 1 = some s') ∧
      (∃ fuel s', Channel.Delete fuel scenario 3 = some s') ∧
      (∃ fuel s', Nick.Delete fuel scenario 1 = some s')) :=
  ⟨by decide, by decide, by decide,
    C9_cascade_terminates scenario (by decide) 3 1 (by decide) (by decide)⟩

/-- Claim C10: when the local identity is a member of channel `cid` and leaves
it via `Channel.DelNick` (which triggers `Channel.Delete`), the destroyed
Channel object's own member map still contains the local identity's entry
(with the same shared ChanPrivs id), even though the local identity's channel
map no longer contains the channel and the channel is gone from the index. -/
theorem C10_me_entry_survives (fuel : Nat) (s : Conn) (cid p : Nat) (s' : Conn)
    (hmem : lookupA (s.chanObjs cid).Nicks s.Me = some p)
    (hrun : Channel.DelNick fuel s cid s.Me = some s') :
    lookupA (s'.chanObjs cid).Nicks s.Me = some p ∧
    lookupA (s'.nickObjs s.Me).Channels cid = none ∧
    lookupA s'.chans ((s.chanObjs cid).Name) = none := by
  cases fuel with
  | zero => simp [DelNick_zero] at hrun
  | succ fuel =>
    rw [DelNick_succ, hmem] at hrun
    simp only [if_pos] at hrun
    obtain ⟨hf, hidx, hmembers⟩ := (cascadeFrame fuel).2.1 s cid s' hrun
    refine ⟨?_, ?_, hidx⟩
    · rw [hf.me_chan cid]
      exact hmem
    · exact hmembers s.Me
        (List.mem_map.mpr ⟨(s.Me, p), mem_of_lookupA_some _ _ _ hmem, Eq.refl _⟩)

theorem C10_me_entry_survives_witness :
    lookupA ((scenario.chanObjs 3).Nicks) scenario.Me = some 7 ∧
    Channel.DelNick 40 scenario 3 scenario.Me = some afterLeave ∧
    (lookupA ((afterLeave.chanObjs 3).Nicks) scenario.Me = some 7 ∧
      lookupA ((afterLeave.nickObjs scenario.Me).Channels) 3 = none ∧
      lookupA afterLeave.chans ((scenario.chanObjs 3).Name) = none) :=
  ⟨by decide, Eq.refl _,
    C10_me_entry_survives 40 scenario 3 7 afterLeave (by decide) (Eq.refl _)⟩

/-- Claim C1: for every Nick and Channel tracked in the indices, the
channel's member map has an entry for the nick if and only if the nick's
channel map has an entry for the channel, and when both exist they reference
the identical shared ChanPrivs record (the two lookups return the same
value); this holds after every sequence of public operations, join/leave
included and applied from either side, starting from the empty store. -/
theorem C1_mirror_invariant (ops : List Op) (kn : String) (nid : Nat)
    (hn : lookupA (runOps initConn ops).nicks kn = some nid)
    (kc : String) (cid : Nat)
    (hc : lookupA (runOps initConn ops).chans kc = some cid) :
    lookupA ((runOps initConn ops).nickObjs nid).Channels cid =
      lookupA ((runOps initConn ops).chanObjs cid).Nicks nid := by
  have hInv : Inv (runOps initConn ops) := Inv_runOps ops initConn Inv_initConn
  have h1 := hInv.1.nidx kn nid hn
  have h2 := hInv.1.cidx kc cid hc
  have hIdx : Indexed (runOps initConn ops) cid := by
    unfold Indexed
    rw [h2.2]
    exact hc
  exact hInv.2.2 nid h1.1 cid hIdx

theorem C1_mirror_invariant_witness :
    lookupA (runOps initConn [Op.newChannel "#c", Op.addNick "#c" "me"]).nicks "me" =
      some 0 ∧
    lookupA (runOps initConn [Op.newChannel "#c", Op.addNick "#c" "me"]).chans "#c" =
      some 1 ∧
    lookupA ((runOps initConn
        [Op.newChannel "#c", Op.addNick "#c" "me"]).nickObjs 0).Channels 1 =
      lookupA ((runOps initConn
        [Op.newChannel "#c", Op.addNick "#c" "me"]).chanObjs 1).Nicks 0 :=
  ⟨by decide, by decide,
    C1_mirror_invariant [Op.newChannel "#c", Op.addNick "#c" "me"] "me" 0 (by decide)
      "#c" 1 (by decide)⟩

/-- Claim C3 counterexample: the claim admits arbitrary rename operations,
but renaming another tracked nick to the local identity's current name
evicts `conn.Me` from the nickname index (the colliding insert overwrites
the key): from the empty store, after creating nick "a" and renaming it to
"me", the index holds only the entry ("me", 1) — the local identity (id 0,
previously indexed under "me") has been removed. -/
theorem C3_counterexample :
    initConn.Me = 0 ∧
    lookupA initConn.nicks "me" = some 0 ∧
    (runOps initConn [Op.newNick "a" "ai" "an" "ah", Op.reNick "a" "me"]).Me = 0 ∧
    (runOps initConn [Op.newNick "a" "ai" "an" "ah", Op.reNick "a" "me"]).nicks =
      [("me", 1)] :=
  ⟨by decide, by decide, by decide, by decide⟩

/-- Claim C3 (amended): for every sequence of join, leave and delete
operations — with creations and renames restricted to new names that are
not the current name of any tracked nick — starting from the empty store,
the local identity `conn.Me` stays in the nickname index under its current
name, even when its channel-membership count reaches zero and even during
channel-destruction cascades (`Nick.Delete` skips `conn.Me`, and cascades
only ever erase other nicks' index keys). -/
theorem C3_me_never_removed (ops : List Op) (hok : okC3Seq initConn ops) :
    lookupA (runOps initConn ops).nicks
      (((runOps initConn ops).nickObjs (runOps initConn ops).Me).Nick) =
      some (runOps initConn ops).Me := by
  have hT : meTracked initConn := by decide
  have hDD : deadDrained initConn := by decide
  exact (MeSafe_runOps ops initConn Inv_initConn hT hDD hok).1

theorem C3_me_never_removed_witness :
    okC3Seq initConn [Op.newChannel "#c", Op.addNick "#c" "me",
      Op.reNick "me" "neo", Op.delNick "#c" "neo"] ∧
    lookupA (runOps initConn [Op.newChannel "#c", Op.addNick "#c" "me",
        Op.reNick "me" "neo", Op.delNick "#c" "neo"]).nicks
      (((runOps initConn [Op.newChannel "#c", Op.addNick "#c" "me",
          Op.reNick "me" "neo", Op.delNick "#c" "neo"]).nickObjs
        (runOps initConn [Op.newChannel "#c", Op.addNick "#c" "me",
          Op.reNick "me" "neo", Op.delNick "#c" "neo"]).Me).Nick) =
      some (runOps initConn [Op.newChannel "#c", Op.addNick "#c" "me",
        Op.reNick "me" "neo", Op.delNick "#c" "neo"]).Me :=
  ⟨by decide,
    C3_me_never_removed [Op.newChannel "#c", Op.addNick "#c" "me",
      Op.reNick "me" "neo", Op.delNick "#c" "neo"] (by decide)⟩

end Goirc
